import Mathlib

/-!
# gofeed `internal/shared/parseutils.go`: entity decoding and CDATA stripping

A shallow embedding of `DecodeEntities`, `StripCDATA`, `ParseText` and
`ParseNameAddress` (with the Go standard-library routines they call) and
theorems about them.

Go strings and byte slices are modelled as lists of bytes.  A Go result
`(string, error)` is a pair whose second component is `none` for a `nil`
error.  An index result of `-1` ("not found") is `none`.

Bytes that the code compares with are written as numbers: `38` is `&`,
`59` is `;`, `32` is the space, `35` is `#`, `120` is `x`; `60`, `62`, `34`
and `39` are `<`, `>`, the double and the single quote.
-/

namespace Gofeed

/-- A Go `string` / `[]byte`: a finite sequence of bytes. -/
abbrev Bytes := List UInt8

/-- The bytes of a string literal (its UTF-8 encoding, as in Go source text). -/
def lit (s : String) : Bytes := s.toUTF8.data.toList

/-- Go slice expression `s[lo:hi]` (for `lo ≤ hi ≤ len(s)`). -/
def slice (s : Bytes) (lo hi : Nat) : Bytes := (s.take hi).drop lo

/-! ## Go standard library routines used by the source -/

/-- Go `bytes.IndexByte(b, c)`: index of the first `c` in `b`, `none` for `-1`. -/
def IndexByte : Bytes → UInt8 → Option Nat
  | [], _ => none
  | b :: bs, c => if b = c then some 0 else (IndexByte bs c).map (· + 1)

/-- Go `strings.HasPrefix(s, p)`. -/
def HasPrefix : Bytes → Bytes → Bool
  | _, [] => true
  | [], _ :: _ => false
  | b :: bs, p :: ps => if b = p then HasPrefix bs ps else false

/-- Go `strings.Index(s, substr)`: index of the first instance of `substr`
in `s`, `none` for `-1`. -/
def Index : Bytes → Bytes → Option Nat
  | [], substr => if substr = [] then some 0 else none
  | b :: bs, substr =>
    if HasPrefix (b :: bs) substr then some 0 else (Index bs substr).map (· + 1)

/-- Go `strings.Contains(s, substr)`, which is `Index(s, substr) >= 0`. -/
def Contains (s substr : Bytes) : Bool := (Index s substr).isSome

/-- The error values of `strconv.ParseUint`. -/
inductive NumError
  | ErrSyntax
  | ErrRange
  deriving DecidableEq, Repr

/-- Go `strconv.lower(c)`, which is `c | ('x' - 'X')`. -/
def lower (c : UInt8) : UInt8 := c ||| 0x20

/-- The digit `d` that the `switch` in the loop of `strconv.ParseUint` gives
for the byte `c` (for an explicit base, where `_` is no digit); `none` when
the `default` case is taken. -/
def digitOf (c : UInt8) : Option UInt8 :=
  if 48 ≤ c ∧ c ≤ 57 then some (c - 48)
  else if 97 ≤ lower c ∧ lower c ≤ 122 then some (lower c - 97 + 10)
  else none

/-- The digit loop of `strconv.ParseUint` for an explicit base: `n` is the
accumulator, a `uint64`. -/
def parseUintLoop (base cutoff maxVal : Nat) : Bytes → Nat → Nat × Option NumError
  | [], n => (n, none)
  | c :: cs, n =>
    match digitOf c with
    | none => (0, some NumError.ErrSyntax)
    | some d =>
      if d.toNat ≥ base % 256 then (0, some NumError.ErrSyntax)
      else if n ≥ cutoff then (maxVal, some NumError.ErrRange)
      else
        let n := n * base % 2 ^ 64
        let n1 := (n + d.toNat) % 2 ^ 64
        if n1 < n ∨ n1 > maxVal then (maxVal, some NumError.ErrRange)
        else parseUintLoop base cutoff maxVal cs n1

/-- Go `strconv.ParseUint(s, base, bitSize)` for `2 ≤ base ≤ 36` and
`0 < bitSize ≤ 64`, the only way the source calls it (base 10 or 16, 32 bits). -/
def ParseUint (s : Bytes) (base bitSize : Nat) : Nat × Option NumError :=
  if s = [] then (0, some NumError.ErrSyntax)
  else
    let cutoff := (2 ^ 64 - 1) / base + 1
    let maxVal := 2 ^ bitSize - 1
    parseUintLoop base cutoff maxVal s 0

/-- Go conversion `rune(i)` of a `uint64` to `int32` (two's complement wrap). -/
def rune (i : Nat) : Int :=
  if i % 2 ^ 32 < 2 ^ 31 then (i % 2 ^ 32 : Nat) else ((i % 2 ^ 32 : Nat) : Int) - 2 ^ 32

/-- Go conversion `uint32(r)` of an `int32`. -/
def uint32 (r : Int) : Nat := (r % 2 ^ 32).toNat

/-- Go conversion `byte(r)` of an `int32`. -/
def byte (r : Int) : UInt8 := UInt8.ofNat (r % 256).toNat

/-- The three-byte case of `utf8.appendRuneNonASCII`. -/
def appendRune3 (r : Int) : Bytes :=
  [(0xE0 : UInt8) ||| byte (r >>> (12 : Nat)), (0x80 : UInt8) ||| (byte (r >>> (6 : Nat)) &&& 0x3F),
   (0x80 : UInt8) ||| (byte r &&& 0x3F)]

/-- Go `utf8.appendRuneNonASCII` (the bytes appended). -/
def appendRuneNonASCII (r : Int) : Bytes :=
  let i := uint32 r
  if i ≤ 0x7FF then
    [(0xC0 : UInt8) ||| byte (r >>> (6 : Nat)), (0x80 : UInt8) ||| (byte r &&& 0x3F)]
  else if i > 0x10FFFF ∨ (0xD800 ≤ i ∧ i ≤ 0xDFFF) then
    -- r = RuneError; fallthrough
    appendRune3 0xFFFD
  else if i ≤ 0xFFFF then
    appendRune3 r
  else
    [(0xF0 : UInt8) ||| byte (r >>> (18 : Nat)), (0x80 : UInt8) ||| (byte (r >>> (12 : Nat)) &&& 0x3F),
     (0x80 : UInt8) ||| (byte (r >>> (6 : Nat)) &&& 0x3F), (0x80 : UInt8) ||| (byte r &&& 0x3F)]

/-- Go `utf8.AppendRune` (the bytes appended). -/
def AppendRune (r : Int) : Bytes :=
  if uint32 r ≤ 0x7F then [byte r] else appendRuneNonASCII r

/-- Go `(*bytes.Buffer).WriteRune(r)`: the bytes appended to the buffer
(the rune is compared as `uint32`, as in current Go releases). -/
def WriteRune (r : Int) : Bytes :=
  if uint32 r < 0x80 then [byte r] else AppendRune r

/-! ## The source: `parseutils.go` -/

/-- The error values `DecodeEntities` can be asked about: the two package
variables made with `errors.New`, and a value made by `fmt.Errorf` carrying
its formatted message. -/
inductive Error
  | TruncatedEntity
  | InvalidNumericReference
  | Errorf (msg : Bytes)
  deriving DecidableEq, Repr

/-- The message of `fmt.Errorf("unknown predefined entity &%s;", name)`. -/
def unknownEntityMsg (name : Bytes) : Bytes :=
  lit "unknown predefined entity &" ++ name ++ lit ";"

/-- Source constant `CDATA_START`. -/
def CDATA_START : Bytes := lit "<![CDATA["

/-- Source constant `CDATA_END`. -/
def CDATA_END : Bytes := lit "]]>"

/-- Outcome of one pass through the body of the `for` loop of
`DecodeEntities`: either the function returns, or the loop goes round again
with new `data` and `buf`. -/
inductive Step
  | ret (result : Bytes × Option Error)
  | next (data buf : Bytes)
  deriving DecidableEq, Repr

/-- The body of the loop `for len(data) > 0` of `DecodeEntities`. -/
def decodeBody (data buf : Bytes) : Step :=
  -- Find the next entity
  match IndexByte data 38 with
  | none => .ret (buf ++ data, none)  -- buf.Write(data); break
  | some idx =>
    let buf := buf ++ data.take idx
    let data := data.drop idx
    -- If there is only the '&' left here
    if data.length = 1 then .ret (buf ++ data, none)
    else
      -- Find the end of the entity
      match IndexByte data 59 with
      | none => .ret (buf ++ data, none)
      | some end_ =>
        if Contains (slice data 1 end_) (lit " ") then .ret (buf ++ data, none)
        else if data[1]? = some 35 then
          -- Numerical character reference
          let (str, base) :=
            if data.length > 2 ∧ data[2]? = some 120 then (slice data 3 end_, 16)
            else (slice data 2 end_, 10)
          match ParseUint str base 32 with
          | (_, some _) => .ret ([], some Error.InvalidNumericReference)
          | (i, none) => .next (data.drop (end_ + 1)) (buf ++ WriteRune (rune i))
        else
          -- Predefined entity
          let name := slice data 1 end_
          if name = lit "lt" then .next (data.drop (end_ + 1)) (buf ++ [60])
          else if name = lit "gt" then .next (data.drop (end_ + 1)) (buf ++ [62])
          else if name = lit "quot" then .next (data.drop (end_ + 1)) (buf ++ [34])
          else if name = lit "apos" then .next (data.drop (end_ + 1)) (buf ++ [39])
          else if name = lit "amp" then .next (data.drop (end_ + 1)) (buf ++ [38])
          else .ret ([], some (Error.Errorf (unknownEntityMsg name)))

/-- The loop of `DecodeEntities`.  The first argument bounds the number of
passes; every pass that continues shortens `data`, so `len(data)` passes
are always enough (`decodeLoop_fuel`). -/
def decodeLoop : Nat → Bytes → Bytes → Bytes × Option Error
  | 0, _, buf => (buf, none)
  | fuel + 1, data, buf =>
    if data.length > 0 then
      match decodeBody data buf with
      | .ret result => result
      | .next data buf => decodeLoop fuel data buf
    else (buf, none)

/-- `DecodeEntities` decodes escaped XML entities in a string and returns
the unescaped string. -/
def DecodeEntities (str : Bytes) : Bytes × Option Error :=
  decodeLoop str.length str []

/-- Source `indexAt(str, substr, start)`. -/
def indexAt (str substr : Bytes) (start : Nat) : Option Nat :=
  (Index (str.drop start) substr).map (· + start)

/-- The loop `for curr < len(str)` of `StripCDATA`.  The first argument
bounds the number of passes; every pass that continues increases `curr`, so
`len(str)` passes are always enough (`stripLoop_fuel`). -/
def stripLoop (str : Bytes) : Nat → Nat → Bytes → Bytes
  | 0, _, buf => buf
  | fuel + 1, curr, buf =>
    if curr < str.length then
      match indexAt str CDATA_START curr with
      | none => buf ++ (DecodeEntities (str.drop curr)).1
      | some start =>
        match indexAt str CDATA_END start with
        | none => buf ++ (DecodeEntities (str.drop curr)).1
        | some end_ =>
          stripLoop str fuel (curr + end_ + CDATA_END.length)
            (buf ++ slice str (start + CDATA_START.length) end_)
    else buf

/-- `StripCDATA` removes CDATA tags from the string; content outside of
CDATA tags is passed via `DecodeEntities`. -/
def StripCDATA (str : Bytes) : Bytes :=
  stripLoop str str.length 0 []

/-! ## Specification-side definitions

The predicates and reference functions the theorems below are stated with. -/

/-- The reference `&mid;` at the head of `data`, as the loop body sees it:
`mid` is `data[1:end]` and `suf` is `data[end+1:]`. -/
def refBody (mid suf buf : Bytes) : Step :=
  if 32 ∈ mid then .ret (buf ++ 38 :: (mid ++ 59 :: suf), none)
  else if mid[0]? = some 35 then
    match (if mid[1]? = some 120 then ParseUint (mid.drop 2) 16 32
           else ParseUint (mid.drop 1) 10 32) with
    | (_, some _) => .ret ([], some Error.InvalidNumericReference)
    | (i, none) => .next suf (buf ++ WriteRune (rune i))
  else if mid = [108, 116] then .next suf (buf ++ [60])
  else if mid = [103, 116] then .next suf (buf ++ [62])
  else if mid = [113, 117, 111, 116] then .next suf (buf ++ [34])
  else if mid = [97, 112, 111, 115] then .next suf (buf ++ [39])
  else if mid = [97, 109, 112] then .next suf (buf ++ [38])
  else .ret ([], some (Error.Errorf (unknownEntityMsg mid)))

/-- The results `DecodeEntities` can give: a string with a `nil` error, or
the empty string with `InvalidNumericReference` or with an unknown-entity
error made by `fmt.Errorf`. -/
def ResultOK (r : Bytes × Option Error) : Prop :=
  r.2 = none ∨ r = ([], some Error.InvalidNumericReference) ∨
    ∃ name, r = ([], some (Error.Errorf (unknownEntityMsg name)))

/-- A decimal digit character, `0` to `9`. -/
def isDecDigit (c : UInt8) : Prop := 48 ≤ c ∧ c ≤ 57

/-- A hexadecimal digit character: `0` to `9`, `a` to `f`, `A` to `F`. -/
def isHexDigit (c : UInt8) : Prop := (48 ≤ c ∧ c ≤ 57) ∨ (97 ≤ c ∧ c ≤ 102) ∨ (65 ≤ c ∧ c ≤ 70)

/-- A digit character of base 10 or 16. -/
def isDigit (base : Nat) (c : UInt8) : Prop := if base = 16 then isHexDigit c else isDecDigit c

instance (c : UInt8) : Decidable (isDecDigit c) := by unfold isDecDigit; infer_instance
instance (c : UInt8) : Decidable (isHexDigit c) := by unfold isHexDigit; infer_instance
instance (base : Nat) (c : UInt8) : Decidable (isDigit base c) := by
  unfold isDigit; infer_instance

/-- The value of a digit character. -/
def digitVal (c : UInt8) : Nat :=
  if c ≤ 57 then c.toNat - 48 else if c ≤ 70 then c.toNat - 55 else c.toNat - 87

/-- The number a digit string denotes in the given base, most significant
digit first. -/
def numValue (base : Nat) (s : Bytes) : Nat := s.foldl (fun a c => a * base + digitVal c) 0

/-- A valid unsigned number in base 10 or 16: a non-empty string of digits of
that base whose value fits in 32 bits. -/
def ValidUnsigned (base : Nat) (s : Bytes) : Prop :=
  s ≠ [] ∧ (∀ c ∈ s, isDigit base c) ∧ numValue base s < 2 ^ 32

/-- The digit the code reads agrees with the digit characters of base 10 and 16. -/
def DigitSpec (c : UInt8) : Prop :=
  match digitOf c with
  | some d => (d.toNat < 10 ↔ isDecDigit c) ∧ (d.toNat < 16 ↔ isHexDigit c) ∧
      (d.toNat < 16 → digitVal c = d.toNat)
  | none => ¬ isHexDigit c ∧ ¬ isDecDigit c

instance (c : UInt8) : Decidable (DigitSpec c) := by
  unfold DigitSpec
  cases digitOf c <;> infer_instance

instance (base : Nat) (s : Bytes) : Decidable (ValidUnsigned base s) := by
  unfold ValidUnsigned; infer_instance

/-- The number a numeric reference `&#body;` declares: hexadecimal for the
part after a leading `x`, decimal otherwise. -/
def DeclaredValid (body : Bytes) : Prop :=
  if body[0]? = some 120 then ValidUnsigned 16 (body.drop 1) else ValidUnsigned 10 body

instance (body : Bytes) : Decidable (DeclaredValid body) := by
  unfold DeclaredValid; infer_instance

/-- The concatenation of the blocks `"<![CDATA[" ++ p ++ "]]>"` for the
payloads `ps`, in order. -/
def blocks (ps : List Bytes) : Bytes :=
  (ps.map (fun p => CDATA_START ++ p ++ CDATA_END)).flatten

/-- The character of a decimal digit `d < 10`. -/
def decDigitChar (d : Nat) : UInt8 := UInt8.ofNat (48 + d)

/-- The character of a hexadecimal digit `d < 16`, in lower or upper case. -/
def hexDigitChar (upper : Bool) (d : Nat) : UInt8 :=
  if d < 10 then UInt8.ofNat (48 + d)
  else if upper then UInt8.ofNat (55 + d) else UInt8.ofNat (87 + d)

/-- The decimal digits of `n`, most significant first, no leading zero. -/
def decimalDigits (n : Nat) : Bytes :=
  if n = 0 then [48] else (Nat.digits 10 n).reverse.map decDigitChar

/-- The hexadecimal digits of `n`, most significant first, no leading zero. -/
def hexDigits (upper : Bool) (n : Nat) : Bytes :=
  if n = 0 then [48] else (Nat.digits 16 n).reverse.map (hexDigitChar upper)

/-- The UTF-8 encoding of the code point `n ≤ 0x10FFFF` (RFC 3629): one to
four bytes, `0xxxxxxx`, `110xxxxx 10xxxxxx`, `1110xxxx 10xxxxxx 10xxxxxx` or
`11110xxx 10xxxxxx 10xxxxxx 10xxxxxx`. -/
def utf8Encode (n : Nat) : Bytes :=
  if n < 0x80 then [UInt8.ofNat n]
  else if n < 0x800 then [UInt8.ofNat (0xC0 + n / 64), UInt8.ofNat (0x80 + n % 64)]
  else if n < 0x10000 then
    [UInt8.ofNat (0xE0 + n / 4096), UInt8.ofNat (0x80 + n / 64 % 64), UInt8.ofNat (0x80 + n % 64)]
  else
    [UInt8.ofNat (0xF0 + n / 262144), UInt8.ofNat (0x80 + n / 4096 % 64),
     UInt8.ofNat (0x80 + n / 64 % 64), UInt8.ofNat (0x80 + n % 64)]

/-- Go `utf8.first[b]`: information about the first byte of a UTF-8 sequence
(`as = 0xF0` for ASCII, `xx = 0xF1` for an invalid first byte, otherwise the
accept-range index in the high and the size in the low four bits). -/
def first (b : UInt8) : UInt8 :=
  if b < 0x80 then 0xF0
  else if b < 0xC2 then 0xF1
  else if b < 0xE0 then 0x02
  else if b = 0xE0 then 0x13
  else if b < 0xED then 0x03
  else if b = 0xED then 0x23
  else if b < 0xF0 then 0x03
  else if b = 0xF0 then 0x34
  else if b < 0xF4 then 0x04
  else if b = 0xF4 then 0x44
  else 0xF1

/-- Go `utf8.acceptRanges[i]`, as the pair `(lo, hi)`. -/
def acceptRanges (i : Nat) : UInt8 × UInt8 :=
  match i with
  | 0 => (0x80, 0xBF)
  | 1 => (0xA0, 0xBF)
  | 2 => (0x80, 0x9F)
  | 3 => (0x90, 0xBF)
  | 4 => (0x80, 0x8F)
  | _ => (0, 0)

/-- Go `utf8.RuneError`. -/
def RuneError : Int := 0xFFFD

/-- Go `utf8.DecodeRuneInString(s)`: the first rune of `s` and its width in
bytes; `(RuneError, 1)` for an invalid sequence, `(RuneError, 0)` for the
empty string. -/
def DecodeRuneInString (s : Bytes) : Int × Nat :=
  match s with
  | [] => (RuneError, 0)
  | s0 :: _ =>
    let x := first s0
    if x ≥ 0xF0 then
      -- mask := rune(x) << 31 >> 31 is all ones for xx and zero for as
      if x.toNat % 2 = 1 then (RuneError, 1) else ((s0.toNat : Int), 1)
    else
      let sz := (x &&& 7).toNat
      let accept := acceptRanges (x >>> 4).toNat
      if s.length < sz then (RuneError, 1)
      else
        let s1 := s.getD 1 0
        if s1 < accept.1 ∨ accept.2 < s1 then (RuneError, 1)
        else if sz ≤ 2 then
          ((((s0 &&& 0x1F).toNat <<< 6 ||| (s1 &&& 0x3F).toNat : Nat) : Int), 2)
        else
          let s2 := s.getD 2 0
          if s2 < 0x80 ∨ 0xBF < s2 then (RuneError, 1)
          else if sz ≤ 3 then
            ((((s0 &&& 0x0F).toNat <<< 12 ||| (s1 &&& 0x3F).toNat <<< 6
                ||| (s2 &&& 0x3F).toNat : Nat) : Int), 3)
          else
            let s3 := s.getD 3 0
            if s3 < 0x80 ∨ 0xBF < s3 then (RuneError, 1)
            else
              ((((s0 &&& 0x07).toNat <<< 18 ||| (s1 &&& 0x3F).toNat <<< 12
                  ||| (s2 &&& 0x3F).toNat <<< 6 ||| (s3 &&& 0x3F).toNat : Nat) : Int), 4)

/-- Go `utf8.RuneStart(b)`. -/
def RuneStart (b : UInt8) : Bool := b &&& 0xC0 != 0x80

/-- The loop `for start--; start >= lim; start-- { if RuneStart(s[start]) { break } }`
of `utf8.DecodeLastRuneInString`, entered with `start` already decremented;
it makes at most three passes. -/
def lastRuneStart (s : Bytes) (lim : Int) : Nat → Int → Int
  | 0, start => start
  | k + 1, start =>
    if start ≥ lim then
      if RuneStart (s.getD start.toNat 0) then start else lastRuneStart s lim k (start - 1)
    else start

/-- Go `utf8.DecodeLastRuneInString(s)`: the last rune of `s` and its width. -/
def DecodeLastRuneInString (s : Bytes) : Int × Nat :=
  let end_ := s.length
  if end_ = 0 then (RuneError, 0)
  else
    let start : Int := end_ - 1
    let r := s.getD start.toNat 0
    if r < 0x80 then ((r.toNat : Int), 1)
    else
      let lim : Int := if (end_ : Int) - 4 < 0 then 0 else end_ - 4
      let start := lastRuneStart s lim 4 (start - 1)
      let start := if start < 0 then 0 else start
      let (r, size) := DecodeRuneInString (slice s start.toNat end_)
      if start.toNat + size ≠ end_ then (RuneError, 1) else (r, size)

/-- Go `unicode.IsSpace(r)`: the Latin-1 spaces, and beyond Latin-1 the
characters of the `White_Space` table. -/
def IsSpace (r : Int) : Bool :=
  if uint32 r ≤ 0xFF then
    r = 9 ∨ r = 10 ∨ r = 11 ∨ r = 12 ∨ r = 13 ∨ r = 32 ∨ r = 0x85 ∨ r = 0xA0
  else
    r = 0x1680 ∨ (0x2000 ≤ r ∧ r ≤ 0x200A) ∨ r = 0x2028 ∨ r = 0x2029 ∨ r = 0x202F ∨
      r = 0x205F ∨ r = 0x3000

/-- Go `strings.indexFunc(s, f, truth)`, the loop `for i, r := range s` from
byte offset `i` on; the first argument bounds the number of runes. -/
def indexFuncFrom (s : Bytes) (f : Int → Bool) (truth : Bool) : Nat → Nat → Option Nat
  | 0, _ => none
  | k + 1, i =>
    if i < s.length then
      let (r, size) := DecodeRuneInString (s.drop i)
      if f r = truth then some i else indexFuncFrom s f truth k (i + size)
    else none

/-- Go `strings.indexFunc(s, f, truth)`. -/
def indexFunc (s : Bytes) (f : Int → Bool) (truth : Bool) : Option Nat :=
  indexFuncFrom s f truth s.length 0

/-- Go `strings.lastIndexFunc(s, f, truth)`, the loop `for i := len(s); i > 0;`
from `i` down; the first argument bounds the number of runes. -/
def lastIndexFuncFrom (s : Bytes) (f : Int → Bool) (truth : Bool) : Nat → Nat → Option Nat
  | 0, _ => none
  | k + 1, i =>
    if i > 0 then
      let (r, size) := DecodeLastRuneInString (s.take i)
      let i := i - size
      if f r = truth then some i else lastIndexFuncFrom s f truth k i
    else none

/-- Go `strings.lastIndexFunc(s, f, truth)`. -/
def lastIndexFunc (s : Bytes) (f : Int → Bool) (truth : Bool) : Option Nat :=
  lastIndexFuncFrom s f truth s.length s.length

/-- Go `strings.TrimLeftFunc(s, f)`. -/
def TrimLeftFunc (s : Bytes) (f : Int → Bool) : Bytes :=
  match indexFunc s f false with
  | none => []
  | some i => s.drop i

/-- Go `strings.TrimRightFunc(s, f)`. -/
def TrimRightFunc (s : Bytes) (f : Int → Bool) : Bytes :=
  match lastIndexFunc s f false with
  | some i =>
    if s.getD i 0 ≥ 0x80 then s.take (i + (DecodeRuneInString (s.drop i)).2)
    else s.take (i + 1)
  | none => s.take 0

/-- Go `strings.TrimFunc(s, f)`. -/
def TrimFunc (s : Bytes) (f : Int → Bool) : Bytes :=
  TrimRightFunc (TrimLeftFunc s f) f

/-- Go `strings.asciiSpace[c] == 1`. -/
def asciiSpace (c : UInt8) : Bool :=
  c = 9 ∨ c = 10 ∨ c = 11 ∨ c = 12 ∨ c = 13 ∨ c = 32

/-- The second loop of `strings.TrimSpace`, `for ; stop > start; stop--`: the
text is `s[start:stop]`, scanned from its end. -/
def trimSpaceStop (s : Bytes) (start : Nat) : Nat → Bytes
  | 0 => slice s start 0
  | stop + 1 =>
    if stop + 1 > start then
      let c := s.getD stop 0
      if c ≥ 0x80 then TrimRightFunc (slice s start (stop + 1)) IsSpace
      else if ¬ asciiSpace c then slice s start (stop + 1)
      else trimSpaceStop s start stop
    else slice s start (stop + 1)

/-- The first loop of `strings.TrimSpace`, `for ; start < len(s); start++`,
followed by the rest of the function; the first argument bounds the number of
passes by `len(s)`. -/
def trimSpaceStart (s : Bytes) : Nat → Nat → Bytes
  | 0, start => trimSpaceStop s start s.length
  | k + 1, start =>
    if start < s.length then
      let c := s.getD start 0
      if c ≥ 0x80 then TrimFunc (s.drop start) IsSpace
      else if ¬ asciiSpace c then trimSpaceStop s start s.length
      else trimSpaceStart s k (start + 1)
    else trimSpaceStop s start s.length

/-- Go `strings.TrimSpace(s)`. -/
def TrimSpace (s : Bytes) : Bytes := trimSpaceStart s s.length 0

/-- A Go index result as an `int`: `-1` for "not found". -/
def toInt (i : Option Nat) : Int :=
  match i with
  | some n => n
  | none => -1

/-- `ParseText` parses the text of the current element of the pull parser.
The parser is outside this package: `innerXML` and `err` are what
`p.DecodeElement(&text)` left in `text.InnerXML` and returned.  In the branch
with a start marker `strings.Index(result, CDATA_START)` is not `-1`, and
`strings.Index(result, CDATA_END) + 3` is `2` when there is no end marker. -/
def ParseText (innerXML : Bytes) (err : Option Error) : Bytes × Option Error :=
  match err with
  | some e => ([], some e)
  | none =>
    let result := innerXML
    let result := TrimSpace result
    if Contains result CDATA_START then
      let prestring := (DecodeEntities (result.take (toInt (Index result CDATA_START)).toNat)).1
      let cdatastring := StripCDATA result
      let poststring :=
        (DecodeEntities (result.drop (toInt (Index result CDATA_END) + 3).toNat)).1
      (prestring ++ cdatastring ++ poststring, none)
    else DecodeEntities result

/-- One item of a regular expression as the source uses them: a literal
character such as `@` or `\(`, or a character class repeated one or more
times, greedily, such as `[^@]+` or `\s+` (given by its characters and
whether it is negated). -/
inductive Atom
  | char (c : UInt8)
  | plus (negated : Bool) (set : List UInt8)

/-- A regular expression of the form `^ ... $`: its items in order, and its
capture groups, each given by the index of its first item and the number of
items in it. -/
structure Regexp where
  atoms : List Atom
  groups : List (Nat × Nat)

/-- The characters of the Perl class `\s` in Go regular expressions:
`\t`, `\n`, `\f`, `\r` and the space. -/
def perlSpace : List UInt8 := [9, 10, 12, 13, 32]

/-- Membership of a byte in a class. -/
def inClass (negated : Bool) (set : List UInt8) (c : UInt8) : Bool :=
  if negated then decide (c ∉ set) else decide (c ∈ set)

/-- Go `(*inputString).step(pos)` of package `regexp` at the head of the rest
`s` of the text: the next rune and its width. -/
def step (s : Bytes) : Int × Nat :=
  match s with
  | [] => (-1, 0)
  | c :: _ => if c < 0x80 then ((c.toNat : Int), 1) else DecodeRuneInString s

/-- The runes of a text in the order the matcher steps through them, each
with the bytes it was decoded from; the first argument bounds their number. -/
def runesFrom : Nat → Bytes → List (Int × Bytes)
  | 0, _ => []
  | fuel + 1, s =>
    if s = [] then []
    else ((step s).1, s.take (step s).2) :: runesFrom fuel (s.drop (step s).2)

/-- The runes of a text, each with its bytes. -/
def runes (s : Bytes) : List (Int × Bytes) := runesFrom s.length s

/-- Membership of a rune in a class. -/
def inClassR (negated : Bool) (set : List UInt8) (r : Int) : Bool :=
  if negated then decide (r ∉ set.map (fun c => (c.toNat : Int)))
  else decide (r ∈ set.map (fun c => (c.toNat : Int)))

/-- Matching `class+` greedily at the head of the text and then the rest of
the expression `k`: the longest run is tried first, and a shorter one only
when the rest of the expression fails after the longer ones (leftmost-first
matching).  Gives the bytes of the run and the segments matched by the rest. -/
def matchPlusR (p : Int → Bool) (k : List (Int × Bytes) → Option (List Bytes)) :
    List (Int × Bytes) → Option (Bytes × List Bytes)
  | [] => none
  | c :: cs =>
    if p c.1 then
      match matchPlusR p k cs with
      | some (seg, segs) => some (c.2 ++ seg, segs)
      | none => (k cs).map (fun segs => (c.2, segs))
    else none

/-- Matching the items of an expression `^ ... $` against the whole text,
rune by rune.  Gives the bytes of the text that each item matched. -/
def matchAtomsR : List Atom → List (Int × Bytes) → Option (List Bytes)
  | [], cs => if cs.isEmpty then some [] else none
  | Atom.char c :: atoms, cs =>
    match cs with
    | [] => none
    | r :: cs =>
      if r.1 = (c.toNat : Int) then (matchAtomsR atoms cs).map (fun segs => r.2 :: segs) else none
  | Atom.plus negated set :: atoms, cs =>
    (matchPlusR (inClassR negated set) (matchAtomsR atoms) cs).map (fun r => r.1 :: r.2)

/-- The matcher `matchPlusR` on bytes instead of runes. -/
def matchPlus (p : UInt8 → Bool) (k : Bytes → Option (List Bytes)) :
    Bytes → Option (Bytes × List Bytes)
  | [] => none
  | c :: cs =>
    if p c then
      match matchPlus p k cs with
      | some (seg, segs) => some (c :: seg, segs)
      | none => (k cs).map (fun segs => ([c], segs))
    else none

/-- The matcher `matchAtomsR` on bytes instead of runes.  It gives the same
result as `matchAtomsR` on the runes of the text for every expression whose
characters are ASCII and in which a negated class is followed by a literal,
by a class that is not negated or by the end (`matchAtomsR_runes`), as is the
case in the four expressions of the source. -/
def matchAtoms : List Atom → Bytes → Option (List Bytes)
  | [], s => if s = [] then some [] else none
  | Atom.char c :: atoms, s =>
    match s with
    | [] => none
    | c' :: cs => if c' = c then (matchAtoms atoms cs).map (fun segs => [c] :: segs) else none
  | Atom.plus negated set :: atoms, s =>
    (matchPlus (inClass negated set) (matchAtoms atoms) s).map (fun r => r.1 :: r.2)

/-- An expression starts plainly when it is empty or starts with a literal or
a class that is not negated. -/
def startsPlain : List Atom → Bool
  | [] => true
  | Atom.char _ :: _ => true
  | Atom.plus negated _ :: _ => !negated

/-- An expression whose literals and class members are ASCII and in which
every negated class is followed by a plain start. -/
def WellFormed : List Atom → Bool
  | [] => true
  | Atom.char c :: atoms => decide (c < 0x80) && WellFormed atoms
  | Atom.plus negated set :: atoms =>
    set.all (fun c => decide (c < 0x80)) && (!negated || startsPlain atoms) && WellFormed atoms

/-- Go `(*Regexp).FindStringSubmatch(s)` for an expression `^ ... $`: the
whole match and the text of each capture group, `none` for `nil`. -/
def FindStringSubmatch (re : Regexp) (s : Bytes) : Option (List Bytes) :=
  (matchAtomsR re.atoms (runes s)).map
    (fun segs => s :: re.groups.map (fun g => ((segs.drop g.1).take g.2).flatten))

/-- Go `(*Regexp).MatchString(s)`. -/
def MatchString (re : Regexp) (s : Bytes) : Bool := (FindStringSubmatch re s).isSome

/-- Element `i` of the result of `FindStringSubmatch`. -/
def submatch (re : Regexp) (s : Bytes) (i : Nat) : Bytes :=
  ((FindStringSubmatch re s).getD []).getD i []

/-- Source `emailNameRgx`, the expression `^([^@]+@[^\s]+)\s+\(([^@]+)\)$`. -/
def emailNameRgx : Regexp :=
  { atoms := [.plus true [64], .char 64, .plus true perlSpace, .plus false perlSpace, .char 40,
      .plus true [64], .char 41],
    groups := [(0, 3), (5, 1)] }

/-- Source `nameEmailRgx`, the expression `^([^@]+)\s+\(([^@]+@[^)]+)\)$`. -/
def nameEmailRgx : Regexp :=
  { atoms := [.plus true [64], .plus false perlSpace, .char 40, .plus true [64], .char 64,
      .plus true [41], .char 41],
    groups := [(0, 1), (3, 3)] }

/-- Source `nameOnlyRgx`, the expression `^([^@()]+)$`. -/
def nameOnlyRgx : Regexp :=
  { atoms := [.plus true [64, 40, 41]], groups := [(0, 1)] }

/-- Source `emailOnlyRgx`, the expression `^([^@()]+@[^@()]+)$`. -/
def emailOnlyRgx : Regexp :=
  { atoms := [.plus true [64, 40, 41], .char 64, .plus true [64, 40, 41]], groups := [(0, 3)] }

/-- `ParseNameAddress` parses name/email strings commonly found in RSS feeds
of the format "Example Name (example@site.com)" and other variations of this
format.  The result is the pair `(name, address)`. -/
def ParseNameAddress (nameAddressText : Bytes) : Bytes × Bytes :=
  if nameAddressText = [] then ([], [])
  else if MatchString emailNameRgx nameAddressText then
    (submatch emailNameRgx nameAddressText 2, submatch emailNameRgx nameAddressText 1)
  else if MatchString nameEmailRgx nameAddressText then
    (submatch nameEmailRgx nameAddressText 1, submatch nameEmailRgx nameAddressText 2)
  else if MatchString nameOnlyRgx nameAddressText then
    (submatch nameOnlyRgx nameAddressText 1, [])
  else if MatchString emailOnlyRgx nameAddressText then
    ([], submatch emailOnlyRgx nameAddressText 1)
  else ([], [])

/-- Facts about the table `first` and the accept ranges, for a first byte
from `0x80` on. -/
abbrev FirstSpec (s0 : UInt8) : Prop :=
  s0 < 0x80 ∨
    ((first s0 < 0xF0 ∨ (first s0).toNat % 2 = 1) ∧
    (first s0 ≥ 0xF0 ∨
      (2 ≤ (first s0 &&& 7).toNat ∧ (first s0 &&& 7).toNat ≤ 4 ∧
      (acceptRanges (first s0 >>> 4).toNat).1 ≥ 0x80 ∧
      (acceptRanges (first s0 >>> 4).toNat).2 ≤ 0xBF ∧
      (2 < (first s0 &&& 7).toNat ∨ 2 ≤ (s0 &&& 0x1F).toNat) ∧
      ((first s0 &&& 7).toNat ≠ 3 ∨
        1 ≤ (s0 &&& 0x0F).toNat ∨ (acceptRanges (first s0 >>> 4).toNat).1 ≥ 0xA0) ∧
      ((first s0 &&& 7).toNat ≠ 4 ∨
        1 ≤ (s0 &&& 0x07).toNat ∨ (acceptRanges (first s0 >>> 4).toNat).1 ≥ 0x90))))

/-- Facts about the low six bits of a continuation byte. -/
abbrev ContSpec (s1 : UInt8) : Prop :=
  (s1 &&& 0x3F).toNat < 64 ∧ (s1 < 0xA0 ∨ 32 ≤ (s1 &&& 0x3F).toNat ∨ 0xBF < s1) ∧
    (s1 < 0x90 ∨ 16 ≤ (s1 &&& 0x3F).toNat ∨ 0xBF < s1)

/-- A rune as the matcher steps over it: an ASCII byte by itself, or a rune
from `0x80` on with one to four bytes that are all from `0x80` on. -/
def UniformChunk (c : Int × Bytes) : Prop :=
  (∃ b : UInt8, b < 0x80 ∧ c = ((b.toNat : Int), [b])) ∨
  (c.1 ≥ 0x80 ∧ c.2 ≠ [] ∧ ∀ b ∈ c.2, ¬ b < 0x80)

/-- The bytes of a list of runes. -/
def flat (cs : List (Int × Bytes)) : Bytes := (cs.map Prod.snd).flatten

/-- The segment an item may match. -/
def SegOK : Atom → Bytes → Prop
  | Atom.char c, seg => seg = [c]
  | Atom.plus negated set, seg => seg ≠ [] ∧ ∀ x ∈ seg, inClass negated set x = true

/-- Go slice expression `s[lo:hi]` with its bounds check: `none` stands for
the run-time panic when `lo ≤ hi ≤ len(s)` fails. -/
def sliceChk (s : Bytes) (lo hi : Nat) : Option Bytes :=
  if lo ≤ hi ∧ hi ≤ s.length then some (slice s lo hi) else none

/-- Go slice expression `s[lo:]` with its bounds check. -/
def sliceFromChk (s : Bytes) (lo : Nat) : Option Bytes :=
  if lo ≤ s.length then some (s.drop lo) else none

/-- Go slice expression `s[:hi]` with its bounds check. -/
def sliceToChk (s : Bytes) (hi : Nat) : Option Bytes :=
  if hi ≤ s.length then some (s.take hi) else none

/-- Go index expression `s[i]` with its bounds check. -/
def indexChk (s : Bytes) (i : Nat) : Option UInt8 := s[i]?

/-- The body of the loop of `DecodeEntities` with every index and slice
expression checked: `none` when one of them would panic. -/
def decodeBodyChk (data buf : Bytes) : Option Step :=
  match IndexByte data 38 with
  | none => some (.ret (buf ++ data, none))
  | some idx =>
    (sliceToChk data idx).bind fun pre =>
    (sliceFromChk data idx).bind fun data =>
    let buf := buf ++ pre
    if data.length = 1 then some (.ret (buf ++ data, none))
    else
      match IndexByte data 59 with
      | none => some (.ret (buf ++ data, none))
      | some end_ =>
        (sliceChk data 1 end_).bind fun span =>
        if Contains span (lit " ") then some (.ret (buf ++ data, none))
        else
          (indexChk data 1).bind fun d1 =>
          if d1 = 35 then
            (if data.length > 2 then (indexChk data 2).map (fun d2 => decide (d2 = 120))
              else some false).bind fun isHex =>
            (if isHex then (sliceChk data 3 end_).map (fun str => (str, 16))
              else (sliceChk data 2 end_).map (fun str => (str, 10))).bind fun sb =>
            match ParseUint sb.1 sb.2 32 with
            | (_, some _) => some (.ret ([], some Error.InvalidNumericReference))
            | (i, none) =>
              (sliceFromChk data (end_ + 1)).map fun rest =>
                .next rest (buf ++ WriteRune (rune i))
          else
            (sliceChk data 1 end_).bind fun name =>
            (sliceFromChk data (end_ + 1)).map fun rest =>
              if name = lit "lt" then .next rest (buf ++ [60])
              else if name = lit "gt" then .next rest (buf ++ [62])
              else if name = lit "quot" then .next rest (buf ++ [34])
              else if name = lit "apos" then .next rest (buf ++ [39])
              else if name = lit "amp" then .next rest (buf ++ [38])
              else .ret ([], some (Error.Errorf (unknownEntityMsg name)))

/-- The loop of `DecodeEntities` with checked index and slice expressions:
`none` when one of them would panic, or when `data` is not yet empty after
the number of passes given by the first argument. -/
def decodeLoopChk : Nat → Bytes → Bytes → Option (Bytes × Option Error)
  | 0, data, buf => if data.length > 0 then none else some (buf, none)
  | fuel + 1, data, buf =>
    if data.length > 0 then
      match decodeBodyChk data buf with
      | none => none
      | some (.ret result) => some result
      | some (.next data buf) => decodeLoopChk fuel data buf
    else some (buf, none)

/-- `DecodeEntities` with checked index and slice expressions and at most
`len(str)` passes of its loop. -/
def DecodeEntitiesChk (str : Bytes) : Option (Bytes × Option Error) :=
  decodeLoopChk str.length str []

/-- Source `indexAt` with the slice `str[start:]` checked. -/
def indexAtChk (str substr : Bytes) (start : Nat) : Option (Option Nat) :=
  (sliceFromChk str start).map fun t => (Index t substr).map (· + start)

/-- The loop of `StripCDATA` with checked slice expressions: `none` when one
of them would panic (also inside `DecodeEntities`), or when the cursor is
still inside `str` after the number of passes given by the first argument. -/
def stripLoopChk (str : Bytes) : Nat → Nat → Bytes → Option Bytes
  | 0, curr, buf => if curr < str.length then none else some buf
  | fuel + 1, curr, buf =>
    if curr < str.length then
      (indexAtChk str CDATA_START curr).bind fun start? =>
      match start? with
      | none =>
        (sliceFromChk str curr).bind fun t =>
        (DecodeEntitiesChk t).map fun dec => buf ++ dec.1
      | some start =>
        (indexAtChk str CDATA_END start).bind fun end? =>
        match end? with
        | none =>
          (sliceFromChk str curr).bind fun t =>
          (DecodeEntitiesChk t).map fun dec => buf ++ dec.1
        | some end_ =>
          (sliceChk str (start + CDATA_START.length) end_).bind fun payload =>
          stripLoopChk str fuel (curr + end_ + CDATA_END.length) (buf ++ payload)
    else some buf

/-- `StripCDATA` with checked slice expressions and at most `len(str)` passes
of its loop. -/
def StripCDATAChk (str : Bytes) : Option Bytes :=
  stripLoopChk str str.length 0 []

/-! # Theorems -/

/-! ## String literals as byte lists -/

theorem lit_space : lit " " = [32] := by decide
theorem lit_semicolon : lit ";" = [59] := by decide
theorem lit_lt : lit "lt" = [108, 116] := by decide
theorem lit_gt : lit "gt" = [103, 116] := by decide
theorem lit_quot : lit "quot" = [113, 117, 111, 116] := by decide
theorem lit_apos : lit "apos" = [97, 112, 111, 115] := by decide
theorem lit_amp : lit "amp" = [97, 109, 112] := by decide
theorem CDATA_START_eq : CDATA_START = [60, 33, 91, 67, 68, 65, 84, 65, 91] := by decide
theorem CDATA_END_eq : CDATA_END = [93, 93, 62] := by decide

/-! ## Facts about the library routines -/

theorem IndexByte_eq_none {s : Bytes} {c : UInt8} (h : c ∉ s) : IndexByte s c = none := by
  induction s with
  | nil => rfl
  | cons b bs ih =>
    simp only [List.mem_cons, not_or] at h
    have hb : ¬ b = c := fun e => h.1 e.symm
    simp [IndexByte, hb, ih h.2]

theorem IndexByte_append {pre : Bytes} {c : UInt8} (rest : Bytes) (h : c ∉ pre) :
    IndexByte (pre ++ c :: rest) c = some pre.length := by
  induction pre with
  | nil => simp [IndexByte]
  | cons b bs ih =>
    simp only [List.mem_cons, not_or] at h
    have hb : ¬ b = c := fun e => h.1 e.symm
    simp [IndexByte, hb, ih h.2]

/-- What a successful `IndexByte` says about the slice. -/
theorem IndexByte_some {s : Bytes} {c : UInt8} {i : Nat} (h : IndexByte s c = some i) :
    c ∉ s.take i ∧ s.drop i = c :: s.drop (i + 1) ∧ i < s.length := by
  induction s generalizing i with
  | nil => simp [IndexByte] at h
  | cons b bs ih =>
    by_cases hb : b = c
    · simp [IndexByte, hb] at h
      subst h
      simp [hb]
    · simp only [IndexByte, hb, if_false, Option.map_eq_some'] at h
      obtain ⟨j, hj, rfl⟩ := h
      obtain ⟨h1, h2, h3⟩ := ih hj
      refine ⟨?_, ?_, ?_⟩
      · simp only [List.take_succ_cons, List.mem_cons, not_or]
        exact ⟨fun e => hb e.symm, h1⟩
      · simpa using h2
      · simpa using h3

theorem HasPrefix_singleton (b c : UInt8) (bs : Bytes) :
    HasPrefix (b :: bs) [c] = decide (b = c) := by
  by_cases h : b = c <;> simp [HasPrefix, h]

theorem Contains_singleton (s : Bytes) (c : UInt8) : Contains s [c] = decide (c ∈ s) := by
  induction s with
  | nil => simp [Contains, Index]
  | cons b bs ih =>
    simp only [Contains, Index, HasPrefix_singleton] at ih ⊢
    by_cases h : b = c
    · simp [h]
    · have h2 : ¬ c = b := fun e => h e.symm
      simp [h, h2, ih]

theorem slice_cons_succ (b : UInt8) (s : Bytes) (lo hi : Nat) :
    slice (b :: s) (lo + 1) (hi + 1) = slice s lo hi := by
  simp [slice]

theorem slice_zero_append (mid : Bytes) (rest : Bytes) :
    slice (mid ++ rest) 0 mid.length = mid := by
  simp [slice]

/-! ## One pass of the `DecodeEntities` loop -/

/-- Literal bytes before the first `&` are copied to the buffer. -/
theorem decodeBody_skip (pre rest buf : Bytes) (h : 38 ∉ pre) :
    decodeBody (pre ++ 38 :: rest) buf = decodeBody (38 :: rest) (buf ++ pre) := by
  simp [decodeBody, IndexByte_append rest h, IndexByte]

theorem decodeBody_no_amp (data buf : Bytes) (h : 38 ∉ data) :
    decodeBody data buf = .ret (buf ++ data, none) := by
  simp [decodeBody, IndexByte_eq_none h]

theorem decodeBody_amp_only (buf : Bytes) :
    decodeBody [38] buf = .ret (buf ++ [38], none) := by
  simp [decodeBody, IndexByte]

theorem IndexByte_amp (rest : Bytes) : IndexByte (38 :: rest) 38 = some 0 := by
  simp [IndexByte]

theorem decodeBody_no_semicolon (rest buf : Bytes) (h : 59 ∉ rest) :
    decodeBody (38 :: rest) buf = .ret (buf ++ 38 :: rest, none) := by
  have h59 : IndexByte (38 :: rest) 59 = none := by
    apply IndexByte_eq_none
    simp only [List.mem_cons, not_or]
    exact ⟨by decide, h⟩
  simp only [decodeBody, IndexByte_amp, List.take_zero, List.append_nil, List.drop_zero, h59]
  split <;> rfl

theorem decodeBody_ref (mid suf buf : Bytes) (h : 59 ∉ mid) :
    decodeBody (38 :: (mid ++ 59 :: suf)) buf = refBody mid suf buf := by
  have h59 : IndexByte (38 :: (mid ++ 59 :: suf)) 59 = some (mid.length + 1) := by
    simp [IndexByte, IndexByte_append suf h]
  have hlen : ¬ (38 :: (mid ++ 59 :: suf)).length = 1 := by simp
  have hsl : slice (38 :: (mid ++ 59 :: suf)) 1 (mid.length + 1) = mid := by
    rw [slice_cons_succ, slice_zero_append]
  have hdrop : List.drop (mid.length + 1 + 1) (38 :: (mid ++ 59 :: suf)) = suf := by
    simp
  simp only [decodeBody, IndexByte_amp, List.take_zero, List.append_nil, List.drop_zero,
    hlen, if_false, h59, hsl, hdrop, lit_space, Contains_singleton, decide_eq_true_eq,
    lit_lt, lit_gt, lit_quot, lit_apos, lit_amp, refBody]
  by_cases h32 : 32 ∈ mid
  · simp only [h32, if_true]
  · simp only [h32, if_false]
    match mid, h with
    | [], _ => simp
    | [c], _ =>
      by_cases hc : c = 35
      · subst hc; simp [slice]
      · simp [hc]
    | c :: c2 :: body, h =>
      by_cases hc : c = 35
      · subst hc
        by_cases hc2 : c2 = 120
        · subst hc2; simp [slice]
        · simp [hc2, slice]
      · simp [hc]

/-! ## The loop of `DecodeEntities` -/

/-- Every string has no `&`, or a first `&` with no `;` after it, or a first
`&` and a first `;` after it. -/
theorem amp_cases (data : Bytes) :
    38 ∉ data ∨
    (∃ pre rest, data = pre ++ 38 :: rest ∧ 38 ∉ pre ∧ 59 ∉ rest) ∨
    (∃ pre mid suf, data = pre ++ 38 :: (mid ++ 59 :: suf) ∧ 38 ∉ pre ∧ 59 ∉ mid) := by
  by_cases h : (38 : UInt8) ∈ data
  · obtain ⟨pre, rest, rfl, hpre⟩ := List.eq_append_cons_of_mem h
    right
    by_cases h2 : (59 : UInt8) ∈ rest
    · obtain ⟨mid, suf, rfl, hmid⟩ := List.eq_append_cons_of_mem h2
      exact Or.inr ⟨pre, mid, suf, rfl, hpre, hmid⟩
    · exact Or.inl ⟨pre, rest, rfl, hpre, h2⟩
  · exact Or.inl h

theorem refBody_next {mid suf buf d b : Bytes} (h : refBody mid suf buf = .next d b) :
    d = suf := by
  unfold refBody at h
  split at h
  · cases h
  · split at h
    · split at h
      · cases h
      · cases h; rfl
    · repeat (first | (split at h) | (cases h; rfl) | (cases h))

/-- A pass that continues leaves a strictly shorter `data`. -/
theorem decodeBody_next {data buf d b : Bytes} (h : decodeBody data buf = .next d b) :
    d.length < data.length := by
  rcases amp_cases data with h1 | ⟨pre, rest, rfl, h1, h2⟩ | ⟨pre, mid, suf, rfl, h1, h2⟩
  · rw [decodeBody_no_amp data buf h1] at h; cases h
  · rw [decodeBody_skip pre rest buf h1, decodeBody_no_semicolon rest _ h2] at h; cases h
  · rw [decodeBody_skip pre _ buf h1, decodeBody_ref mid suf _ h2] at h
    rw [refBody_next h]
    simp only [List.length_append, List.length_cons]
    omega

theorem decodeLoop_nil (n : Nat) (buf : Bytes) : decodeLoop n [] buf = (buf, none) := by
  cases n <;> simp [decodeLoop]

/-- The number of passes allowed does not matter once it is at least
`len(data)`: the loop has always ended by then. -/
theorem decodeLoop_fuel (n m : Nat) (data buf : Bytes)
    (hn : data.length ≤ n) (hm : data.length ≤ m) :
    decodeLoop n data buf = decodeLoop m data buf := by
  induction n generalizing m data buf with
  | zero =>
    have : data = [] := List.length_eq_zero.mp (Nat.le_zero.mp hn)
    subst this
    rw [decodeLoop_nil, decodeLoop_nil]
  | succ n ih =>
    cases m with
    | zero =>
      have : data = [] := List.length_eq_zero.mp (Nat.le_zero.mp hm)
      subst this
      rw [decodeLoop_nil, decodeLoop_nil]
    | succ m =>
      simp only [decodeLoop]
      split
      · cases hb : decodeBody data buf with
        | ret r => rfl
        | next d b =>
          have := decodeBody_next hb
          exact ih m d b (by omega) (by omega)
      · rfl

/-- One pass of the loop, with the number of passes left out of the picture. -/
theorem decodeLoop_step (data buf : Bytes) (h : data ≠ []) :
    decodeLoop data.length data buf =
      match decodeBody data buf with
      | .ret r => r
      | .next d b => decodeLoop d.length d b := by
  obtain ⟨n, hn⟩ : ∃ n, data.length = n + 1 :=
    ⟨data.length - 1, by have := List.length_pos.mpr h; omega⟩
  rw [hn]
  simp only [decodeLoop]
  rw [if_pos (by omega)]
  cases hb : decodeBody data buf with
  | ret r => rfl
  | next d b =>
    have := decodeBody_next hb
    exact decodeLoop_fuel n d.length d b (by omega) (le_refl _)

theorem decodeLoop_no_amp (data buf : Bytes) (h : 38 ∉ data) :
    decodeLoop data.length data buf = (buf ++ data, none) := by
  by_cases hd : data = []
  · subst hd; simp [decodeLoop]
  · rw [decodeLoop_step data buf hd, decodeBody_no_amp data buf h]

theorem decodeLoop_no_semicolon (pre rest buf : Bytes) (h1 : 38 ∉ pre) (h2 : 59 ∉ rest) :
    decodeLoop (pre ++ 38 :: rest).length (pre ++ 38 :: rest) buf
      = (buf ++ (pre ++ 38 :: rest), none) := by
  rw [decodeLoop_step _ buf (by simp), decodeBody_skip pre rest buf h1,
    decodeBody_no_semicolon rest _ h2]
  simp

theorem decodeLoop_ref (pre mid suf buf : Bytes) (h1 : 38 ∉ pre) (h2 : 59 ∉ mid) :
    decodeLoop (pre ++ 38 :: (mid ++ 59 :: suf)).length (pre ++ 38 :: (mid ++ 59 :: suf)) buf
      = match refBody mid suf (buf ++ pre) with
        | .ret r => r
        | .next d b => decodeLoop d.length d b := by
  rw [decodeLoop_step _ buf (by simp), decodeBody_skip pre _ buf h1,
    decodeBody_ref mid suf _ h2]

/-! ## Named references, unterminated references, references with a space -/

theorem lit_ampersand : lit "&" = [38] := by decide
theorem lit_less : lit "<" = [60] := by decide
theorem lit_greater : lit ">" = [62] := by decide
theorem lit_dquote : lit "\"" = [34] := by decide
theorem lit_squote : lit "'" = [39] := by decide
theorem lit_hash : lit "#" = [35] := by decide

/-- A predefined entity between `&`-free text decodes to its character. -/
theorem DecodeEntities_named (pre name suf : Bytes) (c : UInt8)
    (hpre : 38 ∉ pre) (hsuf : 38 ∉ suf)
    (hname : refBody name suf pre = .next suf (pre ++ [c])) (h59 : 59 ∉ name) :
    DecodeEntities (pre ++ lit "&" ++ name ++ lit ";" ++ suf) = (pre ++ [c] ++ suf, none) := by
  have e : pre ++ lit "&" ++ name ++ lit ";" ++ suf = pre ++ 38 :: (name ++ 59 :: suf) := by
    simp [lit_ampersand, lit_semicolon]
  rw [e, DecodeEntities, decodeLoop_ref pre name suf [] hpre h59]
  simp only [List.nil_append, hname]
  rw [decodeLoop_no_amp suf _ hsuf]

/-- C1: for each of the five predefined entity names and all `pre`, `suf`
without `&`, `DecodeEntities(pre ++ "&" ++ name ++ ";" ++ suf)` succeeds and
returns `pre ++ c ++ suf`, with `c` the character `<`, `>`, `&`, `"`, `'` for
`lt`, `gt`, `amp`, `quot`, `apos`. -/
theorem C1_predefined_entities (pre suf : Bytes) (hpre : 38 ∉ pre) (hsuf : 38 ∉ suf) :
    DecodeEntities (pre ++ lit "&" ++ lit "lt" ++ lit ";" ++ suf)
      = (pre ++ lit "<" ++ suf, none) ∧
    DecodeEntities (pre ++ lit "&" ++ lit "gt" ++ lit ";" ++ suf)
      = (pre ++ lit ">" ++ suf, none) ∧
    DecodeEntities (pre ++ lit "&" ++ lit "amp" ++ lit ";" ++ suf)
      = (pre ++ lit "&" ++ suf, none) ∧
    DecodeEntities (pre ++ lit "&" ++ lit "quot" ++ lit ";" ++ suf)
      = (pre ++ lit "\"" ++ suf, none) ∧
    DecodeEntities (pre ++ lit "&" ++ lit "apos" ++ lit ";" ++ suf)
      = (pre ++ lit "'" ++ suf, none) := by
  refine ⟨?_, ?_, ?_, ?_, ?_⟩
  · rw [lit_less]
    exact DecodeEntities_named pre _ suf 60 hpre hsuf (by rw [lit_lt]; simp [refBody])
      (by rw [lit_lt]; decide)
  · rw [lit_greater]
    exact DecodeEntities_named pre _ suf 62 hpre hsuf (by rw [lit_gt]; simp [refBody])
      (by rw [lit_gt]; decide)
  · nth_rewrite 2 [lit_ampersand]
    exact DecodeEntities_named pre _ suf 38 hpre hsuf (by rw [lit_amp]; simp [refBody])
      (by rw [lit_amp]; decide)
  · rw [lit_dquote]
    exact DecodeEntities_named pre _ suf 34 hpre hsuf (by rw [lit_quot]; simp [refBody])
      (by rw [lit_quot]; decide)
  · rw [lit_squote]
    exact DecodeEntities_named pre _ suf 39 hpre hsuf (by rw [lit_apos]; simp [refBody])
      (by rw [lit_apos]; decide)

/-- C1 at `pre = "a"`, `suf = "b"`. -/
theorem C1_predefined_entities_witness :
    DecodeEntities (lit "a" ++ lit "&" ++ lit "lt" ++ lit ";" ++ lit "b")
      = (lit "a" ++ lit "<" ++ lit "b", none) ∧
    DecodeEntities (lit "a" ++ lit "&" ++ lit "gt" ++ lit ";" ++ lit "b")
      = (lit "a" ++ lit ">" ++ lit "b", none) ∧
    DecodeEntities (lit "a" ++ lit "&" ++ lit "amp" ++ lit ";" ++ lit "b")
      = (lit "a" ++ lit "&" ++ lit "b", none) ∧
    DecodeEntities (lit "a" ++ lit "&" ++ lit "quot" ++ lit ";" ++ lit "b")
      = (lit "a" ++ lit "\"" ++ lit "b", none) ∧
    DecodeEntities (lit "a" ++ lit "&" ++ lit "apos" ++ lit ";" ++ lit "b")
      = (lit "a" ++ lit "'" ++ lit "b", none) :=
  C1_predefined_entities (lit "a") (lit "b") (by decide) (by decide)

/-- C4: for `pre` without `&`, a `name` without `;` and space that does not
start with `#` and is not `lt`, `gt`, `quot`, `apos` or `amp`, and any `suf`,
`DecodeEntities(pre ++ "&" ++ name ++ ";" ++ suf)` returns the empty string and
the error made by `fmt.Errorf("unknown predefined entity &%s;", name)`. -/
theorem C4_unknown_entity (pre name suf : Bytes)
    (hpre : 38 ∉ pre) (h59 : 59 ∉ name) (h32 : 32 ∉ name) (hhash : name.head? ≠ some 35)
    (hlt : name ≠ lit "lt") (hgt : name ≠ lit "gt") (hquot : name ≠ lit "quot")
    (hapos : name ≠ lit "apos") (hamp : name ≠ lit "amp") :
    DecodeEntities (pre ++ lit "&" ++ name ++ lit ";" ++ suf)
      = ([], some (Error.Errorf (lit "unknown predefined entity &" ++ name ++ lit ";"))) := by
  have e : pre ++ lit "&" ++ name ++ lit ";" ++ suf = pre ++ 38 :: (name ++ 59 :: suf) := by
    simp [lit_ampersand, lit_semicolon]
  have h0 : ¬ name[0]? = some 35 := by
    cases name with
    | nil => simp
    | cons c cs => simpa using hhash
  rw [lit_lt] at hlt
  rw [lit_gt] at hgt
  rw [lit_quot] at hquot
  rw [lit_apos] at hapos
  rw [lit_amp] at hamp
  rw [e, DecodeEntities, decodeLoop_ref pre name suf [] hpre h59]
  simp only [refBody, h32, h0, hlt, hgt, hquot, hapos, hamp, if_false, unknownEntityMsg]

/-- C4 at the input `"&foo;"`. -/
theorem C4_unknown_entity_witness :
    DecodeEntities (lit "" ++ lit "&" ++ lit "foo" ++ lit ";" ++ lit "")
      = ([], some (Error.Errorf (lit "unknown predefined entity &" ++ lit "foo" ++ lit ";"))) :=
  C4_unknown_entity (lit "") (lit "foo") (lit "") (by decide) (by decide) (by decide)
    (by decide) (by decide) (by decide) (by decide) (by decide) (by decide)

/-- C5: a string in which no `;` occurs after its first `&` (a string that
ends in a bare `&` included) is returned unchanged, with no error. -/
theorem C5_unterminated (s : Bytes)
    (h : ∀ pre rest, s = pre ++ lit "&" ++ rest → 38 ∉ pre → 59 ∉ rest) :
    DecodeEntities s = (s, none) := by
  simp only [lit_ampersand] at h
  rcases amp_cases s with h1 | ⟨pre, rest, rfl, h1, h2⟩ | ⟨pre, mid, suf, rfl, h1, _⟩
  · rw [DecodeEntities, decodeLoop_no_amp s _ h1]; rfl
  · rw [DecodeEntities, decodeLoop_no_semicolon pre rest _ h1 h2]; rfl
  · exact absurd (h pre (mid ++ 59 :: suf) (by simp) h1) (by simp)

/-- C5 at the input `"a &"`. -/
theorem C5_unterminated_witness : DecodeEntities (lit "a &") = (lit "a &", none) :=
  C5_unterminated (lit "a &") (by
    intro pre rest e hpre
    have e2 : pre ++ 38 :: rest = [97, 32, 38] := by
      rw [← lit_ampersand]
      simpa using e.symm
    match pre, e2, hpre with
    | [], e2, _ => simp at e2
    | [_], e2, _ => simp at e2
    | [_, _], e2, _ => simp at e2; simp [e2.2.2]
    | [_, _, c], e2, hpre => simp at e2
    | _ :: _ :: _ :: _ :: _, e2, _ => simp at e2)

/-! ## The shape of every result of `DecodeEntities` -/

theorem refBody_ret {mid suf buf : Bytes} {r : Bytes × Option Error}
    (h : refBody mid suf buf = .ret r) : ResultOK r := by
  unfold refBody at h
  split at h
  · cases h; exact Or.inl rfl
  · split at h
    · split at h
      · cases h; exact Or.inr (Or.inl rfl)
      · cases h
    · repeat (first | (split at h) | (cases h; exact Or.inr (Or.inr ⟨_, rfl⟩)) | (cases h))

theorem decodeBody_ret {data buf : Bytes} {r : Bytes × Option Error}
    (h : decodeBody data buf = .ret r) : ResultOK r := by
  rcases amp_cases data with h1 | ⟨pre, rest, rfl, h1, h2⟩ | ⟨pre, mid, suf, rfl, h1, h2⟩
  · rw [decodeBody_no_amp data buf h1] at h; cases h; exact Or.inl rfl
  · rw [decodeBody_skip pre rest buf h1, decodeBody_no_semicolon rest _ h2] at h
    cases h; exact Or.inl rfl
  · rw [decodeBody_skip pre _ buf h1, decodeBody_ref mid suf _ h2] at h
    exact refBody_ret h

theorem decodeLoop_result (n : Nat) (data buf : Bytes) : ResultOK (decodeLoop n data buf) := by
  induction n generalizing data buf with
  | zero => exact Or.inl rfl
  | succ n ih =>
    simp only [decodeLoop]
    split
    · cases hb : decodeBody data buf with
      | ret r => exact decodeBody_ret hb
      | next d b => exact ih d b
    · exact Or.inl rfl

/-- C7: for every input, `DecodeEntities` returns a string with no error, or
the empty string with `InvalidNumericReference` or an unknown-entity error;
never a non-empty string together with an error, and never `TruncatedEntity`. -/
theorem C7_result_shape (s : Bytes) :
    ((DecodeEntities s).2 = none ∨
      DecodeEntities s = ([], some Error.InvalidNumericReference) ∨
      ∃ name, DecodeEntities s
        = ([], some (Error.Errorf (lit "unknown predefined entity &" ++ name ++ lit ";")))) ∧
    ((DecodeEntities s).2 ≠ none → (DecodeEntities s).1 = []) ∧
    (DecodeEntities s).2 ≠ some Error.TruncatedEntity := by
  have h : ResultOK (DecodeEntities s) := decodeLoop_result _ _ _
  refine ⟨h, ?_, ?_⟩
  · rcases h with h | h | ⟨name, h⟩
    · intro h2; exact absurd h h2
    · intro _; rw [h]
    · intro _; rw [h]
  · rcases h with h | h | ⟨name, h⟩
    · rw [h]; simp
    · rw [h]; simp
    · rw [h]; simp

/-! ## Numbers: what `strconv.ParseUint` accepts -/

theorem UInt8_ofNat_toNat (c : UInt8) : UInt8.ofNat c.toNat = c := by
  apply UInt8.toNat.inj
  exact UInt8.toNat_ofNat_of_lt (UInt8.toNat_lt_size c)

/-- A property checked on the 256 byte values holds of every byte. -/
theorem forall_byte {P : UInt8 → Prop} (h : ∀ n, n < 256 → P (UInt8.ofNat n)) (c : UInt8) :
    P c := by
  have := h c.toNat (UInt8.toNat_lt_size c)
  rwa [UInt8_ofNat_toNat] at this

set_option maxRecDepth 100000 in
theorem digitSpec_all (c : UInt8) : DigitSpec c := by
  apply forall_byte (P := DigitSpec)
  decide

theorem digitOf_of_isDigit {base : Nat} (hb : base = 10 ∨ base = 16) {c : UInt8}
    (h : isDigit base c) :
    ∃ d, digitOf c = some d ∧ d.toNat = digitVal c ∧ d.toNat < base := by
  have hs := digitSpec_all c
  unfold DigitSpec at hs
  cases hd : digitOf c with
  | none =>
    rw [hd] at hs
    rcases hb with rfl | rfl
    · exact absurd h hs.2
    · exact absurd h hs.1
  | some d =>
    rw [hd] at hs
    obtain ⟨h10, h16, hv⟩ := hs
    rcases hb with rfl | rfl
    · have hlt : d.toNat < 10 := h10.mpr h
      exact ⟨d, rfl, (hv (by omega)).symm, hlt⟩
    · have hlt : d.toNat < 16 := h16.mpr h
      exact ⟨d, rfl, (hv hlt).symm, hlt⟩

theorem isDigit_of_digitOf {base : Nat} (hb : base = 10 ∨ base = 16) {c d : UInt8}
    (h : digitOf c = some d) (hd : d.toNat < base) :
    isDigit base c ∧ digitVal c = d.toNat := by
  have hs := digitSpec_all c
  unfold DigitSpec at hs
  rw [h] at hs
  obtain ⟨h10, h16, hv⟩ := hs
  rcases hb with rfl | rfl
  · exact ⟨h10.mp hd, hv (by omega)⟩
  · exact ⟨h16.mp hd, hv hd⟩

theorem le_foldl_digits (base : Nat) (hb : 0 < base) (s : Bytes) (acc : Nat) :
    acc ≤ s.foldl (fun a c => a * base + digitVal c) acc := by
  induction s generalizing acc with
  | nil => exact le_refl _
  | cons c cs ih =>
    simp only [List.foldl_cons]
    have h1 : acc ≤ acc * base := Nat.le_mul_of_pos_right acc hb
    exact le_trans (le_trans h1 (Nat.le_add_right _ _)) (ih _)

/-- On a digit string whose value fits in 32 bits the loop of `ParseUint`
returns that value and no error. -/
theorem parseUintLoop_valid {base : Nat} (hb : base = 10 ∨ base = 16) (s : Bytes) (acc : Nat)
    (hdig : ∀ c ∈ s, isDigit base c)
    (hval : s.foldl (fun a c => a * base + digitVal c) acc < 2 ^ 32) :
    parseUintLoop base ((2 ^ 64 - 1) / base + 1) (2 ^ 32 - 1) s acc
      = (s.foldl (fun a c => a * base + digitVal c) acc, none) := by
  induction s generalizing acc with
  | nil => rfl
  | cons c cs ih =>
    obtain ⟨d, hd, hdv, hdlt⟩ := digitOf_of_isDigit hb (hdig c (List.mem_cons_self _ _))
    have hpos : 0 < base := by rcases hb with rfl | rfl <;> decide
    simp only [List.foldl_cons] at hval ⊢
    have hle := le_foldl_digits base hpos cs (acc * base + digitVal c)
    have ih' := ih (acc * base + digitVal c) (fun c hc => hdig c (List.mem_cons_of_mem _ hc)) hval
    simp only [parseUintLoop, hd]
    rcases hb with rfl | rfl
    · norm_num only at *
      have h1 : ¬ (10 ≤ d.toNat) := by omega
      have h2 : ¬ (1844674407370955162 ≤ acc) := by omega
      have h3 : acc * 10 % 18446744073709551616 = acc * 10 := Nat.mod_eq_of_lt (by omega)
      have h4 : (acc * 10 + d.toNat) % 18446744073709551616 = acc * 10 + d.toNat :=
        Nat.mod_eq_of_lt (by omega)
      have h5 : ¬ (acc * 10 + d.toNat < acc * 10 ∨ 4294967295 < acc * 10 + d.toNat) := by omega
      simp only [ge_iff_le, gt_iff_lt, h1, h2, h3, h4, h5, if_false]
      rw [hdv]; exact ih'
    · norm_num only at *
      have h1 : ¬ (16 ≤ d.toNat) := by omega
      have h2 : ¬ (1152921504606846976 ≤ acc) := by omega
      have h3 : acc * 16 % 18446744073709551616 = acc * 16 := Nat.mod_eq_of_lt (by omega)
      have h4 : (acc * 16 + d.toNat) % 18446744073709551616 = acc * 16 + d.toNat :=
        Nat.mod_eq_of_lt (by omega)
      have h5 : ¬ (acc * 16 + d.toNat < acc * 16 ∨ 4294967295 < acc * 16 + d.toNat) := by omega
      simp only [ge_iff_le, gt_iff_lt, h1, h2, h3, h4, h5, if_false]
      rw [hdv]; exact ih'

/-- When the loop of `ParseUint` returns no error, it has read a digit string
and returns its value, which fits in 32 bits. -/
theorem parseUintLoop_ok {base : Nat} (hb : base = 10 ∨ base = 16) (s : Bytes) (acc i : Nat)
    (hacc : acc < 2 ^ 32)
    (h : parseUintLoop base ((2 ^ 64 - 1) / base + 1) (2 ^ 32 - 1) s acc = (i, none)) :
    (∀ c ∈ s, isDigit base c) ∧ i = s.foldl (fun a c => a * base + digitVal c) acc ∧
      i < 2 ^ 32 := by
  induction s generalizing acc with
  | nil =>
    simp only [parseUintLoop, Prod.mk.injEq, and_true] at h
    subst h
    exact ⟨fun c hc => absurd hc (List.not_mem_nil c), rfl, hacc⟩
  | cons c cs ih =>
    simp only [parseUintLoop] at h
    cases hd : digitOf c with
    | none => rw [hd] at h; simp at h
    | some d =>
      rw [hd] at h
      simp only at h
      split at h
      · simp at h
      · next h1 =>
        split at h
        · simp at h
        · next h2 =>
          split at h
          · simp at h
          · next h3 =>
            have hdlt : d.toNat < base := by
              rcases hb with rfl | rfl <;> (norm_num only at h1; omega)
            obtain ⟨hdig, hdv⟩ := isDigit_of_digitOf hb hd hdlt
            have hn1 : (acc * base % 2 ^ 64 + d.toNat) % 2 ^ 64 = acc * base + digitVal c ∧
                acc * base + digitVal c < 2 ^ 32 := by
              rw [hdv]
              rcases hb with rfl | rfl <;> (norm_num only at *; omega)
            rw [hn1.1] at h
            obtain ⟨g1, g2, g3⟩ := ih (acc * base + digitVal c) hn1.2 h
            refine ⟨?_, ?_, g3⟩
            · intro x hx
              rcases List.mem_cons.mp hx with rfl | hx
              · exact hdig
              · exact g1 x hx
            · simpa only [List.foldl_cons] using g2

/-- `ParseUint(s, base, 32)` for base 10 or 16 returns no error exactly on the
valid unsigned numbers, and then returns their value. -/
theorem ParseUint_valid {base : Nat} (hb : base = 10 ∨ base = 16) (s : Bytes)
    (h : ValidUnsigned base s) : ParseUint s base 32 = (numValue base s, none) := by
  obtain ⟨h1, h2, h3⟩ := h
  simp only [ParseUint, h1, if_false]
  exact parseUintLoop_valid hb s 0 h2 h3

theorem ParseUint_ok {base : Nat} (hb : base = 10 ∨ base = 16) (s : Bytes) (i : Nat)
    (h : ParseUint s base 32 = (i, none)) : ValidUnsigned base s ∧ i = numValue base s := by
  unfold ParseUint at h
  split at h
  · simp at h
  · next hne =>
    obtain ⟨g1, g2, g3⟩ := parseUintLoop_ok hb s 0 i (by norm_num) h
    exact ⟨⟨hne, g1, by rw [numValue, ← g2]; exact g3⟩, g2⟩

theorem ParseUint_invalid {base : Nat} (hb : base = 10 ∨ base = 16) (s : Bytes)
    (h : ¬ ValidUnsigned base s) : ∃ v e, ParseUint s base 32 = (v, some e) := by
  rcases hp : ParseUint s base 32 with ⟨v, _ | e⟩
  · exact absurd (ParseUint_ok hb s v hp).1 h
  · exact ⟨v, e, rfl⟩

/-! ## Numeric character references -/

/-- What the loop does at a numeric reference `&#body;` whose `body` has no
`;` and no space: a leading `x` selects base 16 for the rest of `body`. -/
theorem decodeLoop_numeric (pre body suf buf : Bytes)
    (hpre : 38 ∉ pre) (h59 : 59 ∉ body) (h32 : 32 ∉ body) :
    decodeLoop (pre ++ 38 :: (35 :: body ++ 59 :: suf)).length
        (pre ++ 38 :: (35 :: body ++ 59 :: suf)) buf =
      match (if body[0]? = some 120 then ParseUint (body.drop 1) 16 32
             else ParseUint body 10 32) with
      | (_, some _) => ([], some Error.InvalidNumericReference)
      | (i, none) => decodeLoop suf.length suf (buf ++ pre ++ WriteRune (rune i)) := by
  have h59' : 59 ∉ 35 :: body := by
    simp only [List.mem_cons, not_or]; exact ⟨by decide, h59⟩
  have h32' : 32 ∉ 35 :: body := by
    simp only [List.mem_cons, not_or]; exact ⟨by decide, h32⟩
  rw [decodeLoop_ref pre (35 :: body) suf buf hpre h59']
  simp only [refBody, h32', if_false, List.getElem?_cons_zero, if_true,
    List.getElem?_cons_succ, List.drop_succ_cons, List.drop_zero]
  generalize (if body[0]? = some 120 then ParseUint (body.drop 1) 16 32
    else ParseUint body 10 32) = p
  rcases p with ⟨i, _ | e⟩ <;> rfl

/-- C3: for `pre` without `&`, a `body` without `;` and space, and any `suf`:
if `body` is not a valid unsigned number in its declared base (hexadecimal
for the part after a leading `x`, decimal otherwise), then
`DecodeEntities(pre ++ "&#" ++ body ++ ";" ++ suf)` returns the empty string
and `InvalidNumericReference`. -/
theorem C3_invalid_numeric_reference (pre body suf : Bytes)
    (hpre : 38 ∉ pre) (h59 : 59 ∉ body) (h32 : 32 ∉ body) (hinv : ¬ DeclaredValid body) :
    DecodeEntities (pre ++ lit "&#" ++ body ++ lit ";" ++ suf)
      = ([], some Error.InvalidNumericReference) := by
  have e : pre ++ lit "&#" ++ body ++ lit ";" ++ suf
      = pre ++ 38 :: (35 :: body ++ 59 :: suf) := by
    have : lit "&#" = [38, 35] := by decide
    simp [this, lit_semicolon]
  rw [e, DecodeEntities, decodeLoop_numeric pre body suf [] hpre h59 h32]
  unfold DeclaredValid at hinv
  by_cases hx : body[0]? = some 120
  · rw [if_pos hx] at hinv ⊢
    obtain ⟨v, err, hp⟩ := ParseUint_invalid (Or.inr rfl) _ hinv
    rw [hp]
  · rw [if_neg hx] at hinv ⊢
    obtain ⟨v, err, hp⟩ := ParseUint_invalid (Or.inl rfl) _ hinv
    rw [hp]

/-- C3 at the input `"&#zz;"`. -/
theorem C3_invalid_numeric_reference_witness :
    DecodeEntities (lit "" ++ lit "&#" ++ lit "zz" ++ lit ";" ++ lit "")
      = ([], some Error.InvalidNumericReference) :=
  C3_invalid_numeric_reference (lit "") (lit "zz") (lit "") (by decide) (by decide) (by decide)
    (by decide)

/-! ## References with white space in the span -/

/-- A string holding a tab, newline or carriage return is no valid unsigned
number: `strconv.ParseUint` takes none of the three for a digit. -/
theorem not_valid_of_blank {base : Nat} {s : Bytes} {w : UInt8}
    (hw : w = 9 ∨ w = 10 ∨ w = 13) (hmem : w ∈ s) : ¬ ValidUnsigned base s := by
  intro h
  have hd := h.2.1 w hmem
  rcases hw with rfl | rfl | rfl <;> revert hd <;> unfold isDigit <;> split <;> decide

/-- What the loop does at a reference `&mid;` whose span has no space but a
tab, newline or carriage return: the span is taken for a reference and the
call fails. -/
theorem decodeLoop_blank (pre mid rest buf : Bytes) (w : UInt8)
    (hpre : 38 ∉ pre) (hmid : 59 ∉ mid) (h32 : 32 ∉ mid)
    (hw : w = 9 ∨ w = 10 ∨ w = 13) (hmem : w ∈ mid) :
    decodeLoop (pre ++ 38 :: (mid ++ 59 :: rest)).length (pre ++ 38 :: (mid ++ 59 :: rest)) buf
      = ([], some (if mid.head? = some 35 then Error.InvalidNumericReference
          else Error.Errorf (unknownEntityMsg mid))) := by
  by_cases hh : mid.head? = some 35
  · rw [if_pos hh]
    obtain ⟨body, rfl⟩ : ∃ body, mid = 35 :: body := by
      cases mid with
      | nil => simp at hh
      | cons c cs => simp at hh; exact ⟨cs, by rw [hh]⟩
    have h59 : 59 ∉ body := fun h => hmid (List.mem_cons_of_mem _ h)
    have h32b : 32 ∉ body := fun h => h32 (List.mem_cons_of_mem _ h)
    have hwb : w ∈ body := by
      rcases List.mem_cons.1 hmem with h | h
      · rcases hw with rfl | rfl | rfl <;> exact absurd h (by decide)
      · exact h
    rw [decodeLoop_numeric pre body rest buf hpre h59 h32b]
    by_cases hx : body[0]? = some 120
    · rw [if_pos hx]
      have hwd : w ∈ body.drop 1 := by
        cases body with
        | nil => simp at hx
        | cons c cs =>
          simp at hx
          rcases List.mem_cons.1 hwb with h | h
          · rw [hx] at h
            rcases hw with rfl | rfl | rfl <;> exact absurd h (by decide)
          · simpa using h
      obtain ⟨v, err, hp⟩ := ParseUint_invalid (Or.inr rfl) _ (not_valid_of_blank hw hwd)
      rw [hp]
    · rw [if_neg hx]
      obtain ⟨v, err, hp⟩ := ParseUint_invalid (Or.inl rfl) _ (not_valid_of_blank hw hwb)
      rw [hp]
  · rw [if_neg hh]
    have h0 : ¬ mid[0]? = some 35 := by
      cases mid with
      | nil => simp
      | cons c cs => simpa using hh
    have hne : ∀ l : Bytes, w ∉ l → mid ≠ l := fun l hl e => hl (e ▸ hmem)
    have hlt : mid ≠ [108, 116] :=
      hne _ (by rcases hw with rfl | rfl | rfl <;> decide)
    have hgt : mid ≠ [103, 116] :=
      hne _ (by rcases hw with rfl | rfl | rfl <;> decide)
    have hquot : mid ≠ [113, 117, 111, 116] :=
      hne _ (by rcases hw with rfl | rfl | rfl <;> decide)
    have hapos : mid ≠ [97, 112, 111, 115] :=
      hne _ (by rcases hw with rfl | rfl | rfl <;> decide)
    have hamp : mid ≠ [97, 109, 112] :=
      hne _ (by rcases hw with rfl | rfl | rfl <;> decide)
    rw [decodeLoop_ref pre mid rest buf hpre hmid]
    simp only [refBody, h32, h0, hlt, hgt, hquot, hapos, hamp, if_false]

/-- C6 (amended): for `pre` without `&`, a span `mid` without `;`, and any
`rest`.  When the span holds a space character (0x20),
`DecodeEntities(pre ++ "&" ++ mid ++ ";" ++ rest)` returns the input unchanged
with no error, whatever follows the `;`.  A tab, newline or carriage return in
the span does not have this effect: when the span holds one of them and no
space, the call returns the empty string and an error,
`InvalidNumericReference` if the span starts with `#` and the unknown-entity
error for the span otherwise, so it does not return the input. -/
theorem C6_space_in_reference (pre mid rest : Bytes)
    (hpre : 38 ∉ pre) (hmid : 59 ∉ mid) :
    (32 ∈ mid →
      DecodeEntities (pre ++ lit "&" ++ mid ++ lit ";" ++ rest)
        = (pre ++ lit "&" ++ mid ++ lit ";" ++ rest, none)) ∧
    (32 ∉ mid → (9 ∈ mid ∨ 10 ∈ mid ∨ 13 ∈ mid) →
      DecodeEntities (pre ++ lit "&" ++ mid ++ lit ";" ++ rest)
        = ([], some (if mid.head? = some 35 then Error.InvalidNumericReference
            else Error.Errorf (lit "unknown predefined entity &" ++ mid ++ lit ";"))) ∧
      DecodeEntities (pre ++ lit "&" ++ mid ++ lit ";" ++ rest)
        ≠ (pre ++ lit "&" ++ mid ++ lit ";" ++ rest, none)) := by
  have e : pre ++ lit "&" ++ mid ++ lit ";" ++ rest = pre ++ 38 :: (mid ++ 59 :: rest) := by
    simp [lit_ampersand, lit_semicolon]
  refine ⟨fun hsp => ?_, fun h32 hw => ?_⟩
  · rw [e, DecodeEntities, decodeLoop_ref pre mid rest [] hpre hmid]
    simp [refBody, hsp]
  · have key : DecodeEntities (pre ++ 38 :: (mid ++ 59 :: rest))
        = ([], some (if mid.head? = some 35 then Error.InvalidNumericReference
            else Error.Errorf (unknownEntityMsg mid))) := by
      rcases hw with h | h | h
      · exact decodeLoop_blank pre mid rest [] 9 hpre hmid h32 (Or.inl rfl) h
      · exact decodeLoop_blank pre mid rest [] 10 hpre hmid h32 (Or.inr (Or.inl rfl)) h
      · exact decodeLoop_blank pre mid rest [] 13 hpre hmid h32 (Or.inr (Or.inr rfl)) h
    rw [e, key]
    refine ⟨rfl, fun h => ?_⟩
    have h2 := congrArg Prod.snd h
    simp at h2

/-- C6 (amended) at four inputs: `"a & b; &lt;"` comes back unchanged, the
later `&lt;` undecoded; `"a &\nb; c"`, `"a &b\r; c"` and `"a &#1\t2; c"`, with
a newline, a carriage return and a tab in the span, fail. -/
theorem C6_space_in_reference_witness :
    DecodeEntities (lit "a " ++ lit "&" ++ lit " b" ++ lit ";" ++ lit " &lt;")
      = (lit "a " ++ lit "&" ++ lit " b" ++ lit ";" ++ lit " &lt;", none) ∧
    DecodeEntities (lit "a " ++ lit "&" ++ lit "\nb" ++ lit ";" ++ lit " c")
      = ([], some (Error.Errorf (lit "unknown predefined entity &\nb;"))) ∧
    DecodeEntities (lit "a " ++ lit "&" ++ lit "b\r" ++ lit ";" ++ lit " c")
      = ([], some (Error.Errorf (lit "unknown predefined entity &b\r;"))) ∧
    DecodeEntities (lit "a " ++ lit "&" ++ lit "#1\t2" ++ lit ";" ++ lit " c")
      = ([], some Error.InvalidNumericReference) :=
  ⟨(C6_space_in_reference (lit "a ") (lit " b") (lit " &lt;") (by decide) (by decide)).1
      (by decide),
    ((C6_space_in_reference (lit "a ") (lit "\nb") (lit " c") (by decide) (by decide)).2
      (by decide) (by decide)).1,
    ((C6_space_in_reference (lit "a ") (lit "b\r") (lit " c") (by decide) (by decide)).2
      (by decide) (by decide)).1,
    ((C6_space_in_reference (lit "a ") (lit "#1\t2") (lit " c") (by decide) (by decide)).2
      (by decide) (by decide)).1⟩

/-- C6 as stated fails for a tab: in `"a &\tb; c"` the span between the first
`&` and the `;` after it holds a tab (and no `;`), yet the call returns the
empty string and an unknown-entity error instead of the input. -/
theorem C6_tab_counterexample :
    (9 : UInt8) ∈ lit "\tb" ∧ 38 ∉ lit "a " ∧ 59 ∉ lit "\tb" ∧
    DecodeEntities (lit "a " ++ lit "&" ++ lit "\tb" ++ lit ";" ++ lit " c")
      = ([], some (Error.Errorf (lit "unknown predefined entity &\tb;"))) ∧
    DecodeEntities (lit "a " ++ lit "&" ++ lit "\tb" ++ lit ";" ++ lit " c")
      ≠ (lit "a " ++ lit "&" ++ lit "\tb" ++ lit ";" ++ lit " c", none) := by
  decide

/-! ## `strings.Index` and the CDATA markers -/

theorem HasPrefix_iff (s p : Bytes) : HasPrefix s p = true ↔ p <+: s := by
  induction p generalizing s with
  | nil => cases s <;> simp [HasPrefix]
  | cons a p ih =>
    cases s with
    | nil => simp [HasPrefix]
    | cons b s =>
      by_cases h : b = a
      · subst h; simp [HasPrefix, ih, List.cons_prefix_cons]
      · have h2 : ¬ a = b := fun e => h e.symm
        simp [HasPrefix, h, h2, List.cons_prefix_cons]

theorem HasPrefix_append_self (p t : Bytes) : HasPrefix (p ++ t) p = true :=
  (HasPrefix_iff _ _).mpr (List.prefix_append p t)

/-- When `substr` starts at no position inside `pre`, the search goes on
after `pre`. -/
theorem Index_skip (pre rest substr : Bytes)
    (h : ∀ j, j < pre.length → HasPrefix ((pre ++ rest).drop j) substr = false) :
    Index (pre ++ rest) substr = (Index rest substr).map (· + pre.length) := by
  induction pre with
  | nil => simp
  | cons b bs ih =>
    have h0 := h 0 (by simp)
    simp only [List.drop_zero, List.cons_append] at h0
    have ih' := ih (fun j hj => by
      have := h (j + 1) (by simpa using hj)
      simpa using this)
    rw [List.cons_append, Index, if_neg (by rw [h0]; simp), ih', Option.map_map]
    cases Index rest substr with
    | none => rfl
    | some i => simp only [Option.map_some', Function.comp, List.length_cons, Nat.add_assoc]

theorem Index_at_start (substr t : Bytes) (h : substr ≠ []) : Index (substr ++ t) substr = some 0 := by
  cases substr with
  | nil => exact absurd rfl h
  | cons a p =>
    have := HasPrefix_append_self (a :: p) t
    simp only [List.cons_append] at this ⊢
    simp [Index, this]

/-- A position where the search string starts gives an occurrence. -/
theorem occurs_of_HasPrefix_drop {p substr : Bytes} {k : Nat}
    (h : HasPrefix (p.drop k) substr = true) : substr <:+: p := by
  obtain ⟨t, ht⟩ := (HasPrefix_iff _ _).mp h
  exact ⟨p.take k, t, by rw [List.append_assoc, ht, List.take_append_drop]⟩

/-- The end marker cannot begin in a non-empty text `q` and run on into a
following end marker, unless it lies in `q` altogether. -/
theorem END_no_overlap (q t : Bytes) (hq : q ≠ [])
    (h : HasPrefix (q ++ CDATA_END ++ t) CDATA_END = true) : HasPrefix q CDATA_END = true := by
  rw [CDATA_END_eq] at h ⊢
  match q, hq with
  | [a], _ =>
    simp only [List.cons_append, List.nil_append, HasPrefix] at h
    split at h
    · simp at h
    · exact absurd h (by simp)
  | [a, b], _ =>
    simp only [List.cons_append, List.nil_append, HasPrefix] at h
    split at h
    · split at h
      · simp at h
      · exact absurd h (by simp)
    · exact absurd h (by simp)
  | a :: b :: c :: q, _ =>
    simp only [List.cons_append, HasPrefix] at h ⊢
    exact h

/-- In `payload ++ "]]>" ++ t`, with no `]]>` inside `payload`, the first
`]]>` is the one after `payload`. -/
theorem Index_END (payload t : Bytes) (h : ¬ CDATA_END <:+: payload) :
    Index (payload ++ (CDATA_END ++ t)) CDATA_END = some payload.length := by
  rw [Index_skip payload (CDATA_END ++ t) CDATA_END, Index_at_start _ _ (by rw [CDATA_END_eq]; simp)]
  · simp
  · intro j hj
    by_contra hc
    rw [Bool.not_eq_false] at hc
    rw [List.drop_append_of_le_length (le_of_lt hj), ← List.append_assoc] at hc
    have hne : payload.drop j ≠ [] := by
      intro e
      have := congrArg List.length e
      simp at this
      omega
    exact h (occurs_of_HasPrefix_drop (END_no_overlap _ t hne hc))

/-- The end marker does not begin inside the start marker. -/
theorem START_no_END (rest : Bytes) (j : Nat) (hj : j < CDATA_START.length) :
    HasPrefix ((CDATA_START ++ rest).drop j) CDATA_END = false := by
  rw [CDATA_START_eq] at hj ⊢
  rw [CDATA_END_eq]
  simp only [List.length_cons, List.length_nil] at hj
  interval_cases j <;> simp [HasPrefix]

/-! ## The loop of `StripCDATA` -/

theorem CDATA_START_length : CDATA_START.length = 9 := by decide
theorem CDATA_END_length : CDATA_END.length = 3 := by decide

theorem stripLoop_done (str : Bytes) (n curr : Nat) (buf : Bytes) (h : str.length ≤ curr) :
    stripLoop str n curr buf = buf := by
  cases n with
  | zero => rfl
  | succ n => simp only [stripLoop]; rw [if_neg (by omega)]

/-- The number of passes allowed does not matter once it is at least
`len(str) - curr`: the loop has always ended by then. -/
theorem stripLoop_fuel (str : Bytes) (n m curr : Nat) (buf : Bytes)
    (hn : str.length ≤ n + curr) (hm : str.length ≤ m + curr) :
    stripLoop str n curr buf = stripLoop str m curr buf := by
  induction n generalizing m curr buf with
  | zero => rw [stripLoop_done str 0 curr buf (by omega), stripLoop_done str m curr buf (by omega)]
  | succ n ih =>
    cases m with
    | zero =>
      rw [stripLoop_done str _ curr buf (by omega), stripLoop_done str 0 curr buf (by omega)]
    | succ m =>
      simp only [stripLoop, CDATA_END_length]
      split
      · split
        · rfl
        · split
          · rfl
          · exact ih m _ _ (by omega) (by omega)
      · rfl

theorem slice_middle (a p b : Bytes) : slice (a ++ (p ++ b)) a.length (a.length + p.length) = p := by
  have e : a ++ (p ++ b) = (a ++ p) ++ b := by simp
  rw [slice, e, ← List.length_append, List.take_left', List.drop_left']
  · rfl
  · rfl

/-- One pass of the loop of `StripCDATA` that finds a complete block. -/
theorem stripLoop_found (str : Bytes) (n curr start e : Nat) (buf : Bytes)
    (hcurr : curr < str.length)
    (hs : indexAt str CDATA_START curr = some start)
    (he : indexAt str CDATA_END start = some e) :
    stripLoop str (n + 1) curr buf
      = stripLoop str n (curr + e + 3) (buf ++ slice str (start + 9) e) := by
  simp only [stripLoop, hcurr, if_true, hs, he, CDATA_START_length, CDATA_END_length]

/-- C9: for every payload `p` that does not contain `]]>`,
`StripCDATA("<![CDATA[" ++ p ++ "]]>")` is `p`, byte for byte. -/
theorem C9_payload_verbatim (p : Bytes) (h : ¬ CDATA_END <:+: p) :
    StripCDATA (CDATA_START ++ p ++ CDATA_END) = p := by
  have hlen : (CDATA_START ++ p ++ CDATA_END).length = (p.length + 11) + 1 := by
    simp only [List.length_append, CDATA_START_length, CDATA_END_length]; omega
  have hs : indexAt (CDATA_START ++ p ++ CDATA_END) CDATA_START 0 = some 0 := by
    rw [indexAt, List.drop_zero, List.append_assoc,
      Index_at_start _ _ (by rw [CDATA_START_eq]; simp)]
    rfl
  have he : indexAt (CDATA_START ++ p ++ CDATA_END) CDATA_END 0 = some (9 + p.length) := by
    rw [indexAt, List.drop_zero, List.append_assoc,
      Index_skip CDATA_START _ CDATA_END (START_no_END _)]
    have := Index_END p [] h
    rw [List.append_nil] at this
    rw [this, CDATA_START_length]
    simp only [Option.map_some', Nat.add_zero]
    congr 1; omega
  rw [StripCDATA, hlen, stripLoop_found _ _ 0 0 _ [] (by omega) hs he,
    stripLoop_done _ _ _ _ (by omega)]
  rw [List.nil_append, Nat.zero_add, ← CDATA_START_length, List.append_assoc, slice_middle]

/-- C9 at the payload `"a&lt;<![CDATA[b;"`, which holds a reference and a
start marker. -/
theorem C9_payload_verbatim_witness :
    StripCDATA (CDATA_START ++ lit "a&lt;<![CDATA[b;" ++ CDATA_END) = lit "a&lt;<![CDATA[b;" :=
  C9_payload_verbatim (lit "a&lt;<![CDATA[b;") (by decide)

/-! ## What `StripCDATA` does with text around one block -/

theorem Index_none (s substr : Bytes) (h : ¬ substr <:+: s) : Index s substr = none := by
  induction s with
  | nil =>
    have : substr ≠ [] := fun e => h (e ▸ List.infix_refl _)
    simp [Index, this]
  | cons b bs ih =>
    have h1 : HasPrefix (b :: bs) substr = false := by
      by_contra hc
      rw [Bool.not_eq_false] at hc
      exact h ((HasPrefix_iff _ _).mp hc).isInfix
    have h2 : ¬ substr <:+: bs := fun hi => h (hi.trans (List.infix_cons (List.infix_refl _)))
    rw [Index, if_neg (by rw [h1]; simp), ih h2]
    rfl

/-- The start marker cannot begin in a non-empty text `q` and run on into a
following start marker, unless it lies in `q` altogether. -/
theorem START_no_overlap (q t : Bytes) (hq : q ≠ [])
    (h : HasPrefix (q ++ CDATA_START ++ t) CDATA_START = true) :
    HasPrefix q CDATA_START = true := by
  rw [CDATA_START_eq] at h ⊢
  match q, hq with
  | [_], _ => simp [HasPrefix] at h
  | [_, _], _ => simp [HasPrefix] at h
  | [_, _, _], _ => simp [HasPrefix] at h
  | [_, _, _, _], _ => simp [HasPrefix] at h
  | [_, _, _, _, _], _ => simp [HasPrefix] at h
  | [_, _, _, _, _, _], _ => simp [HasPrefix] at h
  | [_, _, _, _, _, _, _], _ => simp [HasPrefix] at h
  | [_, _, _, _, _, _, _, _], _ => simp [HasPrefix] at h
  | _ :: _ :: _ :: _ :: _ :: _ :: _ :: _ :: _ :: q, _ =>
    simp only [List.cons_append, HasPrefix] at h ⊢
    exact h

/-- In `pre ++ "<![CDATA[" ++ t`, with no start marker inside `pre`, the first
start marker is the one after `pre`. -/
theorem Index_START (pre t : Bytes) (h : ¬ CDATA_START <:+: pre) :
    Index (pre ++ (CDATA_START ++ t)) CDATA_START = some pre.length := by
  rw [Index_skip pre (CDATA_START ++ t) CDATA_START,
    Index_at_start _ _ (by rw [CDATA_START_eq]; simp)]
  · simp
  · intro j hj
    by_contra hc
    rw [Bool.not_eq_false] at hc
    rw [List.drop_append_of_le_length (le_of_lt hj), ← List.append_assoc] at hc
    have hne : pre.drop j ≠ [] := by
      intro e
      have := congrArg List.length e
      simp at this
      omega
    exact h (occurs_of_HasPrefix_drop (START_no_overlap _ t hne hc))

/-- A string without a start marker is handed to `DecodeEntities`, whose
error is dropped. -/
theorem StripCDATA_no_start (s : Bytes) (h : ¬ CDATA_START <:+: s) :
    StripCDATA s = (DecodeEntities s).1 := by
  cases s with
  | nil => rfl
  | cons b bs =>
    have hi : indexAt (b :: bs) CDATA_START 0 = none := by
      rw [indexAt, List.drop_zero, Index_none _ _ h]; rfl
    simp [StripCDATA, stripLoop, hi]

/-- What the code does with one complete block between two texts: the payload
is copied and the text after the block is decoded, but the text `pre` before
the block does not reach the result. -/
theorem StripCDATA_one_block (pre payload post : Bytes)
    (hpre : ¬ CDATA_START <:+: pre) (hpay : ¬ CDATA_END <:+: payload)
    (hpost : ¬ CDATA_START <:+: post) :
    StripCDATA (pre ++ CDATA_START ++ payload ++ CDATA_END ++ post)
      = payload ++ (DecodeEntities post).1 := by
  have e : pre ++ CDATA_START ++ payload ++ CDATA_END ++ post
      = pre ++ (CDATA_START ++ (payload ++ (CDATA_END ++ post))) := by simp
  rw [e]
  generalize hstr : pre ++ (CDATA_START ++ (payload ++ (CDATA_END ++ post))) = str
  have hlen : str.length = pre.length + 9 + payload.length + 3 + post.length := by
    rw [← hstr]
    simp only [List.length_append, CDATA_START_length, CDATA_END_length]; omega
  have hs : indexAt str CDATA_START 0 = some pre.length := by
    rw [indexAt, List.drop_zero, ← hstr, Index_START pre _ hpre]; rfl
  have hd : str.drop pre.length = CDATA_START ++ (payload ++ (CDATA_END ++ post)) := by
    rw [← hstr, List.drop_left]
  have he : indexAt str CDATA_END pre.length = some (pre.length + 9 + payload.length) := by
    rw [indexAt, hd, Index_skip CDATA_START _ CDATA_END (START_no_END _),
      Index_END payload post hpay, CDATA_START_length]
    simp only [Option.map_some']
    congr 1; omega
  have hsl : slice str (pre.length + 9) (pre.length + 9 + payload.length) = payload := by
    have e2 : str = (pre ++ CDATA_START) ++ (payload ++ (CDATA_END ++ post)) := by
      rw [← hstr]; simp
    have e3 : pre.length + 9 = (pre ++ CDATA_START).length := by
      simp [CDATA_START_length]
    rw [e2, e3, slice_middle]
  obtain ⟨m, hm⟩ : ∃ m, str.length = (m + 1) + 1 := ⟨str.length - 2, by omega⟩
  rw [StripCDATA, hm, stripLoop_found str _ 0 pre.length _ [] (by omega) hs he, hsl]
  by_cases hp : post = []
  · subst hp
    rw [stripLoop_done _ _ _ _ (by simp at hlen; omega)]
    simp [DecodeEntities, decodeLoop]
  · have hpl : 0 < post.length := List.length_pos.mpr hp
    have hd2 : str.drop (0 + (pre.length + 9 + payload.length) + 3) = post := by
      have e2 : str = (pre ++ (CDATA_START ++ (payload ++ CDATA_END))) ++ post := by
        rw [← hstr]; simp
      have e3 : 0 + (pre.length + 9 + payload.length) + 3
          = (pre ++ (CDATA_START ++ (payload ++ CDATA_END))).length := by
        simp only [List.length_append, CDATA_START_length, CDATA_END_length]; omega
      rw [e2, e3, List.drop_left]
    have hi : indexAt str CDATA_START (0 + (pre.length + 9 + payload.length) + 3) = none := by
      rw [indexAt, hd2, Index_none _ _ hpost]; rfl
    simp only [stripLoop, hi, hd2, List.nil_append]
    rw [if_pos (by omega)]

/-- C8 at its own example: `StripCDATA("pre<![CDATA[raw&data]]>post")` is
`"raw&datapost"`, not `"preraw&datapost"`.  The text `"pre"` before the start
marker holds no marker and decodes to itself, yet it is missing from the
result: the pass that finds a complete block writes only the payload. -/
theorem C8_text_before_block_dropped :
    ¬ CDATA_START <:+: lit "pre" ∧ ¬ CDATA_END <:+: lit "pre" ∧
    ¬ CDATA_START <:+: lit "post" ∧ ¬ CDATA_END <:+: lit "post" ∧
    ¬ CDATA_END <:+: lit "raw&data" ∧
    DecodeEntities (lit "pre") = (lit "pre", none) ∧
    DecodeEntities (lit "post") = (lit "post", none) ∧
    StripCDATA (lit "pre" ++ CDATA_START ++ lit "raw&data" ++ CDATA_END ++ lit "post")
      = lit "raw&data" ++ lit "post" ∧
    StripCDATA (lit "pre" ++ CDATA_START ++ lit "raw&data" ++ CDATA_END ++ lit "post")
      ≠ lit "pre" ++ lit "raw&data" ++ lit "post" := by
  decide

/-- C10 at three blocks: `StripCDATA` of
`"<![CDATA[a]]><![CDATA[b]]><![CDATA[c]]>"` is `"ab"`, not `"abc"`.  After
the second block the cursor is `curr + end + 3 = 13 + 23 + 3 = 39`, the length
of the input, and not `end + 3 = 26`, so the loop ends before the third block. -/
theorem C10_third_block_lost :
    blocks [lit "a", lit "b", lit "c"] = lit "<![CDATA[a]]><![CDATA[b]]><![CDATA[c]]>" ∧
    StripCDATA (blocks [lit "a", lit "b", lit "c"]) = lit "ab" ∧
    StripCDATA (blocks [lit "a", lit "b", lit "c"]) ≠ lit "a" ++ lit "b" ++ lit "c" := by
  decide

/-! ## Numeric references to Unicode scalar values -/

theorem decDigitChar_spec : ∀ d, d < 10 →
    isDecDigit (decDigitChar d) ∧ digitVal (decDigitChar d) = d := by
  decide

theorem hexDigitChar_spec : ∀ upper : Bool, ∀ d, d < 16 →
    isHexDigit (hexDigitChar upper d) ∧ digitVal (hexDigitChar upper d) = d := by
  decide

/-- The value of a string of digit characters, from its digits (least
significant first, as `Nat.digits` gives them). -/
theorem numValue_digits (base : Nat) (ch : Nat → UInt8) (L : List Nat)
    (hch : ∀ d ∈ L, digitVal (ch d) = d) :
    numValue base (L.reverse.map ch) = Nat.ofDigits base L := by
  induction L with
  | nil => rfl
  | cons d L ih =>
    have ih' := ih (fun x hx => hch x (List.mem_cons_of_mem _ hx))
    unfold numValue at ih' ⊢
    rw [List.reverse_cons, List.map_append, List.foldl_append, ih', Nat.ofDigits_cons]
    simp only [List.map_cons, List.map_nil, List.foldl_cons, List.foldl_nil,
      hch d (List.mem_cons_self _ _)]
    rw [Nat.mul_comm, Nat.add_comm]

theorem decimalDigits_valid (n : Nat) (h : n < 2 ^ 32) :
    ValidUnsigned 10 (decimalDigits n) ∧ numValue 10 (decimalDigits n) = n := by
  by_cases h0 : n = 0
  · subst h0; decide
  · have hd : ∀ d ∈ Nat.digits 10 n, d < 10 := fun d hd => Nat.digits_lt_base (by norm_num) hd
    have hv : numValue 10 (decimalDigits n) = n := by
      rw [decimalDigits, if_neg h0,
        numValue_digits 10 decDigitChar _ (fun d hx => (decDigitChar_spec d (hd d hx)).2),
        Nat.ofDigits_digits]
    refine ⟨⟨?_, ?_, by rw [hv]; exact h⟩, hv⟩
    · rw [decimalDigits, if_neg h0]
      simpa using Nat.digits_ne_nil_iff_ne_zero.mpr h0
    · intro c hc
      rw [decimalDigits, if_neg h0] at hc
      obtain ⟨d, hdm, rfl⟩ := List.mem_map.mp hc
      exact (decDigitChar_spec d (hd d (List.mem_reverse.mp hdm))).1

theorem hexDigits_valid (upper : Bool) (n : Nat) (h : n < 2 ^ 32) :
    ValidUnsigned 16 (hexDigits upper n) ∧ numValue 16 (hexDigits upper n) = n := by
  by_cases h0 : n = 0
  · subst h0; cases upper <;> decide
  · have hd : ∀ d ∈ Nat.digits 16 n, d < 16 := fun d hd => Nat.digits_lt_base (by norm_num) hd
    have hv : numValue 16 (hexDigits upper n) = n := by
      rw [hexDigits, if_neg h0,
        numValue_digits 16 (hexDigitChar upper) _
          (fun d hx => (hexDigitChar_spec upper d (hd d hx)).2),
        Nat.ofDigits_digits]
    refine ⟨⟨?_, ?_, by rw [hv]; exact h⟩, hv⟩
    · rw [hexDigits, if_neg h0]
      simpa using Nat.digits_ne_nil_iff_ne_zero.mpr h0
    · intro c hc
      rw [hexDigits, if_neg h0] at hc
      obtain ⟨d, hdm, rfl⟩ := List.mem_map.mp hc
      exact (hexDigitChar_spec upper d (hd d (List.mem_reverse.mp hdm))).1

/-- Digit characters are not `;`, space or `x`. -/
theorem isHexDigit_ne {c : UInt8} (h : isHexDigit c) : c ≠ 59 ∧ c ≠ 32 ∧ c ≠ 120 := by
  refine ⟨?_, ?_, ?_⟩ <;> (intro e; subst e; revert h; decide)

theorem isDecDigit_isHexDigit {c : UInt8} (h : isDecDigit c) : isHexDigit c := Or.inl h

theorem digits_no_special {base : Nat} (hb : base = 10 ∨ base = 16) {s : Bytes}
    (h : ∀ c ∈ s, isDigit base c) : 59 ∉ s ∧ 32 ∉ s ∧ s[0]? ≠ some 120 := by
  have hh : ∀ c ∈ s, isHexDigit c := by
    intro c hc
    have := h c hc
    rcases hb with rfl | rfl
    · exact isDecDigit_isHexDigit this
    · exact this
  refine ⟨fun hm => (isHexDigit_ne (hh _ hm)).1 rfl, fun hm => (isHexDigit_ne (hh _ hm)).2.1 rfl, ?_⟩
  cases s with
  | nil => simp
  | cons c cs =>
    simp only [List.getElem?_cons_zero, ne_eq, Option.some.injEq]
    exact (isHexDigit_ne (hh c (List.mem_cons_self _ _))).2.2

/-! ## `WriteRune` on Unicode scalar values -/

theorem rune_of_lt (n : Nat) (h : n < 2 ^ 31) : rune n = (n : Int) := by
  have h1 : n % 2 ^ 32 = n := Nat.mod_eq_of_lt (by omega)
  simp only [rune, h1, h, if_true]

theorem uint32_natCast (n : Nat) (h : n < 2 ^ 32) : uint32 (n : Int) = n := by
  unfold uint32
  omega

theorem byte_natCast (n : Nat) : byte (n : Int) = UInt8.ofNat (n % 256) := by
  have e : ((n : Int) % 256).toNat = n % 256 := by omega
  rw [byte, e]

theorem byte_shift (n k : Nat) : byte ((n : Int) >>> k) = UInt8.ofNat (n / 2 ^ k % 256) := by
  have e : (n : Int) >>> k = ((n / 2 ^ k : Nat) : Int) := by
    rw [Int.shiftRight_eq_div_pow]
    norm_cast
  rw [e, byte_natCast]

theorem lead2 : ∀ a, a < 32 → (0xC0 : UInt8) ||| UInt8.ofNat a = UInt8.ofNat (0xC0 + a) := by
  decide

theorem lead3 : ∀ a, a < 16 → (0xE0 : UInt8) ||| UInt8.ofNat a = UInt8.ofNat (0xE0 + a) := by
  decide

theorem lead4 : ∀ a, a < 8 → (0xF0 : UInt8) ||| UInt8.ofNat a = UInt8.ofNat (0xF0 + a) := by
  decide

set_option maxRecDepth 100000 in
theorem cont : ∀ x, x < 256 →
    (0x80 : UInt8) ||| (UInt8.ofNat x &&& 0x3F) = UInt8.ofNat (0x80 + x % 64) := by
  decide

/-- A continuation byte made by the code from the six bits at position `k`. -/
theorem cont_shift (n k : Nat) :
    (0x80 : UInt8) ||| (byte ((n : Int) >>> k) &&& 0x3F) = UInt8.ofNat (0x80 + n / 2 ^ k % 64) := by
  rw [byte_shift, cont _ (Nat.mod_lt _ (by norm_num))]
  congr 2
  omega

theorem cont_low (n : Nat) :
    (0x80 : UInt8) ||| (byte (n : Int) &&& 0x3F) = UInt8.ofNat (0x80 + n % 64) := by
  rw [byte_natCast, cont _ (Nat.mod_lt _ (by norm_num))]
  congr 2
  omega

/-- On a Unicode scalar value `WriteRune` appends its UTF-8 encoding. -/
theorem WriteRune_scalar (n : Nat) (h1 : n ≤ 0x10FFFF) (h2 : ¬ (0xD800 ≤ n ∧ n ≤ 0xDFFF)) :
    WriteRune (rune n) = utf8Encode n := by
  rw [rune_of_lt n (by omega)]
  unfold WriteRune AppendRune appendRuneNonASCII appendRune3 utf8Encode
  simp only [uint32_natCast n (by omega)]
  by_cases c1 : n < 0x80
  · rw [if_pos c1, if_pos c1, byte_natCast, Nat.mod_eq_of_lt (by omega)]
  · rw [if_neg c1, if_neg c1, if_neg (by omega)]
    by_cases c2 : n < 0x800
    · rw [if_pos (by omega), if_pos c2, cont_low, byte_shift,
        Nat.mod_eq_of_lt (by omega), lead2 _ (by omega)]
      norm_num
    · rw [if_neg (by omega), if_neg c2, if_neg (by omega)]
      by_cases c3 : n < 0x10000
      · rw [if_pos (by omega), if_pos c3, cont_low, cont_shift, byte_shift,
          Nat.mod_eq_of_lt (by omega), lead3 _ (by omega)]
        norm_num
      · rw [if_neg (by omega), if_neg c3, cont_low, cont_shift, cont_shift, byte_shift,
          Nat.mod_eq_of_lt (by omega), lead4 _ (by omega)]
        norm_num

/-! ## `utf8Encode` is the UTF-8 encoding of the Lean core library -/

theorem UInt32_shiftRight_toNat (v : UInt32) (k : Nat) (hk : k < 32) :
    (v >>> (UInt32.ofNat k)).toNat = v.toNat / 2 ^ k := by
  have hm : ((UInt32.ofNat k).mod 32).toBitVec.toNat = k := by
    show ((UInt32.ofNat k) % 32).toNat = k
    rw [UInt32.toNat_mod, UInt32.toNat_ofNat_of_lt (by unfold UInt32.size; omega)]
    show k % 32 = k
    omega
  show (v.toBitVec >>> ((UInt32.ofNat k).mod 32).toBitVec).toNat = _
  rw [BitVec.ushiftRight_eq', BitVec.toNat_ushiftRight, hm, Nat.shiftRight_eq_div_pow]
  rfl

theorem UInt8_ofNat_mod (x : Nat) : UInt8.ofNat x = UInt8.ofNat (x % 256) := by
  apply UInt8.toNat.inj
  show (BitVec.ofNat 8 x).toNat = (BitVec.ofNat 8 (x % 256)).toNat
  simp [BitVec.toNat_ofNat]

set_option maxRecDepth 100000 in
theorem core_cont : ∀ y, y < 256 →
    UInt8.ofNat y &&& 63 ||| 128 = UInt8.ofNat (128 + y % 64) := by
  decide

set_option maxRecDepth 100000 in
theorem core_lead : ∀ y, y < 256 →
    (UInt8.ofNat y &&& 31 ||| 192 = UInt8.ofNat (192 + y % 32)) ∧
    (UInt8.ofNat y &&& 15 ||| 224 = UInt8.ofNat (224 + y % 16)) ∧
    (UInt8.ofNat y &&& 7 ||| 240 = UInt8.ofNat (240 + y % 8)) := by
  decide

theorem core_byte (v : UInt32) (k : Nat) (hk : k < 32) :
    (v >>> (UInt32.ofNat k)).toUInt8 = UInt8.ofNat (v.toNat / 2 ^ k % 256) := by
  show UInt8.ofNat (v >>> (UInt32.ofNat k)).toNat = _
  rw [UInt32_shiftRight_toNat v k hk, ← UInt8_ofNat_mod]

theorem core_byte0 (v : UInt32) : v.toUInt8 = UInt8.ofNat (v.toNat % 256) := by
  show UInt8.ofNat v.toNat = _
  rw [← UInt8_ofNat_mod]

/-- The encoding `utf8Encode` of a character's code point is the encoding
`String.utf8EncodeChar` of the Lean core library. -/
theorem utf8Encode_eq_core (c : Char) : utf8Encode c.val.toNat = String.utf8EncodeChar c := by
  have hv : c.val.toNat < 0x110000 := by
    rcases c.valid with h | h
    · have : c.val.toNat < 0xd800 := h
      omega
    · exact h.2
  have e1 : (c.val ≤ 127) ↔ c.val.toNat ≤ 127 := Iff.rfl
  have e2 : (c.val ≤ 2047) ↔ c.val.toNat ≤ 2047 := Iff.rfl
  have e3 : (c.val ≤ 65535) ↔ c.val.toNat ≤ 65535 := Iff.rfl
  have s6 : (c.val >>> 6).toUInt8 = UInt8.ofNat (c.val.toNat / 2 ^ 6 % 256) :=
    core_byte c.val 6 (by norm_num)
  have s12 : (c.val >>> 12).toUInt8 = UInt8.ofNat (c.val.toNat / 2 ^ 12 % 256) :=
    core_byte c.val 12 (by norm_num)
  have s18 : (c.val >>> 18).toUInt8 = UInt8.ofNat (c.val.toNat / 2 ^ 18 % 256) :=
    core_byte c.val 18 (by norm_num)
  unfold String.utf8EncodeChar utf8Encode
  simp only [e1, e2, e3, s6, s12, s18, core_byte0]
  generalize c.val.toNat = n at hv
  have hm : ∀ x, x % 256 < 256 := fun x => Nat.mod_lt _ (by norm_num)
  by_cases c1 : n < 0x80
  · have d1 : n ≤ 127 := by omega
    simp only [c1, d1, if_true]
    rw [Nat.mod_eq_of_lt (by omega)]
  · have d1 : ¬ n ≤ 127 := by omega
    simp only [c1, d1, if_false]
    by_cases c2 : n < 0x800
    · have d2 : n ≤ 2047 := by omega
      simp only [c2, d2, if_true]
      rw [core_cont _ (hm _), (core_lead _ (hm _)).1]
      have k1 : n / 2 ^ 6 % 256 % 32 = n / 64 := by omega
      have k0 : n % 256 % 64 = n % 64 := by omega
      rw [k1, k0]
    · have d2 : ¬ n ≤ 2047 := by omega
      simp only [c2, d2, if_false]
      by_cases c3 : n < 0x10000
      · have d3 : n ≤ 65535 := by omega
        simp only [c3, d3, if_true]
        rw [core_cont _ (hm _), core_cont _ (hm _), (core_lead _ (hm _)).2.1]
        have k2 : n / 2 ^ 12 % 256 % 16 = n / 4096 := by omega
        have k1 : n / 2 ^ 6 % 256 % 64 = n / 64 % 64 := by omega
        have k0 : n % 256 % 64 = n % 64 := by omega
        rw [k2, k1, k0]
      · have d3 : ¬ n ≤ 65535 := by omega
        simp only [c3, d3, if_false]
        rw [core_cont _ (hm _), core_cont _ (hm _), core_cont _ (hm _),
          (core_lead _ (hm _)).2.2]
        have k3 : n / 2 ^ 18 % 256 % 8 = n / 262144 := by omega
        have k2 : n / 2 ^ 12 % 256 % 64 = n / 4096 % 64 := by omega
        have k1 : n / 2 ^ 6 % 256 % 64 = n / 64 % 64 := by omega
        have k0 : n % 256 % 64 = n % 64 := by omega
        rw [k3, k2, k1, k0]

theorem Char_ofNat_toNat (n : Nat) (h1 : n ≤ 0x10FFFF) (h2 : ¬ (0xD800 ≤ n ∧ n ≤ 0xDFFF)) :
    (Char.ofNat n).val.toNat = n := by
  have hv : n.isValidChar := by
    unfold Nat.isValidChar
    omega
  rw [Char.ofNat, dif_pos hv]
  rfl

/-- A numeric reference alone in the input whose digits are a valid number
with a scalar value decodes to the UTF-8 encoding of that value. -/
theorem DecodeEntities_numeric_scalar (body : Bytes) (n : Nat)
    (h59 : 59 ∉ body) (h32 : 32 ∉ body)
    (hp : (if body[0]? = some 120 then ParseUint (body.drop 1) 16 32
           else ParseUint body 10 32) = (n, none))
    (h1 : n ≤ 0x10FFFF) (h2 : ¬ (0xD800 ≤ n ∧ n ≤ 0xDFFF)) :
    DecodeEntities (lit "&#" ++ body ++ lit ";") = (utf8Encode n, none) := by
  have e : lit "&#" ++ body ++ lit ";" = [] ++ 38 :: (35 :: body ++ 59 :: []) := by
    have : lit "&#" = [38, 35] := by decide
    simp [this, lit_semicolon]
  rw [e, DecodeEntities, decodeLoop_numeric [] body [] [] (List.not_mem_nil _) h59 h32, hp]
  simp only [List.length_nil, decodeLoop, List.nil_append, List.append_nil]
  rw [WriteRune_scalar n h1 h2]

/-- C2: for every Unicode scalar value `n` (`n ≤ 0x10FFFF`, not a surrogate),
`DecodeEntities("&#" ++ decimal digits of n ++ ";")` and
`DecodeEntities("&#x" ++ hexadecimal digits of n ++ ";")`, the latter with
lower-case or with upper-case digits, succeed and return the UTF-8 encoding of
the code point `n`, which is also the encoding the Lean core library gives
for the character `n`. -/
theorem C2_numeric_reference (n : Nat) (h1 : n ≤ 0x10FFFF) (h2 : ¬ (0xD800 ≤ n ∧ n ≤ 0xDFFF)) :
    DecodeEntities (lit "&#" ++ decimalDigits n ++ lit ";") = (utf8Encode n, none) ∧
    DecodeEntities (lit "&#x" ++ hexDigits false n ++ lit ";") = (utf8Encode n, none) ∧
    DecodeEntities (lit "&#x" ++ hexDigits true n ++ lit ";") = (utf8Encode n, none) ∧
    utf8Encode n = String.utf8EncodeChar (Char.ofNat n) := by
  have hn : n < 2 ^ 32 := by omega
  have hex : ∀ upper : Bool,
      DecodeEntities (lit "&#x" ++ hexDigits upper n ++ lit ";") = (utf8Encode n, none) := by
    intro upper
    obtain ⟨hv, hval⟩ := hexDigits_valid upper n hn
    obtain ⟨g1, g2, _⟩ := digits_no_special (Or.inr rfl) hv.2.1
    have e : lit "&#x" ++ hexDigits upper n ++ lit ";"
        = lit "&#" ++ (120 :: hexDigits upper n) ++ lit ";" := by
      have a : lit "&#x" = [38, 35, 120] := by decide
      have b : lit "&#" = [38, 35] := by decide
      rw [a, b]; rfl
    rw [e]
    refine DecodeEntities_numeric_scalar _ n ?_ ?_ ?_ h1 h2
    · simp only [List.mem_cons, not_or]; exact ⟨by decide, g1⟩
    · simp only [List.mem_cons, not_or]; exact ⟨by decide, g2⟩
    · simp only [List.getElem?_cons_zero, if_true, List.drop_succ_cons, List.drop_zero]
      rw [ParseUint_valid (Or.inr rfl) _ hv, hval]
  refine ⟨?_, hex false, hex true, ?_⟩
  · obtain ⟨hv, hval⟩ := decimalDigits_valid n hn
    obtain ⟨g1, g2, g3⟩ := digits_no_special (Or.inl rfl) hv.2.1
    refine DecodeEntities_numeric_scalar _ n g1 g2 ?_ h1 h2
    rw [if_neg g3, ParseUint_valid (Or.inl rfl) _ hv, hval]
  · rw [← utf8Encode_eq_core, Char_ofNat_toNat n h1 h2]

theorem decimalDigits_65 : decimalDigits 65 = lit "65" := by
  have : lit "65" = [54, 53] := by decide
  rw [this]
  simp [decimalDigits, decDigitChar]

theorem hexDigits_65 : hexDigits false 65 = lit "41" := by
  have : lit "41" = [52, 49] := by decide
  rw [this]
  simp [hexDigits, hexDigitChar]

theorem utf8Encode_65 : utf8Encode 65 = lit "A" := by decide

theorem hexDigits_upper_8364 : hexDigits true 8364 = lit "20AC" := by
  have : lit "20AC" = [50, 48, 65, 67] := by decide
  rw [this]
  simp [hexDigits, hexDigitChar]

/-- C2 at `n = 65`: `"&#65;"` and `"&#x41;"` both give `"A"`. -/
theorem C2_numeric_reference_witness :
    DecodeEntities (lit "&#" ++ decimalDigits 65 ++ lit ";") = (utf8Encode 65, none) ∧
    DecodeEntities (lit "&#x" ++ hexDigits false 65 ++ lit ";") = (utf8Encode 65, none) ∧
    DecodeEntities (lit "&#x" ++ hexDigits true 65 ++ lit ";") = (utf8Encode 65, none) ∧
    utf8Encode 65 = String.utf8EncodeChar (Char.ofNat 65) :=
  C2_numeric_reference 65 (by decide) (by decide)

/-! ## The examples of the specification that hold on the code -/

theorem DecodeEntities_examples :
    DecodeEntities (lit "&lt;") = (lit "<", none) ∧
    DecodeEntities (lit "&gt;") = (lit ">", none) ∧
    DecodeEntities (lit "&amp;") = (lit "&", none) ∧
    DecodeEntities (lit "&quot;") = (lit "\"", none) ∧
    DecodeEntities (lit "&apos;") = (lit "'", none) ∧
    DecodeEntities (lit "&#65;") = (lit "A", none) ∧
    DecodeEntities (lit "&#x41;") = (lit "A", none) ∧
    DecodeEntities (lit "&#x20AC;") = (lit "€", none) ∧
    DecodeEntities (lit "&#zz;") = ([], some Error.InvalidNumericReference) ∧
    DecodeEntities (lit "&foo;")
      = ([], some (Error.Errorf (lit "unknown predefined entity &foo;"))) ∧
    DecodeEntities (lit "a & b") = (lit "a & b", none) ∧
    DecodeEntities (lit "a &") = (lit "a &", none) := by
  decide

/-! ## `StripCDATA` on strings without a complete block -/

/-- C11 as stated fails: `"&foo;"` holds no start marker and
`DecodeEntities("&foo;")` fails, yet `StripCDATA("&foo;")` is the empty string
and not `"&foo;"`. -/
theorem C11_counterexample :
    ¬ CDATA_START <:+: lit "&foo;" ∧ (DecodeEntities (lit "&foo;")).2 ≠ none ∧
    StripCDATA (lit "&foo;") = [] ∧ StripCDATA (lit "&foo;") ≠ lit "&foo;" := by
  decide

/-- C11 (amended): for every string `s` without a start marker on which
`DecodeEntities(s)` fails, `StripCDATA(s)` is the empty string: the error is
dropped, and with it the whole segment. -/
theorem C11_failure_swallowed (s : Bytes) (hs : ¬ CDATA_START <:+: s)
    (hfail : (DecodeEntities s).2 ≠ none) : StripCDATA s = [] := by
  rw [StripCDATA_no_start s hs]
  rcases decodeLoop_result s.length s [] with h | h | ⟨name, h⟩
  · exact absurd h hfail
  · rw [DecodeEntities, h]
  · rw [DecodeEntities, h]

/-- C11 (amended) at the input `"a&foo;b"`. -/
theorem C11_failure_swallowed_witness : StripCDATA (lit "a&foo;b") = [] :=
  C11_failure_swallowed (lit "a&foo;b") (by decide) (by decide)

/-- C12: for every string `s` with no complete CDATA block (no start marker
at all, or a first start marker with no end marker at or after it) on which
`DecodeEntities(s)` succeeds, `StripCDATA(s)` is the string that
`DecodeEntities(s)` returns. -/
theorem C12_no_complete_block (s : Bytes)
    (hs : ¬ CDATA_START <:+: s ∨
      ∃ pre rest, s = pre ++ CDATA_START ++ rest ∧ ¬ CDATA_START <:+: pre ∧
        ¬ CDATA_END <:+: CDATA_START ++ rest)
    (_hok : (DecodeEntities s).2 = none) :
    StripCDATA s = (DecodeEntities s).1 := by
  rcases hs with hs | ⟨pre, rest, rfl, hpre, hend⟩
  · exact StripCDATA_no_start s hs
  · have h1 : indexAt (pre ++ CDATA_START ++ rest) CDATA_START 0 = some pre.length := by
      rw [indexAt, List.drop_zero, List.append_assoc, Index_START pre rest hpre]; rfl
    have h2 : indexAt (pre ++ CDATA_START ++ rest) CDATA_END pre.length = none := by
      rw [indexAt, List.append_assoc, List.drop_left, Index_none _ _ hend]; rfl
    have hlen : (pre ++ CDATA_START ++ rest).length
        = (pre.length + 8 + rest.length) + 1 := by
      simp only [List.length_append, CDATA_START_length]; omega
    rw [StripCDATA, hlen]
    simp only [stripLoop, h1, h2, List.nil_append, List.drop_zero]
    rw [if_pos (by omega)]

/-- C12 at the input `"a &lt; <![CDATA[b"`, an unterminated block. -/
theorem C12_no_complete_block_witness :
    StripCDATA (lit "a &lt; <![CDATA[b") = (DecodeEntities (lit "a &lt; <![CDATA[b")).1 :=
  C12_no_complete_block (lit "a &lt; <![CDATA[b")
    (Or.inr ⟨lit "a &lt; ", lit "b", by decide, by decide, by decide⟩) (by decide)

/-! ## Decoding twice -/

/-- C18: when `DecodeEntities(s)` succeeds with an output `t` that contains no
`&`, `DecodeEntities(t)` also succeeds and returns `t`, the result of decoding
`s`. -/
theorem C18_idempotent (s t : Bytes) (hs : DecodeEntities s = (t, none)) (ht : 38 ∉ t) :
    DecodeEntities t = (t, none) ∧ DecodeEntities t = DecodeEntities s := by
  have h : DecodeEntities t = (t, none) := by
    rw [DecodeEntities, decodeLoop_no_amp t [] ht]; rfl
  exact ⟨h, by rw [h, hs]⟩

/-- C18 at `s = "a &lt; b"`, whose decoded value is `"a < b"`. -/
theorem C18_idempotent_witness :
    DecodeEntities (lit "a < b") = (lit "a < b", none) ∧
    DecodeEntities (lit "a < b") = DecodeEntities (lit "a &lt; b") :=
  C18_idempotent (lit "a &lt; b") (lit "a < b") (by decide) (by decide)

theorem TrimSpace_examples :
    TrimSpace (lit " \t a b \r\n") = lit "a b" ∧
    TrimSpace (lit "") = lit "" ∧
    TrimSpace (lit " \n ") = lit "" ∧
    TrimSpace (lit "  é x 　 ") = lit "é x" ∧
    TrimSpace (lit " é\u0085") = lit "é" ∧
    TrimSpace (lit "a​ ") = lit "a​" ∧
    TrimSpace ([32, 0xFF, 32]) = [0xFF] ∧
    TrimSpace ([0xC2, 32]) = [0xC2] ∧
    TrimSpace ([32, 0xE3, 0x80, 0x80, 0x80]) = [0x80] := by
  decide

theorem ParseText_examples :
    ParseText (lit " a &amp; b ") none = (lit "a & b", none) ∧
    ParseText (lit "<![CDATA[raw&data]]>") none = (lit "raw&data", none) ∧
    ParseText (lit "x") (some (Error.Errorf (lit "EOF"))) = ([], some (Error.Errorf (lit "EOF"))) := by
  decide

/-! ## `ParseText` on one CDATA block between two texts -/

/-- The end marker cannot begin in a non-empty text `q` and run on into a
following start marker, unless it lies in `q` altogether. -/
theorem END_not_into_START (q t : Bytes) (hq : q ≠ [])
    (h : HasPrefix (q ++ CDATA_START ++ t) CDATA_END = true) : HasPrefix q CDATA_END = true := by
  rw [CDATA_START_eq] at h
  rw [CDATA_END_eq] at h ⊢
  match q, hq with
  | [_], _ => simp [HasPrefix] at h
  | [_, _], _ => simp [HasPrefix] at h
  | _ :: _ :: _ :: q, _ =>
    simp only [List.cons_append, HasPrefix] at h ⊢
    exact h

/-- In `pre ++ "<![CDATA[" ++ payload ++ "]]>" ++ post`, with no end marker
inside `pre` or `payload`, the first end marker is the one after `payload`. -/
theorem Index_END_block (pre payload post : Bytes)
    (hpre : ¬ CDATA_END <:+: pre) (hpay : ¬ CDATA_END <:+: payload) :
    Index (pre ++ (CDATA_START ++ (payload ++ (CDATA_END ++ post)))) CDATA_END
      = some (pre.length + 9 + payload.length) := by
  rw [Index_skip pre _ CDATA_END, Index_skip CDATA_START _ CDATA_END (START_no_END _),
    Index_END payload post hpay, CDATA_START_length]
  · simp only [Option.map_some']
    congr 1; omega
  · intro j hj
    by_contra hc
    rw [Bool.not_eq_false] at hc
    rw [List.drop_append_of_le_length (le_of_lt hj), ← List.append_assoc] at hc
    have hne : pre.drop j ≠ [] := by
      intro e
      have := congrArg List.length e
      simp at this
      omega
    exact hpre (occurs_of_HasPrefix_drop (END_not_into_START _ _ hne hc))

/-- What `ParseText` returns for one complete block between two texts: the
decoded text after the block comes twice, once from `StripCDATA` and once
from `poststring`. -/
theorem ParseText_one_block (innerXML pre payload post : Bytes)
    (htrim : TrimSpace innerXML = pre ++ CDATA_START ++ payload ++ CDATA_END ++ post)
    (hpre : ¬ CDATA_START <:+: pre) (hpre2 : ¬ CDATA_END <:+: pre)
    (hpay : ¬ CDATA_END <:+: payload) (hpost : ¬ CDATA_START <:+: post) :
    ParseText innerXML none
      = ((DecodeEntities pre).1 ++ payload ++ (DecodeEntities post).1
          ++ (DecodeEntities post).1, none) := by
  have e : pre ++ CDATA_START ++ payload ++ CDATA_END ++ post
      = pre ++ (CDATA_START ++ (payload ++ (CDATA_END ++ post))) := by simp
  have hstrip := StripCDATA_one_block pre payload post hpre hpay hpost
  rw [e] at hstrip htrim
  have h1 := Index_START pre (payload ++ (CDATA_END ++ post)) hpre
  have h2 := Index_END_block pre payload post hpre2 hpay
  have hd : List.drop (pre.length + 9 + payload.length + 3)
      (pre ++ (CDATA_START ++ (payload ++ (CDATA_END ++ post)))) = post := by
    have e2 : pre ++ (CDATA_START ++ (payload ++ (CDATA_END ++ post)))
        = (pre ++ (CDATA_START ++ (payload ++ CDATA_END))) ++ post := by simp
    have e3 : pre.length + 9 + payload.length + 3
        = (pre ++ (CDATA_START ++ (payload ++ CDATA_END))).length := by
      simp only [List.length_append, CDATA_START_length, CDATA_END_length]; omega
    rw [e2, e3, List.drop_left]
  have hi : ((((pre.length + 9 + payload.length : Nat) : Int) + 3).toNat)
      = pre.length + 9 + payload.length + 3 := by omega
  simp only [ParseText, htrim, Contains, h1, h2, Option.isSome_some, if_true, toInt,
    Int.toNat_ofNat, List.take_left, hstrip, hi, hd]
  simp

/-- C13 fails for a non-empty text after the block: for an element whose
inner markup is `"pre<![CDATA[raw&data]]>post"` (already trimmed, `"pre"` and
`"post"` without markers and decoding to themselves) `ParseText` returns
`"preraw&datapostpost"` with no error, not `"preraw&datapost"`: the text
after the block appears twice. -/
theorem C13_text_after_block_twice :
    TrimSpace (lit "pre<![CDATA[raw&data]]>post")
      = lit "pre" ++ CDATA_START ++ lit "raw&data" ++ CDATA_END ++ lit "post" ∧
    DecodeEntities (lit "pre") = (lit "pre", none) ∧
    DecodeEntities (lit "post") = (lit "post", none) ∧
    ParseText (lit "pre<![CDATA[raw&data]]>post") none
      = (lit "pre" ++ lit "raw&data" ++ lit "post" ++ lit "post", none) ∧
    ParseText (lit "pre<![CDATA[raw&data]]>post") none
      ≠ (lit "pre" ++ lit "raw&data" ++ lit "post", none) := by
  decide

theorem ParseNameAddress_examples :
    ParseNameAddress (lit "john@x.com (John Doe)") = (lit "John Doe", lit "john@x.com") ∧
    ParseNameAddress (lit "John Doe (john@x.com)") = (lit "John Doe", lit "john@x.com") ∧
    ParseNameAddress (lit "John Doe") = (lit "John Doe", lit "") ∧
    ParseNameAddress (lit "john@x.com") = (lit "", lit "john@x.com") ∧
    ParseNameAddress (lit "") = (lit "", lit "") ∧
    ParseNameAddress (lit "John  Doe  (a b@c d)") = (lit "John  Doe ", lit "a b@c d") ∧
    ParseNameAddress (lit "a@b  \t(x (y) z)") = (lit "x (y) z", lit "a@b") ∧
    ParseNameAddress (lit "john@ (John Doe)") = (lit "", lit "") ∧
    ParseNameAddress (lit "John Doe (john@)") = (lit "", lit "") ∧
    ParseNameAddress (lit "john@") = (lit "", lit "") ∧
    ParseNameAddress (lit "é@ü") = (lit "", lit "é@ü") ∧
    ParseNameAddress ([0xC3, 64, 0xFF, 0xA9]) = ([], [0xC3, 64, 0xFF, 0xA9]) ∧
    runes (lit "aé€") = [(97, [97]), (233, [0xC3, 0xA9]), (8364, [0xE2, 0x82, 0xAC])] ∧
    runes [0xC3, 64, 0xFF] = [(0xFFFD, [0xC3]), (64, [64]), (0xFFFD, [0xFF])] := by
  decide

/-! ## Runes and their bytes -/

theorem val2 (a b : Nat) (hb : b < 64) : a <<< 6 ||| b = 64 * a + b := by
  rw [Nat.shiftLeft_eq, Nat.mul_comm]
  exact (Nat.mul_add_lt_is_or (i := 6) hb a).symm

theorem val3 (a b c : Nat) (hb : b < 64) (hc : c < 64) :
    a <<< 12 ||| b <<< 6 ||| c = 4096 * a + 64 * b + c := by
  have h1 : a <<< 12 ||| b <<< 6 = 4096 * a + 64 * b := by
    rw [Nat.shiftLeft_eq, Nat.shiftLeft_eq, Nat.mul_comm a, Nat.mul_comm b]
    exact (Nat.mul_add_lt_is_or (i := 12) (by omega) a).symm
  have h2 : 4096 * a + 64 * b = 2 ^ 6 * (64 * a + b) := by omega
  rw [h1, h2, ← Nat.mul_add_lt_is_or (i := 6) hc]

theorem val4 (a b c d : Nat) (hb : b < 64) (hc : c < 64) (hd : d < 64) :
    a <<< 18 ||| b <<< 12 ||| c <<< 6 ||| d = 262144 * a + 4096 * b + 64 * c + d := by
  have h1 : a <<< 18 ||| b <<< 12 = 262144 * a + 4096 * b := by
    rw [Nat.shiftLeft_eq, Nat.shiftLeft_eq, Nat.mul_comm a, Nat.mul_comm b]
    exact (Nat.mul_add_lt_is_or (i := 18) (by omega) a).symm
  have h2 : 262144 * a + 4096 * b = 2 ^ 12 * (64 * a + b) := by omega
  have h3 : (262144 * a + 4096 * b) ||| c <<< 6 = 262144 * a + 4096 * b + 64 * c := by
    rw [h2, Nat.shiftLeft_eq, Nat.mul_comm c]
    exact (Nat.mul_add_lt_is_or (i := 12) (by omega) _).symm
  have h4 : 262144 * a + 4096 * b + 64 * c = 2 ^ 6 * (4096 * a + 64 * b + c) := by omega
  rw [h1, h3, h4, ← Nat.mul_add_lt_is_or (i := 6) hd]

set_option maxRecDepth 100000 in
theorem firstSpec_all (s0 : UInt8) : FirstSpec s0 := by
  apply forall_byte (P := FirstSpec)
  decide

set_option maxRecDepth 100000 in
theorem contSpec_all (s1 : UInt8) : ContSpec s1 := by
  apply forall_byte (P := ContSpec)
  decide

theorem UInt8_lt_iff (a b : UInt8) : a < b ↔ a.toNat < b.toNat := Iff.rfl

theorem UInt8_le_iff (a b : UInt8) : a ≤ b ↔ a.toNat ≤ b.toNat := Iff.rfl

theorem mem_take_getD (l : Bytes) (n : Nat) (b : UInt8) (hb : b ∈ l.take n) :
    ∃ i, i < n ∧ l.getD i 0 = b := by
  induction l generalizing n with
  | nil => simp at hb
  | cons a l ih =>
    cases n with
    | zero => simp at hb
    | succ n =>
      rw [List.take_succ_cons, List.mem_cons] at hb
      rcases hb with rfl | hb
      · exact ⟨0, by omega, rfl⟩
      · obtain ⟨i, hi, hg⟩ := ih n hb
        exact ⟨i + 1, by omega, by simpa using hg⟩

theorem UInt8_toNat_lits :
    (0x80 : UInt8).toNat = 128 ∧ (0xA0 : UInt8).toNat = 160 ∧ (0x90 : UInt8).toNat = 144 ∧
    (0xBF : UInt8).toNat = 191 ∧ (0xF0 : UInt8).toNat = 240 := by
  decide

/-- Decoding at a first byte from `0x80` on gives a rune from `0x80` on and
consumes one to four bytes, all from `0x80` on. -/
theorem DecodeRune_high (s0 : UInt8) (t : Bytes) (h : ¬ s0 < 0x80) :
    (DecodeRuneInString (s0 :: t)).1 ≥ 0x80 ∧ 1 ≤ (DecodeRuneInString (s0 :: t)).2 ∧
    ∀ b ∈ (s0 :: t).take (DecodeRuneInString (s0 :: t)).2, ¬ b < 0x80 := by
  have hone : ∀ b ∈ List.take 1 (s0 :: t), ¬ b < 0x80 := by
    intro b hb
    simp only [List.take_succ_cons, List.take_zero, List.mem_singleton] at hb
    rw [hb]; exact h
  have herr : (RuneError : Int) ≥ 0x80 := by unfold RuneError; norm_num
  have h0 : (s0 :: t).getD 0 0 = s0 := rfl
  obtain ⟨e128, e160, e144, e191, e240⟩ := UInt8_toNat_lits
  rcases firstSpec_all s0 with hlt | ⟨hodd, hmulti⟩
  · exact absurd hlt h
  obtain ⟨c1, hc1a, hc1b⟩ := contSpec_all ((s0 :: t).getD 1 0)
  obtain ⟨c2, _, _⟩ := contSpec_all ((s0 :: t).getD 2 0)
  obtain ⟨c3, _, _⟩ := contSpec_all ((s0 :: t).getD 3 0)
  have hmem : ∀ n, n ≤ 4 → (∀ i, i < n → ¬ (s0 :: t).getD i 0 < 0x80) →
      ∀ b ∈ (s0 :: t).take n, ¬ b < 0x80 := by
    intro n _ hall b hb
    obtain ⟨i, hi, rfl⟩ := mem_take_getD _ _ _ hb
    exact hall i hi
  unfold DecodeRuneInString
  simp only
  generalize hs1e : (s0 :: t).getD 1 0 = s1 at *
  generalize hs2e : (s0 :: t).getD 2 0 = s2 at *
  generalize hs3e : (s0 :: t).getD 3 0 = s3 at *
  simp only [UInt8_lt_iff, UInt8_le_iff, ge_iff_le, gt_iff_lt, e128, e160, e144, e191, e240]
    at h hodd hmulti hc1a hc1b hmem ⊢
  split
  · next hx =>
    have : (first s0).toNat % 2 = 1 := by
      rcases hodd with h1 | h1
      · omega
      · exact h1
    simp only [this, if_true]
    exact ⟨herr, le_refl _, hone⟩
  · next hx =>
    rcases hmulti with h1 | ⟨hsz2, hsz4, hacc, hacc2, hA2, hA3, hA4⟩
    · omega
    split
    · exact ⟨herr, le_refl _, hone⟩
    · split
      · exact ⟨herr, le_refl _, hone⟩
      · next hs1 =>
        rw [not_or] at hs1
        obtain ⟨hs1lo, hs1hi⟩ := hs1
        have hs1' : ¬ s1.toNat < 128 := by omega
        split
        · refine ⟨?_, by norm_num, hmem 2 (by omega) ?_⟩
          · show ((((s0 &&& 0x1F).toNat <<< 6 ||| (s1 &&& 0x3F).toNat : Nat) : Int)) ≥ 0x80
            rw [val2 _ _ c1]
            have := hA2.resolve_left (by omega)
            omega
          · intro i hi
            interval_cases i
            · exact h
            · rw [hs1e]; exact hs1'
        · split
          · exact ⟨herr, le_refl _, hone⟩
          · next hs2 =>
            rw [not_or] at hs2
            split
            · refine ⟨?_, by norm_num, hmem 3 (by omega) ?_⟩
              · show ((((s0 &&& 0x0F).toNat <<< 12 ||| (s1 &&& 0x3F).toNat <<< 6
                  ||| (s2 &&& 0x3F).toNat : Nat) : Int)) ≥ 0x80
                rw [val3 _ _ _ c1 c2]
                rcases hA3.resolve_left (by omega) with hA | hA
                · omega
                · rcases hc1a.resolve_left (by omega) with hB | hB
                  · omega
                  · omega
              · intro i hi
                interval_cases i
                · exact h
                · rw [hs1e]; exact hs1'
                · rw [hs2e]; exact hs2.1
            · split
              · exact ⟨herr, le_refl _, hone⟩
              · next hs3 =>
                rw [not_or] at hs3
                refine ⟨?_, by norm_num, hmem 4 (by omega) ?_⟩
                · show ((((s0 &&& 0x07).toNat <<< 18 ||| (s1 &&& 0x3F).toNat <<< 12
                    ||| (s2 &&& 0x3F).toNat <<< 6 ||| (s3 &&& 0x3F).toNat : Nat) : Int)) ≥ 0x80
                  rw [val4 _ _ _ _ c1 c2 c3]
                  rcases hA4.resolve_left (by omega) with hA | hA
                  · omega
                  · rcases hc1b.resolve_left (by omega) with hB | hB
                    · omega
                    · omega
                · intro i hi
                  interval_cases i
                  · exact h
                  · rw [hs1e]; exact hs1'
                  · rw [hs2e]; exact hs2.1
                  · rw [hs3e]; exact hs3.1

/-! ## Matching regular expressions -/

theorem matchPlus_nil (p : UInt8 → Bool) (k : Bytes → Option (List Bytes)) :
    matchPlus p k [] = none := rfl

theorem matchPlus_cons (p : UInt8 → Bool) (k : Bytes → Option (List Bytes))
    (c : UInt8) (cs : Bytes) :
    matchPlus p k (c :: cs) =
      if p c = true then
        match matchPlus p k cs with
        | some (seg, segs) => some (c :: seg, segs)
        | none => (k cs).map (fun segs => ([c], segs))
      else none := rfl

theorem matchPlus_head_not (p : UInt8 → Bool) (k : Bytes → Option (List Bytes))
    (c : UInt8) (cs : Bytes) (h : p c = false) : matchPlus p k (c :: cs) = none := by
  simp [matchPlus, h]

/-- A greedy `class+` that cannot go on into `rest`, and after which the rest
of the expression fails at every shorter length, matches exactly `run`. -/
theorem matchPlus_run (p : UInt8 → Bool) (k : Bytes → Option (List Bytes))
    (run rest : Bytes) (hne : run ≠ []) (hp : ∀ c ∈ run, p c = true)
    (hrest : matchPlus p k rest = none)
    (hmid : ∀ j, 0 < j → j < run.length → k (run.drop j ++ rest) = none) :
    matchPlus p k (run ++ rest) = (k rest).map (fun segs => (run, segs)) := by
  induction run with
  | nil => exact absurd rfl hne
  | cons c r ih =>
    have hc : p c = true := hp c (List.mem_cons_self _ _)
    cases r with
    | nil =>
      rw [List.cons_append, List.nil_append, matchPlus_cons, if_pos hc, hrest]
    | cons c2 r2 =>
      have ih' := ih (by simp) (fun x hx => hp x (List.mem_cons_of_mem _ hx))
        (fun j h0 hj => by
          have := hmid (j + 1) (by omega) (by simp at hj ⊢; omega)
          simpa using this)
      have h1 := hmid 1 (by omega) (by simp)
      simp only [List.drop_one, List.tail_cons] at h1
      rw [List.cons_append, matchPlus_cons, if_pos hc, ih']
      cases hk : k rest with
      | none => simp only [Option.map_none']; rw [h1]; rfl
      | some segs => rfl

/-- The usual case: the rest of the expression cannot start with a character
of the class, so the run is the longest one. -/
theorem matchPlus_maximal (p : UInt8 → Bool) (k : Bytes → Option (List Bytes))
    (run rest : Bytes) (hne : run ≠ []) (hp : ∀ c ∈ run, p c = true)
    (hrest : rest = [] ∨ ∃ c cs, rest = c :: cs ∧ p c = false)
    (hk : ∀ c cs, p c = true → k (c :: cs) = none) :
    matchPlus p k (run ++ rest) = (k rest).map (fun segs => (run, segs)) := by
  apply matchPlus_run p k run rest hne hp
  · rcases hrest with rfl | ⟨c, cs, rfl, hc⟩
    · rfl
    · exact matchPlus_head_not p k c cs hc
  · intro j h0 hj
    have hd : run.drop j ≠ [] := by
      intro e
      have := congrArg List.length e
      simp at this
      omega
    obtain ⟨c, cs, hcs⟩ := List.exists_cons_of_ne_nil hd
    have hmem : c ∈ run := List.mem_of_mem_drop (by rw [hcs]; exact List.mem_cons_self _ _)
    rw [hcs]
    exact hk c (cs ++ rest) (hp c hmem)

theorem matchPlus_sound (p : UInt8 → Bool) (k : Bytes → Option (List Bytes))
    (s seg : Bytes) (segs : List Bytes) (h : matchPlus p k s = some (seg, segs)) :
    seg ≠ [] ∧ (∀ x ∈ seg, p x = true) ∧ ∃ rest, s = seg ++ rest ∧ k rest = some segs := by
  induction s generalizing seg with
  | nil => simp [matchPlus] at h
  | cons c cs ih =>
    simp only [matchPlus] at h
    split at h
    · next hc =>
      cases hm : matchPlus p k cs with
      | some r =>
        obtain ⟨seg', segs'⟩ := r
        rw [hm] at h
        simp only [Option.some.injEq, Prod.mk.injEq] at h
        obtain ⟨rfl, rfl⟩ := h
        obtain ⟨_, h2, rest, h3, h4⟩ := ih seg' hm
        refine ⟨by simp, ?_, rest, by rw [h3]; rfl, h4⟩
        intro x hx
        rcases List.mem_cons.mp hx with rfl | hx
        · exact hc
        · exact h2 x hx
      | none =>
        rw [hm] at h
        simp only [Option.map_eq_some', Prod.mk.injEq] at h
        obtain ⟨segs', hk, rfl, rfl⟩ := h
        refine ⟨by simp, ?_, cs, rfl, hk⟩
        intro x hx
        rw [List.mem_singleton] at hx
        rw [hx]; exact hc
    · cases h

/-- A match splits the text into one segment for each item. -/
theorem matchAtoms_sound (atoms : List Atom) (s : Bytes) (segs : List Bytes)
    (h : matchAtoms atoms s = some segs) :
    List.Forall₂ SegOK atoms segs ∧ segs.flatten = s := by
  induction atoms generalizing s segs with
  | nil =>
    simp only [matchAtoms] at h
    split at h
    · next hs => cases h; subst hs; exact ⟨List.Forall₂.nil, rfl⟩
    · cases h
  | cons a atoms ih =>
    cases a with
    | char c =>
      cases s with
      | nil => simp [matchAtoms] at h
      | cons c2 cs =>
        simp only [matchAtoms] at h
        split at h
        · next hc =>
          simp only [Option.map_eq_some'] at h
          obtain ⟨segs', hm, rfl⟩ := h
          obtain ⟨h1, h2⟩ := ih cs segs' hm
          exact ⟨List.Forall₂.cons rfl h1, by simp [h2, hc]⟩
        · cases h
    | plus negated set =>
      simp only [matchAtoms, Option.map_eq_some'] at h
      obtain ⟨⟨seg, segs'⟩, hm, rfl⟩ := h
      obtain ⟨h1, h2, rest, h3, h4⟩ := matchPlus_sound _ _ s seg segs' hm
      obtain ⟨g1, g2⟩ := ih rest segs' h4
      exact ⟨List.Forall₂.cons ⟨h1, h2⟩ g1, by simp [g2, h3]⟩

/-! ## Matching texts of a known form -/

theorem matchAtoms_nil : matchAtoms [] [] = some [] := rfl

theorem matchAtoms_char_nil (c : UInt8) (atoms : List Atom) :
    matchAtoms (Atom.char c :: atoms) [] = none := rfl

theorem matchAtoms_char_cons (c : UInt8) (atoms : List Atom) (cs : Bytes) :
    matchAtoms (Atom.char c :: atoms) (c :: cs)
      = (matchAtoms atoms cs).map (fun segs => [c] :: segs) := by
  simp [matchAtoms]

theorem matchAtoms_char_ne (c c2 : UInt8) (atoms : List Atom) (cs : Bytes) (h : c2 ≠ c) :
    matchAtoms (Atom.char c :: atoms) (c2 :: cs) = none := by
  simp [matchAtoms, h]

theorem matchAtoms_plus_nil (negated : Bool) (set : List UInt8) (atoms : List Atom) :
    matchAtoms (Atom.plus negated set :: atoms) [] = none := rfl

theorem matchAtoms_plus_head_not (negated : Bool) (set : List UInt8) (atoms : List Atom)
    (c : UInt8) (cs : Bytes) (h : inClass negated set c = false) :
    matchAtoms (Atom.plus negated set :: atoms) (c :: cs) = none := by
  simp [matchAtoms, matchPlus_head_not _ _ c cs h]

/-- The greedy `class+` takes the longest run when the rest of the expression
cannot start with a character of the class. -/
theorem matchAtoms_plus_maximal (negated : Bool) (set : List UInt8) (atoms : List Atom)
    (run rest : Bytes) (hne : run ≠ []) (hp : ∀ c ∈ run, inClass negated set c = true)
    (hrest : rest = [] ∨ ∃ c cs, rest = c :: cs ∧ inClass negated set c = false)
    (hk : ∀ c cs, inClass negated set c = true → matchAtoms atoms (c :: cs) = none) :
    matchAtoms (Atom.plus negated set :: atoms) (run ++ rest)
      = (matchAtoms atoms rest).map (fun segs => run :: segs) := by
  rw [matchAtoms, matchPlus_maximal _ _ run rest hne hp hrest hk]
  cases matchAtoms atoms rest <;> rfl

/-- No length of the greedy `class+` succeeds on `u ++ v` when the class stops
at `v` and the rest of the expression fails after every non-empty part of
`u`. -/
theorem matchPlus_stuck (p : UInt8 → Bool) (k : Bytes → Option (List Bytes)) (u v : Bytes)
    (hv : v = [] ∨ ∃ c cs, v = c :: cs ∧ p c = false)
    (hk : ∀ j, j < u.length → k (u.drop (j + 1) ++ v) = none) :
    matchPlus p k (u ++ v) = none := by
  induction u with
  | nil =>
    rcases hv with rfl | ⟨c, cs, rfl, hc⟩
    · rfl
    · exact matchPlus_head_not p k c cs hc
  | cons c u ih =>
    have ih' := ih (fun j hj => by
      have := hk (j + 1) (by simp; omega)
      simpa using this)
    have h0 := hk 0 (by simp)
    simp only [Nat.zero_add, List.drop_one, List.tail_cons] at h0
    rw [List.cons_append, matchPlus_cons, ih', h0]
    split <;> rfl

/-- The greedy `class+` stops after `run` when no longer run leads to a match
and the rest of the expression matches after `run`. -/
theorem matchAtoms_plus_first (negated : Bool) (set : List UInt8) (atoms : List Atom)
    (run rest : Bytes) (segs : List Bytes) (hne : run ≠ [])
    (hp : ∀ c ∈ run, inClass negated set c = true)
    (hrest : matchPlus (inClass negated set) (matchAtoms atoms) rest = none)
    (hk : matchAtoms atoms rest = some segs) :
    matchAtoms (Atom.plus negated set :: atoms) (run ++ rest) = some (run :: segs) := by
  have : matchPlus (inClass negated set) (matchAtoms atoms) (run ++ rest) = some (run, segs) := by
    induction run with
    | nil => exact absurd rfl hne
    | cons c r ih =>
      have hc := hp c (List.mem_cons_self _ _)
      cases r with
      | nil => rw [List.cons_append, List.nil_append, matchPlus_cons, if_pos hc, hrest, hk]; rfl
      | cons c2 r2 =>
        have ih' := ih (by simp) (fun x hx => hp x (List.mem_cons_of_mem _ hx))
        rw [List.cons_append, matchPlus_cons, if_pos hc, ih']
  rw [matchAtoms, this]; rfl

/-- The matcher steps over an ASCII byte by itself, or over a rune from
`0x80` on whose bytes are all from `0x80` on; it always moves on. -/
theorem step_uniform (s : Bytes) (hs : s ≠ []) :
    UniformChunk ((step s).1, s.take (step s).2) ∧ 1 ≤ (step s).2 := by
  cases s with
  | nil => exact absurd rfl hs
  | cons c t =>
    by_cases hc : c < 0x80
    · simp only [step, hc, if_true, List.take_succ_cons, List.take_zero]
      exact ⟨Or.inl ⟨c, hc, rfl⟩, le_refl _⟩
    · simp only [step, hc, if_false]
      obtain ⟨h1, h2, h3⟩ := DecodeRune_high c t hc
      refine ⟨Or.inr ⟨h1, ?_, h3⟩, h2⟩
      intro e
      have := congrArg List.length e
      simp at this
      omega

/-- The runes of a text are uniform and their bytes make up the text. -/
theorem runesFrom_spec (n : Nat) (s : Bytes) (h : s.length ≤ n) :
    (∀ c ∈ runesFrom n s, UniformChunk c) ∧ flat (runesFrom n s) = s := by
  induction n generalizing s with
  | zero =>
    have : s = [] := List.length_eq_zero.mp (Nat.le_zero.mp h)
    subst this
    exact ⟨fun c hc => absurd hc (List.not_mem_nil c), rfl⟩
  | succ n ih =>
    by_cases hs : s = []
    · subst hs
      exact ⟨fun c hc => absurd hc (List.not_mem_nil c), rfl⟩
    · obtain ⟨hu, h1⟩ := step_uniform s hs
      have hl : (s.drop (step s).2).length ≤ n := by
        rw [List.length_drop]; omega
      obtain ⟨g1, g2⟩ := ih _ hl
      simp only [runesFrom, hs, if_false]
      refine ⟨?_, ?_⟩
      · intro c hc
        rcases List.mem_cons.mp hc with rfl | hc
        · exact hu
        · exact g1 c hc
      · simp only [flat, List.map_cons, List.flatten_cons] at g2 ⊢
        rw [g2, List.take_append_drop]

theorem runes_spec (s : Bytes) : (∀ c ∈ runes s, UniformChunk c) ∧ flat (runes s) = s :=
  runesFrom_spec s.length s (le_refl _)

/-! ## Matching rune by rune and matching byte by byte -/

theorem set_ascii {set : List UInt8} (h : set.all (fun c => decide (c < 0x80)) = true) :
    ∀ c ∈ set, c < 0x80 := by
  intro c hc
  have := List.all_eq_true.mp h c hc
  simpa using this

theorem inClassR_ascii (negated : Bool) (set : List UInt8) (b : UInt8) :
    inClassR negated set (b.toNat : Int) = inClass negated set b := by
  have hiff : ((b.toNat : Int) ∈ set.map (fun c => (c.toNat : Int))) ↔ b ∈ set := by
    constructor
    · intro h
      obtain ⟨a, ha, he⟩ := List.mem_map.mp h
      have : a = b := UInt8.toNat.inj (by exact_mod_cast he)
      exact this ▸ ha
    · intro h
      exact List.mem_map.mpr ⟨b, h, rfl⟩
  cases negated <;> simp [inClassR, inClass, hiff]

theorem inClassR_high (negated : Bool) (set : List UInt8) (r : Int)
    (hset : ∀ c ∈ set, c < 0x80) (hr : r ≥ 0x80) : inClassR negated set r = negated := by
  have hno : r ∉ set.map (fun c => (c.toNat : Int)) := by
    intro h
    obtain ⟨a, ha, he⟩ := List.mem_map.mp h
    have := (UInt8_lt_iff _ _).mp (hset a ha)
    have e128 : (0x80 : UInt8).toNat = 128 := rfl
    omega
  cases negated <;> simp [inClassR, hno]

theorem inClass_high (negated : Bool) (set : List UInt8) (b : UInt8)
    (hset : ∀ c ∈ set, c < 0x80) (hb : ¬ b < 0x80) : inClass negated set b = negated := by
  have hno : b ∉ set := fun h => hb (hset b h)
  cases negated <;> simp [inClass, hno]

/-- An expression that starts plainly does not match a text that starts with
a byte from `0x80` on. -/
theorem matchAtoms_high (atoms : List Atom) (hp : startsPlain atoms = true)
    (hwf : WellFormed atoms = true) (b : UInt8) (bs : Bytes) (hb : ¬ b < 0x80) :
    matchAtoms atoms (b :: bs) = none := by
  cases atoms with
  | nil => simp [matchAtoms]
  | cons a atoms =>
    cases a with
    | char c =>
      simp only [WellFormed, Bool.and_eq_true, decide_eq_true_eq] at hwf
      exact matchAtoms_char_ne c b atoms bs (fun e => hb (e ▸ hwf.1))
    | plus negated set =>
      simp only [WellFormed, Bool.and_eq_true] at hwf
      simp only [startsPlain, Bool.not_eq_true'] at hp
      subst hp
      exact matchAtoms_plus_head_not false set atoms b bs
        (inClass_high false set b (set_ascii hwf.1.1) hb)

/-- The greedy `class+` on the bytes `bs` of one rune, all in the class, when
the rest of the expression cannot start inside the rune. -/
theorem matchPlus_chunk (p : UInt8 → Bool) (k : Bytes → Option (List Bytes))
    (bs rest : Bytes) (hne : bs ≠ []) (hp : ∀ b ∈ bs, p b = true)
    (hmid : ∀ j, 0 < j → j < bs.length → k (bs.drop j ++ rest) = none) :
    matchPlus p k (bs ++ rest) =
      match matchPlus p k rest with
      | some (seg, segs) => some (bs ++ seg, segs)
      | none => (k rest).map (fun segs => (bs, segs)) := by
  induction bs with
  | nil => exact absurd rfl hne
  | cons c r ih =>
    have hc : p c = true := hp c (List.mem_cons_self _ _)
    cases r with
    | nil =>
      rw [List.cons_append, List.nil_append, matchPlus_cons, if_pos hc]
      rfl
    | cons c2 r2 =>
      have ih' := ih (by simp) (fun x hx => hp x (List.mem_cons_of_mem _ hx))
        (fun j h0 hj => by
          have := hmid (j + 1) (by omega) (by simp at hj ⊢; omega)
          simpa using this)
      have h1 := hmid 1 (by omega) (by simp)
      simp only [List.drop_one, List.tail_cons] at h1
      rw [List.cons_append, matchPlus_cons, if_pos hc, ih']
      cases hm : matchPlus p k rest with
      | some r =>
        obtain ⟨seg, segs⟩ := r
        rfl
      | none =>
        simp only
        cases hk : k rest with
        | none => simp only [Option.map_none']; rw [h1]; rfl
        | some segs => rfl

theorem flat_cons (c : Int × Bytes) (cs : List (Int × Bytes)) :
    flat (c :: cs) = c.2 ++ flat cs := rfl

theorem matchPlusR_cons (p : Int → Bool) (k : List (Int × Bytes) → Option (List Bytes))
    (c : Int × Bytes) (cs : List (Int × Bytes)) :
    matchPlusR p k (c :: cs) =
      if p c.1 = true then
        match matchPlusR p k cs with
        | some (seg, segs) => some (c.2 ++ seg, segs)
        | none => (k cs).map (fun segs => (c.2, segs))
      else none := rfl

/-- The greedy `class+` gives the same on the runes as on their bytes, when
the rest of the expression does, and cannot start inside a rune if the class
is negated. -/
theorem matchPlusR_eq (negated : Bool) (set : List UInt8) (hset : ∀ c ∈ set, c < 0x80)
    (kR : List (Int × Bytes) → Option (List Bytes)) (k : Bytes → Option (List Bytes))
    (hk : ∀ cs, (∀ c ∈ cs, UniformChunk c) → kR cs = k (flat cs))
    (hhigh : negated = true → ∀ b bs, ¬ b < 0x80 → k (b :: bs) = none)
    (cs : List (Int × Bytes)) (hu : ∀ c ∈ cs, UniformChunk c) :
    matchPlusR (inClassR negated set) kR cs = matchPlus (inClass negated set) k (flat cs) := by
  induction cs with
  | nil => rfl
  | cons c cs ih =>
    have ih' := ih (fun x hx => hu x (List.mem_cons_of_mem _ hx))
    have hk' := hk cs (fun x hx => hu x (List.mem_cons_of_mem _ hx))
    rw [matchPlusR_cons, flat_cons, ih', hk']
    rcases hu c (List.mem_cons_self _ _) with ⟨b, hb, rfl⟩ | ⟨hr, hne, hbs⟩
    · simp only [List.singleton_append]
      rw [matchPlus_cons, inClassR_ascii]
    · rw [inClassR_high negated set c.1 hset hr]
      cases negated with
      | false =>
        obtain ⟨b, bs, hbb⟩ := List.exists_cons_of_ne_nil hne
        rw [hbb, List.cons_append,
          matchPlus_head_not _ _ b _ (inClass_high false set b hset
            (hbs b (by rw [hbb]; exact List.mem_cons_self _ _)))]
        simp
      | true =>
        rw [matchPlus_chunk _ _ c.2 (flat cs) hne
          (fun b hb => inClass_high true set b hset (hbs b hb))
          (fun j h0 hj => by
            have hd : c.2.drop j ≠ [] := by
              intro e
              have := congrArg List.length e
              simp at this
              omega
            obtain ⟨b, bs, hbb⟩ := List.exists_cons_of_ne_nil hd
            have hmem : b ∈ c.2 :=
              List.mem_of_mem_drop (by rw [hbb]; exact List.mem_cons_self _ _)
            rw [hbb, List.cons_append]
            exact hhigh rfl b _ (hbs b hmem))]
        simp

/-- Matching rune by rune gives the same as matching byte by byte, for a
well-formed expression. -/
theorem matchAtomsR_eq (atoms : List Atom) (hwf : WellFormed atoms = true)
    (cs : List (Int × Bytes)) (hu : ∀ c ∈ cs, UniformChunk c) :
    matchAtomsR atoms cs = matchAtoms atoms (flat cs) := by
  induction atoms generalizing cs with
  | nil =>
    cases cs with
    | nil => rfl
    | cons c cs =>
      have hne : flat (c :: cs) ≠ [] := by
        rw [flat_cons]
        rcases hu c (List.mem_cons_self _ _) with ⟨b, _, rfl⟩ | ⟨_, hne, _⟩
        · simp
        · simp [hne]
      simp [matchAtomsR, matchAtoms, hne]
  | cons a atoms ih =>
    cases a with
    | char ch =>
      simp only [WellFormed, Bool.and_eq_true, decide_eq_true_eq] at hwf
      cases cs with
      | nil => rfl
      | cons c cs =>
        have ih' := ih hwf.2 cs (fun x hx => hu x (List.mem_cons_of_mem _ hx))
        rw [flat_cons]
        rcases hu c (List.mem_cons_self _ _) with ⟨b, hb, rfl⟩ | ⟨hr, hne, hbs⟩
        · by_cases hbc : b = ch
          · subst hbc
            simp [matchAtomsR, matchAtoms, ih']
          · have hne2 : ¬ (b.toNat : Int) = (ch.toNat : Int) := by
              intro e
              exact hbc (UInt8.toNat.inj (by exact_mod_cast e))
            simp [matchAtomsR, matchAtoms, hbc, hne2]
        · obtain ⟨b, bs, hbb⟩ := List.exists_cons_of_ne_nil hne
          have hb : ¬ b < 0x80 := hbs b (by rw [hbb]; exact List.mem_cons_self _ _)
          have hne1 : ¬ c.1 = (ch.toNat : Int) := by
            have := (UInt8_lt_iff _ _).mp hwf.1
            have e128 : (0x80 : UInt8).toNat = 128 := rfl
            omega
          have hne2 : b ≠ ch := fun e => hb (e ▸ hwf.1)
          rw [hbb, List.cons_append, matchAtoms_char_ne ch b atoms _ hne2]
          simp [matchAtomsR, hne1]
    | plus negated set =>
      simp only [WellFormed, Bool.and_eq_true, Bool.or_eq_true, Bool.not_eq_true'] at hwf
      obtain ⟨⟨hset, hplain⟩, hwf'⟩ := hwf
      have := matchPlusR_eq negated set (set_ascii hset) (matchAtomsR atoms) (matchAtoms atoms)
        (fun cs' hu' => ih hwf' cs' hu')
        (fun hneg b bs hb => matchAtoms_high atoms (by
          rcases hplain with h | h
          · rw [hneg] at h; cases h
          · exact h) hwf' b bs hb)
        cs hu
      simp only [matchAtomsR, matchAtoms, this]

/-- For a well-formed expression the rune matcher on the runes of a text
gives what the byte matcher gives on the text. -/
theorem matchAtomsR_runes (atoms : List Atom) (hwf : WellFormed atoms = true) (s : Bytes) :
    matchAtomsR atoms (runes s) = matchAtoms atoms s := by
  obtain ⟨h1, h2⟩ := runes_spec s
  rw [matchAtomsR_eq atoms hwf _ h1, h2]

/-! ## The shape of the texts the four expressions match -/

theorem inClass_neg (set : List UInt8) (x : UInt8) : inClass true set x = true ↔ x ∉ set := by
  simp [inClass]

theorem inClass_pos (set : List UInt8) (x : UInt8) : inClass false set x = true ↔ x ∈ set := by
  simp [inClass]

theorem MatchString_iff (re : Regexp) (hwf : WellFormed re.atoms = true) (s : Bytes) :
    MatchString re s = true ↔ ∃ segs, matchAtoms re.atoms s = some segs := by
  unfold MatchString FindStringSubmatch
  rw [matchAtomsR_runes _ hwf]
  cases matchAtoms re.atoms s <;> simp

theorem submatch_of_match (re : Regexp) (hwf : WellFormed re.atoms = true) (s : Bytes)
    (segs : List Bytes) (i : Nat) (h : matchAtoms re.atoms s = some segs) :
    submatch re s i
      = (s :: re.groups.map (fun g => ((segs.drop g.1).take g.2).flatten)).getD i [] := by
  simp [submatch, FindStringSubmatch, matchAtomsR_runes _ hwf, h]

/-- A text that `emailNameRgx` matches is `a@b`, spaces, `(n)`, with `a` and
`n` non-empty without `@` and `b` non-empty without spaces; group 1 is `a@b`
and group 2 is `n`. -/
theorem emailName_shape (s : Bytes) (h : MatchString emailNameRgx s = true) :
    ∃ a b w n, a ≠ [] ∧ 64 ∉ a ∧ b ≠ [] ∧ (∀ x ∈ b, x ∉ perlSpace) ∧
      w ≠ [] ∧ (∀ x ∈ w, x ∈ perlSpace) ∧ n ≠ [] ∧ 64 ∉ n ∧
      s = a ++ 64 :: (b ++ (w ++ 40 :: (n ++ [41]))) ∧
      submatch emailNameRgx s 1 = a ++ 64 :: b ∧ submatch emailNameRgx s 2 = n := by
  obtain ⟨segs, hm⟩ := (MatchString_iff _ (by decide) _).mp h
  have hsub1 := submatch_of_match emailNameRgx (by decide) s segs 1 hm
  have hsub2 := submatch_of_match emailNameRgx (by decide) s segs 2 hm
  obtain ⟨hf, hs⟩ := matchAtoms_sound _ _ _ hm
  simp only [emailNameRgx, List.forall₂_cons_left_iff, List.forall₂_nil_left_iff, SegOK,
    inClass_neg, inClass_pos] at hf
  obtain ⟨a, _, ⟨ha1, ha2⟩, ⟨_, _, rfl, ⟨b, _, ⟨hb1, hb2⟩, ⟨w, _, ⟨hw1, hw2⟩,
    ⟨_, _, rfl, ⟨n, _, ⟨hn1, hn2⟩, ⟨_, _, rfl, rfl, rfl⟩, rfl⟩, rfl⟩, rfl⟩, rfl⟩, rfl⟩, rfl⟩ := hf
  refine ⟨a, b, w, n, ha1, ?_, hb1, hb2, hw1, hw2, hn1, ?_, ?_, ?_, ?_⟩
  · intro hx; exact ha2 64 hx (List.mem_singleton.mpr rfl)
  · intro hx; exact hn2 64 hx (List.mem_singleton.mpr rfl)
  · rw [← hs]; simp
  · rw [hsub1]; simp [emailNameRgx]
  · rw [hsub2]; simp [emailNameRgx]

/-- A text that `nameEmailRgx` matches is `n`, spaces, `(a@b)`, with `n` and
`a` non-empty without `@` and `b` non-empty without `)`; group 1 is `n` and
group 2 is `a@b`. -/
theorem nameEmail_shape (s : Bytes) (h : MatchString nameEmailRgx s = true) :
    ∃ n w a b, n ≠ [] ∧ 64 ∉ n ∧ w ≠ [] ∧ (∀ x ∈ w, x ∈ perlSpace) ∧
      a ≠ [] ∧ 64 ∉ a ∧ b ≠ [] ∧ 41 ∉ b ∧
      s = n ++ (w ++ 40 :: (a ++ 64 :: (b ++ [41]))) ∧
      submatch nameEmailRgx s 1 = n ∧ submatch nameEmailRgx s 2 = a ++ 64 :: b := by
  obtain ⟨segs, hm⟩ := (MatchString_iff _ (by decide) _).mp h
  have hsub1 := submatch_of_match nameEmailRgx (by decide) s segs 1 hm
  have hsub2 := submatch_of_match nameEmailRgx (by decide) s segs 2 hm
  obtain ⟨hf, hs⟩ := matchAtoms_sound _ _ _ hm
  simp only [nameEmailRgx, List.forall₂_cons_left_iff, List.forall₂_nil_left_iff, SegOK,
    inClass_neg, inClass_pos] at hf
  obtain ⟨n, _, ⟨hn1, hn2⟩, ⟨w, _, ⟨hw1, hw2⟩, ⟨_, _, rfl, ⟨a, _, ⟨ha1, ha2⟩,
    ⟨_, _, rfl, ⟨b, _, ⟨hb1, hb2⟩, ⟨_, _, rfl, rfl, rfl⟩, rfl⟩, rfl⟩, rfl⟩, rfl⟩, rfl⟩, rfl⟩ := hf
  refine ⟨n, w, a, b, hn1, ?_, hw1, hw2, ha1, ?_, hb1, ?_, ?_, ?_, ?_⟩
  · intro hx; exact hn2 64 hx (List.mem_singleton.mpr rfl)
  · intro hx; exact ha2 64 hx (List.mem_singleton.mpr rfl)
  · intro hx; exact hb2 41 hx (List.mem_singleton.mpr rfl)
  · rw [← hs]; simp
  · rw [hsub1]; simp [nameEmailRgx]
  · rw [hsub2]; simp [nameEmailRgx]

/-- A text that `nameOnlyRgx` matches is non-empty without `@`, `(` and `)`,
and is group 1. -/
theorem nameOnly_shape (s : Bytes) (h : MatchString nameOnlyRgx s = true) :
    s ≠ [] ∧ (∀ x ∈ s, x ∉ [64, 40, 41]) ∧ submatch nameOnlyRgx s 1 = s := by
  obtain ⟨segs, hm⟩ := (MatchString_iff _ (by decide) _).mp h
  have hsub1 := submatch_of_match nameOnlyRgx (by decide) s segs 1 hm
  obtain ⟨hf, hs⟩ := matchAtoms_sound _ _ _ hm
  simp only [nameOnlyRgx, List.forall₂_cons_left_iff, List.forall₂_nil_left_iff, SegOK,
    inClass_neg] at hf
  obtain ⟨n, _, ⟨hn1, hn2⟩, rfl, rfl⟩ := hf
  have e : n = s := by rw [← hs]; simp
  subst e
  refine ⟨hn1, hn2, ?_⟩
  rw [hsub1]; simp [nameOnlyRgx]

/-- A text that `emailOnlyRgx` matches is `a@b` with `a` and `b` non-empty
without `@`, `(` and `)`, and is group 1. -/
theorem emailOnly_shape (s : Bytes) (h : MatchString emailOnlyRgx s = true) :
    ∃ a b, a ≠ [] ∧ (∀ x ∈ a, x ∉ [64, 40, 41]) ∧ b ≠ [] ∧ (∀ x ∈ b, x ∉ [64, 40, 41]) ∧
      s = a ++ 64 :: b ∧ submatch emailOnlyRgx s 1 = s := by
  obtain ⟨segs, hm⟩ := (MatchString_iff _ (by decide) _).mp h
  have hsub1 := submatch_of_match emailOnlyRgx (by decide) s segs 1 hm
  obtain ⟨hf, hs⟩ := matchAtoms_sound _ _ _ hm
  simp only [emailOnlyRgx, List.forall₂_cons_left_iff, List.forall₂_nil_left_iff, SegOK,
    inClass_neg] at hf
  obtain ⟨a, _, ⟨ha1, ha2⟩, ⟨_, _, rfl, ⟨b, _, ⟨hb1, hb2⟩, rfl, rfl⟩, rfl⟩, rfl⟩ := hf
  have e : s = a ++ 64 :: b := by rw [← hs]; simp
  refine ⟨a, b, ha1, ha2, hb1, hb2, e, ?_⟩
  rw [hsub1, e]; simp [emailOnlyRgx]

/-- C20: for every text, the name that `ParseNameAddress` returns contains no
`@`, and the address is empty or contains an `@`; the empty text gives two
empty strings. -/
theorem C20_name_address_invariant (text : Bytes) :
    64 ∉ (ParseNameAddress text).1 ∧
    ((ParseNameAddress text).2 = [] ∨ 64 ∈ (ParseNameAddress text).2) ∧
    ParseNameAddress (lit "") = (lit "", lit "") := by
  refine ⟨?_, ?_, by decide⟩
  · unfold ParseNameAddress
    split
    · simp
    · split
      · next h =>
        obtain ⟨a, b, w, n, _, _, _, _, _, _, _, hn, _, _, h2⟩ := emailName_shape text h
        simp only [h2]; exact hn
      · split
        · next h =>
          obtain ⟨n, w, a, b, _, hn, _, _, _, _, _, _, _, h1, _⟩ := nameEmail_shape text h
          simp only [h1]; exact hn
        · split
          · next h =>
            obtain ⟨_, h2, h3⟩ := nameOnly_shape text h
            simp only [h3]
            intro hx; exact h2 64 hx (by simp)
          · split <;> simp
  · unfold ParseNameAddress
    split
    · simp
    · split
      · next h =>
        obtain ⟨a, b, w, n, _, _, _, _, _, _, _, _, _, h1, _⟩ := emailName_shape text h
        simp only [h1]; right; simp
      · split
        · next h =>
          obtain ⟨n, w, a, b, _, _, _, _, _, _, _, _, _, _, h2⟩ := nameEmail_shape text h
          simp only [h2]; right; simp
        · split
          · simp
          · split
            · next h =>
              obtain ⟨a, b, _, _, _, _, e, h1⟩ := emailOnly_shape text h
              simp only [h1]; right; rw [e]; simp
            · simp

theorem ParseNameAddress_of_match (text : Bytes) (hne : text ≠ []) :
    (MatchString emailNameRgx text = true →
      ParseNameAddress text = (submatch emailNameRgx text 2, submatch emailNameRgx text 1)) ∧
    (MatchString emailNameRgx text = false → MatchString nameEmailRgx text = true →
      ParseNameAddress text = (submatch nameEmailRgx text 1, submatch nameEmailRgx text 2)) ∧
    (MatchString emailNameRgx text = false → MatchString nameEmailRgx text = false →
      MatchString nameOnlyRgx text = true →
      ParseNameAddress text = (submatch nameOnlyRgx text 1, [])) ∧
    (MatchString emailNameRgx text = false → MatchString nameEmailRgx text = false →
      MatchString nameOnlyRgx text = false → MatchString emailOnlyRgx text = true →
      ParseNameAddress text = ([], submatch emailOnlyRgx text 1)) ∧
    (MatchString emailNameRgx text = false → MatchString nameEmailRgx text = false →
      MatchString nameOnlyRgx text = false → MatchString emailOnlyRgx text = false →
      ParseNameAddress text = ([], [])) := by
  refine ⟨?_, ?_, ?_, ?_, ?_⟩ <;> intros <;> simp [ParseNameAddress, *]

/-- Without `(` in the text neither of the two expressions with parentheses
matches. -/
theorem no_paren_no_match (text : Bytes) (h : 40 ∉ text) :
    MatchString emailNameRgx text = false ∧ MatchString nameEmailRgx text = false := by
  constructor
  · by_contra hc
    rw [Bool.not_eq_false] at hc
    obtain ⟨a, b, w, n, _, _, _, _, _, _, _, _, e, _, _⟩ := emailName_shape text hc
    exact h (by rw [e]; simp)
  · by_contra hc
    rw [Bool.not_eq_false] at hc
    obtain ⟨n, w, a, b, _, _, _, _, _, _, _, _, e, _, _⟩ := nameEmail_shape text hc
    exact h (by rw [e]; simp)

/-- C17: for every non-empty text without `@`, `(` and `)`,
`ParseNameAddress(text)` is `(text, "")`. -/
theorem C17_bare_name (text : Bytes) (hne : text ≠ [])
    (hat : 64 ∉ text) (hopen : 40 ∉ text) (hclose : 41 ∉ text) :
    ParseNameAddress text = (text, lit "") := by
  obtain ⟨h1, h2⟩ := no_paren_no_match text hopen
  have hcls : ∀ c ∈ text, inClass true [64, 40, 41] c = true := by
    intro c hc
    rw [inClass_neg]
    simp only [List.mem_cons, List.mem_singleton, List.not_mem_nil, or_false, not_or]
    exact ⟨fun e => hat (e ▸ hc), fun e => hopen (e ▸ hc), fun e => hclose (e ▸ hc)⟩
  have hm : matchAtoms nameOnlyRgx.atoms text = some [text] := by
    have := matchAtoms_plus_maximal true [64, 40, 41] [] text [] hne hcls (Or.inl rfl)
      (fun c cs _ => by simp [matchAtoms])
    rw [List.append_nil, matchAtoms_nil] at this
    exact this
  have h3 : MatchString nameOnlyRgx text = true := (MatchString_iff _ (by decide) _).mpr ⟨_, hm⟩
  rw [(ParseNameAddress_of_match text hne).2.2.1 h1 h2 h3, (nameOnly_shape text h3).2.2]
  rfl

/-- C17 at the input `"John Doe"`. -/
theorem C17_bare_name_witness : ParseNameAddress (lit "John Doe") = (lit "John Doe", lit "") :=
  C17_bare_name (lit "John Doe") (by decide) (by decide) (by decide) (by decide)

/-- C16 as stated fails: `"john@"` has exactly one `@` and no parentheses,
yet `ParseNameAddress("john@")` is `("", "")` and not `("", "john@")`. -/
theorem C16_counterexample :
    (lit "john@").count 64 = 1 ∧ 40 ∉ lit "john@" ∧ 41 ∉ lit "john@" ∧
    ParseNameAddress (lit "john@") = (lit "", lit "") ∧
    ParseNameAddress (lit "john@") ≠ (lit "", lit "john@") := by
  decide

/-- C16 (amended): for every text `a ++ "@" ++ b` with `a` and `b` non-empty
and without `@`, `(` and `)` (exactly one `@`, neither at the start nor at the
end, and no parentheses), `ParseNameAddress(text)` is `("", text)`. -/
theorem C16_bare_address (a b : Bytes) (ha : a ≠ []) (hb : b ≠ [])
    (ha2 : ∀ x ∈ a, x ∉ [64, 40, 41]) (hb2 : ∀ x ∈ b, x ∉ [64, 40, 41]) :
    ParseNameAddress (a ++ lit "@" ++ b) = (lit "", a ++ lit "@" ++ b) := by
  have hlit : lit "@" = [64] := by decide
  have e : a ++ lit "@" ++ b = a ++ 64 :: b := by rw [hlit]; simp
  rw [e]
  have hne : a ++ 64 :: b ≠ [] := by simp
  have hopen : 40 ∉ a ++ 64 :: b := by
    simp only [List.mem_append, List.mem_cons, not_or]
    exact ⟨fun h => ha2 40 h (by simp), by decide, fun h => hb2 40 h (by simp)⟩
  obtain ⟨h1, h2⟩ := no_paren_no_match _ hopen
  have h3 : MatchString nameOnlyRgx (a ++ 64 :: b) = false := by
    by_contra hc
    rw [Bool.not_eq_false] at hc
    exact (nameOnly_shape _ hc).2.1 64 (by simp) (by simp)
  have hm : matchAtoms emailOnlyRgx.atoms (a ++ 64 :: b) = some [a, [64], b] := by
    have s1 := matchAtoms_plus_maximal true [64, 40, 41] [.char 64, .plus true [64, 40, 41]]
      a (64 :: b) ha (fun c hc => (inClass_neg _ _).mpr (ha2 c hc))
      (Or.inr ⟨64, b, rfl, by decide⟩)
      (fun c cs hc => matchAtoms_char_ne 64 c _ cs (by
        intro e2; subst e2; revert hc; decide))
    have s2 := matchAtoms_plus_maximal true [64, 40, 41] [] b [] hb
      (fun c hc => (inClass_neg _ _).mpr (hb2 c hc)) (Or.inl rfl)
      (fun c cs _ => by simp [matchAtoms])
    rw [List.append_nil, matchAtoms_nil] at s2
    show matchAtoms [.plus true [64, 40, 41], .char 64, .plus true [64, 40, 41]] _ = _
    rw [s1, matchAtoms_char_cons, s2]
    rfl
  have h4 : MatchString emailOnlyRgx (a ++ 64 :: b) = true := (MatchString_iff _ (by decide) _).mpr ⟨_, hm⟩
  rw [(ParseNameAddress_of_match _ hne).2.2.2.1 h1 h2 h3 h4]
  obtain ⟨_, _, _, _, _, _, _, hs⟩ := emailOnly_shape _ h4
  rw [hs]
  rfl

/-- C16 (amended) at the input `"john@x.com"`. -/
theorem C16_bare_address_witness :
    ParseNameAddress (lit "john" ++ lit "@" ++ lit "x.com")
      = (lit "", lit "john" ++ lit "@" ++ lit "x.com") :=
  C16_bare_address (lit "john") (lit "x.com") (by decide) (by decide) (by decide) (by decide)

/-! ## The two layouts with parentheses -/

theorem perlSpace_not_paren : ∀ c ∈ perlSpace, c ≠ 40 ∧ c ≠ 64 ∧ c ≠ 41 := by decide

/-- The last two items `[^@]+` and `\)` of `emailNameRgx` on `n ++ ")"`. -/
theorem match_name_close (n : Bytes) (hn : n ≠ []) (hn2 : 64 ∉ n) :
    matchAtoms [.plus true [64], .char 41] (n ++ [41]) = some [n, [41]] := by
  apply matchAtoms_plus_first true [64] [.char 41] n [41] [[41]] hn
  · intro c hc
    rw [inClass_neg, List.mem_singleton]
    exact fun e => hn2 (e ▸ hc)
  · rw [matchPlus_cons, matchPlus_nil, matchAtoms_char_nil]
    simp
  · rw [matchAtoms_char_cons, matchAtoms_nil]; rfl

/-- C14 as stated fails: `"john@"` contains `@` and no whitespace and
`"John Doe"` is non-empty without `@`, yet
`ParseNameAddress("john@ (John Doe)")` is `("", "")`. -/
theorem C14_counterexample :
    64 ∈ lit "john@" ∧ (∀ x ∈ lit "john@", ¬ asciiSpace x) ∧ lit "John Doe" ≠ [] ∧
    64 ∉ lit "John Doe" ∧
    ParseNameAddress (lit "john@" ++ lit " (" ++ lit "John Doe" ++ lit ")") = (lit "", lit "") ∧
    ParseNameAddress (lit "john@" ++ lit " (" ++ lit "John Doe" ++ lit ")")
      ≠ (lit "John Doe", lit "john@") := by
  decide

/-- C14 (amended): for every address `a ++ "@" ++ b` without whitespace, with
`a` non-empty and without `@` and with `b` non-empty (the first `@` of the
address is neither its first nor its last character), and every non-empty
name without `@`, `ParseNameAddress(address ++ " (" ++ name ++ ")")` is
`(name, address)`. -/
theorem C14_address_name (a b name : Bytes) (ha : a ≠ []) (ha2 : 64 ∉ a) (hb : b ≠ [])
    (hws : ∀ x ∈ a ++ lit "@" ++ b, x ∉ perlSpace) (hn : name ≠ []) (hn2 : 64 ∉ name) :
    ParseNameAddress ((a ++ lit "@" ++ b) ++ lit " (" ++ name ++ lit ")")
      = (name, a ++ lit "@" ++ b) := by
  have hlit : lit "@" = [64] := by decide
  have hlit2 : lit " (" = [32, 40] := by decide
  have hlit3 : lit ")" = [41] := by decide
  have hbws : ∀ x ∈ b, x ∉ perlSpace := fun x hx => hws x (by simp [hx])
  have e : (a ++ lit "@" ++ b) ++ lit " (" ++ name ++ lit ")"
      = a ++ 64 :: (b ++ ([32] ++ 40 :: (name ++ [41]))) := by
    rw [hlit, hlit2, hlit3]; simp
  have e2 : a ++ lit "@" ++ b = a ++ 64 :: b := by rw [hlit]; simp
  rw [e, e2]
  have hne : a ++ 64 :: (b ++ ([32] ++ 40 :: (name ++ [41]))) ≠ [] := by simp
  have hm : matchAtoms emailNameRgx.atoms (a ++ 64 :: (b ++ ([32] ++ 40 :: (name ++ [41]))))
      = some [a, [64], b, [32], [40], name, [41]] := by
    have s1 := matchAtoms_plus_maximal true [64]
      [.char 64, .plus true perlSpace, .plus false perlSpace, .char 40, .plus true [64], .char 41]
      a (64 :: (b ++ ([32] ++ 40 :: (name ++ [41])))) ha
      (fun c hc => by
        rw [inClass_neg, List.mem_singleton]; exact fun e => ha2 (e ▸ hc))
      (Or.inr ⟨64, _, rfl, by decide⟩)
      (fun c cs hc => matchAtoms_char_ne 64 c _ cs (by
        intro e2; subst e2; revert hc; decide))
    have s2 := matchAtoms_plus_maximal true perlSpace
      [.plus false perlSpace, .char 40, .plus true [64], .char 41]
      b ([32] ++ 40 :: (name ++ [41])) hb
      (fun c hc => (inClass_neg _ _).mpr (hbws c hc))
      (Or.inr ⟨32, _, rfl, by decide⟩)
      (fun c cs hc => matchAtoms_plus_head_not false perlSpace _ c cs (by
        rw [inClass_neg] at hc
        simpa [inClass] using hc))
    have s3 := matchAtoms_plus_maximal false perlSpace [.char 40, .plus true [64], .char 41]
      [32] (40 :: (name ++ [41])) (by simp) (by decide)
      (Or.inr ⟨40, _, rfl, by decide⟩)
      (fun c cs hc => matchAtoms_char_ne 40 c _ cs
        (perlSpace_not_paren c ((inClass_pos _ _).mp hc)).1)
    show matchAtoms [.plus true [64], .char 64, .plus true perlSpace, .plus false perlSpace,
      .char 40, .plus true [64], .char 41] _ = _
    rw [s1, matchAtoms_char_cons, s2, s3, matchAtoms_char_cons, match_name_close name hn hn2]
    rfl
  have h1 : MatchString emailNameRgx _ = true := (MatchString_iff _ (by decide) _).mpr ⟨_, hm⟩
  rw [(ParseNameAddress_of_match _ hne).1 h1, submatch_of_match _ (by decide) _ _ 1 hm,
    submatch_of_match _ (by decide) _ _ 2 hm]
  simp [emailNameRgx]

/-- C14 (amended) at the input `"john@x.com (John Doe)"`. -/
theorem C14_address_name_witness :
    ParseNameAddress ((lit "john" ++ lit "@" ++ lit "x.com") ++ lit " (" ++ lit "John Doe" ++ lit ")")
      = (lit "John Doe", lit "john" ++ lit "@" ++ lit "x.com") :=
  C14_address_name (lit "john") (lit "x.com") (lit "John Doe") (by decide) (by decide)
    (by decide) (by decide) (by decide) (by decide)

/-- C15 as stated fails: `"John Doe"` is non-empty without `@` and `"john@"`
contains `@` and no whitespace, yet `ParseNameAddress("John Doe (john@)")` is
`("", "")`. -/
theorem C15_counterexample :
    64 ∈ lit "john@" ∧ (∀ x ∈ lit "john@", ¬ asciiSpace x) ∧ lit "John Doe" ≠ [] ∧
    64 ∉ lit "John Doe" ∧
    ParseNameAddress (lit "John Doe" ++ lit " (" ++ lit "john@" ++ lit ")") = (lit "", lit "") ∧
    ParseNameAddress (lit "John Doe" ++ lit " (" ++ lit "john@" ++ lit ")")
      ≠ (lit "John Doe", lit "john@") := by
  decide

/-- C15 (amended): for every non-empty name without `@` and every address
`a ++ "@" ++ b` without whitespace, with `a` non-empty and without `@` and
with `b` non-empty and without `)`,
`ParseNameAddress(name ++ " (" ++ address ++ ")")` is `(name, address)`. -/
theorem C15_name_address (name a b : Bytes) (hn : name ≠ []) (hn2 : 64 ∉ name)
    (ha : a ≠ []) (ha2 : 64 ∉ a) (hb : b ≠ []) (hb2 : 41 ∉ b)
    (hws : ∀ x ∈ a ++ lit "@" ++ b, x ∉ perlSpace) :
    ParseNameAddress (name ++ lit " (" ++ (a ++ lit "@" ++ b) ++ lit ")")
      = (name, a ++ lit "@" ++ b) := by
  have hlit : lit "@" = [64] := by decide
  have hlit2 : lit " (" = [32, 40] := by decide
  have hlit3 : lit ")" = [41] := by decide
  have haws : ∀ x ∈ a, x ∉ perlSpace := fun x hx => hws x (by simp [hx])
  have hbws : ∀ x ∈ b, x ∉ perlSpace := fun x hx => hws x (by simp [hx])
  have e : name ++ lit " (" ++ (a ++ lit "@" ++ b) ++ lit ")"
      = (name ++ 32 :: 40 :: a) ++ 64 :: ((b ++ [41]) ++ []) := by
    rw [hlit, hlit2, hlit3]; simp
  have e' : name ++ lit " (" ++ (a ++ lit "@" ++ b) ++ lit ")"
      = name ++ ([32] ++ 40 :: (a ++ 64 :: (b ++ [41]))) := by
    rw [hlit, hlit2, hlit3]; simp
  have e2 : a ++ lit "@" ++ b = a ++ 64 :: b := by rw [hlit]; simp
  have hne : name ++ lit " (" ++ (a ++ lit "@" ++ b) ++ lit ")" ≠ [] := by
    rw [e']; simp [hn]
  -- `emailNameRgx` does not match: after the `@` no whitespace follows
  have h1 : MatchString emailNameRgx (name ++ lit " (" ++ (a ++ lit "@" ++ b) ++ lit ")")
      = false := by
    have s1 := matchAtoms_plus_maximal true [64]
      [.char 64, .plus true perlSpace, .plus false perlSpace, .char 40, .plus true [64], .char 41]
      (name ++ 32 :: 40 :: a) (64 :: ((b ++ [41]) ++ [])) (by simp)
      (fun c hc => by
        rw [inClass_neg, List.mem_singleton]
        intro e3; subst e3
        simp only [List.mem_append, List.mem_cons] at hc
        rcases hc with hc | hc | hc | hc
        · exact hn2 hc
        · exact absurd hc (by decide)
        · exact absurd hc (by decide)
        · exact ha2 hc)
      (Or.inr ⟨64, _, rfl, by decide⟩)
      (fun c cs hc => matchAtoms_char_ne 64 c _ cs (by
        intro e2; subst e2; revert hc; decide))
    have s2 := matchAtoms_plus_maximal true perlSpace
      [.plus false perlSpace, .char 40, .plus true [64], .char 41]
      (b ++ [41]) [] (by simp)
      (fun c hc => by
        rw [inClass_neg]
        rcases List.mem_append.mp hc with hc | hc
        · exact hbws c hc
        · rw [List.mem_singleton] at hc; subst hc; decide)
      (Or.inl rfl)
      (fun c cs hc => matchAtoms_plus_head_not false perlSpace _ c cs (by
        rw [inClass_neg] at hc
        simpa [inClass] using hc))
    have hnone : matchAtoms emailNameRgx.atoms
        (name ++ lit " (" ++ (a ++ lit "@" ++ b) ++ lit ")") = none := by
      rw [e]
      show matchAtoms [.plus true [64], .char 64, .plus true perlSpace, .plus false perlSpace,
        .char 40, .plus true [64], .char 41] _ = _
      rw [s1, matchAtoms_char_cons, s2, matchAtoms_plus_nil]
      rfl
    cases hM : MatchString emailNameRgx (name ++ lit " (" ++ (a ++ lit "@" ++ b) ++ lit ")")
    · rfl
    · obtain ⟨segs, hsegs⟩ := (MatchString_iff _ (by decide) _).mp hM
      rw [hnone] at hsegs; cases hsegs
  -- `nameEmailRgx` matches with the name as its first group
  have hrest : matchAtoms [.plus false perlSpace, .char 40, .plus true [64], .char 64,
      .plus true [41], .char 41] ([32] ++ 40 :: (a ++ 64 :: (b ++ [41])))
      = some [[32], [40], a, [64], b, [41]] := by
    have s3 := matchAtoms_plus_maximal false perlSpace
      [.char 40, .plus true [64], .char 64, .plus true [41], .char 41]
      [32] (40 :: (a ++ 64 :: (b ++ [41]))) (by simp) (by decide)
      (Or.inr ⟨40, _, rfl, by decide⟩)
      (fun c cs hc => matchAtoms_char_ne 40 c _ cs
        (perlSpace_not_paren c ((inClass_pos _ _).mp hc)).1)
    have s4 := matchAtoms_plus_maximal true [64] [.char 64, .plus true [41], .char 41]
      a (64 :: (b ++ [41])) ha
      (fun c hc => by
        rw [inClass_neg, List.mem_singleton]; exact fun e => ha2 (e ▸ hc))
      (Or.inr ⟨64, _, rfl, by decide⟩)
      (fun c cs hc => matchAtoms_char_ne 64 c _ cs (by
        intro e2; subst e2; revert hc; decide))
    have s5 := matchAtoms_plus_maximal true [41] [.char 41] b [41] hb
      (fun c hc => by
        rw [inClass_neg, List.mem_singleton]; exact fun e => hb2 (e ▸ hc))
      (Or.inr ⟨41, _, rfl, by decide⟩)
      (fun c cs hc => matchAtoms_char_ne 41 c _ cs (by
        intro e2; subst e2; revert hc; decide))
    rw [s3, matchAtoms_char_cons, s4, matchAtoms_char_cons, s5, matchAtoms_char_cons,
      matchAtoms_nil]
    rfl
  have hstuck : matchPlus (inClass true [64])
      (matchAtoms [.plus false perlSpace, .char 40, .plus true [64], .char 64,
        .plus true [41], .char 41]) ([32] ++ 40 :: (a ++ 64 :: (b ++ [41]))) = none := by
    have := matchPlus_stuck (inClass true [64])
      (matchAtoms [.plus false perlSpace, .char 40, .plus true [64], .char 64,
        .plus true [41], .char 41]) (32 :: 40 :: a) (64 :: (b ++ [41]))
      (Or.inr ⟨64, _, rfl, by decide⟩)
      (fun j hj => by
        cases j with
        | zero =>
          exact matchAtoms_plus_head_not false perlSpace _ 40 _ (by decide)
        | succ j =>
          simp only [List.drop_succ_cons]
          by_cases hd : a.drop j = []
          · rw [hd]
            exact matchAtoms_plus_head_not false perlSpace _ 64 _ (by decide)
          · obtain ⟨c, cs, hcs⟩ := List.exists_cons_of_ne_nil hd
            have hmem : c ∈ a := List.mem_of_mem_drop (by rw [hcs]; exact List.mem_cons_self _ _)
            rw [hcs]
            exact matchAtoms_plus_head_not false perlSpace _ c _ (by
              simpa [inClass] using haws c hmem))
    simpa using this
  have hm : matchAtoms nameEmailRgx.atoms (name ++ lit " (" ++ (a ++ lit "@" ++ b) ++ lit ")")
      = some [name, [32], [40], a, [64], b, [41]] := by
    rw [e']
    exact matchAtoms_plus_first true [64] _ name _ _ hn
      (fun c hc => by
        rw [inClass_neg, List.mem_singleton]; exact fun e => hn2 (e ▸ hc))
      hstuck hrest
  have h2 : MatchString nameEmailRgx _ = true := (MatchString_iff _ (by decide) _).mpr ⟨_, hm⟩
  rw [(ParseNameAddress_of_match _ hne).2.1 h1 h2, submatch_of_match _ (by decide) _ _ 1 hm,
    submatch_of_match _ (by decide) _ _ 2 hm, e2]
  simp [nameEmailRgx]

/-- C15 (amended) at the input `"John Doe (john@x.com)"`. -/
theorem C15_name_address_witness :
    ParseNameAddress (lit "John Doe" ++ lit " (" ++ (lit "john" ++ lit "@" ++ lit "x.com") ++ lit ")")
      = (lit "John Doe", lit "john" ++ lit "@" ++ lit "x.com") :=
  C15_name_address (lit "John Doe") (lit "john") (lit "x.com") (by decide) (by decide)
    (by decide) (by decide) (by decide) (by decide) (by decide)

theorem Chk_examples :
    DecodeEntitiesChk (lit "a &lt; &#x41;&#66; &") = some (lit "a < AB &", none) ∧
    StripCDATAChk (lit "pre<![CDATA[raw&data]]>post") = some (lit "raw&datapost") ∧
    sliceChk (lit "abc") 2 1 = none ∧ sliceFromChk (lit "abc") 4 = none ∧
    indexChk (lit "abc") 3 = none := by
  decide

/-! ## No index or slice out of range, and termination -/

theorem sliceToChk_append (pre rest : Bytes) :
    sliceToChk (pre ++ rest) pre.length = some pre := by
  simp [sliceToChk]

theorem sliceFromChk_append (pre rest : Bytes) :
    sliceFromChk (pre ++ rest) pre.length = some rest := by
  simp [sliceFromChk]

theorem decodeBodyChk_skip (pre rest buf : Bytes) (h : 38 ∉ pre) :
    decodeBodyChk (pre ++ 38 :: rest) buf = decodeBodyChk (38 :: rest) (buf ++ pre) := by
  simp [decodeBodyChk, IndexByte_append rest h, IndexByte_amp, sliceToChk_append,
    sliceFromChk_append, sliceToChk, sliceFromChk]

theorem decodeBodyChk_ref (mid suf buf : Bytes) (h : 59 ∉ mid) :
    decodeBodyChk (38 :: (mid ++ 59 :: suf)) buf = some (refBody mid suf buf) := by
  have h59 : IndexByte (38 :: (mid ++ 59 :: suf)) 59 = some (mid.length + 1) := by
    simp [IndexByte, IndexByte_append suf h]
  have hlen : ¬ (38 :: (mid ++ 59 :: suf)).length = 1 := by simp
  have hsl : sliceChk (38 :: (mid ++ 59 :: suf)) 1 (mid.length + 1) = some mid := by
    rw [sliceChk, if_pos (by simp), slice_cons_succ, slice_zero_append]
  have hdrop : sliceFromChk (38 :: (mid ++ 59 :: suf)) (mid.length + 1 + 1) = some suf := by
    rw [sliceFromChk, if_pos (by simp)]
    simp
  have hto : sliceToChk (38 :: (mid ++ 59 :: suf)) 0 = some [] := by simp [sliceToChk]
  have hfrom : sliceFromChk (38 :: (mid ++ 59 :: suf)) 0 = some (38 :: (mid ++ 59 :: suf)) := by
    simp [sliceFromChk]
  simp only [decodeBodyChk, IndexByte_amp, hto, hfrom, Option.some_bind, List.append_nil,
    hlen, if_false, h59, hsl, hdrop, lit_space, Contains_singleton, decide_eq_true_eq,
    lit_lt, lit_gt, lit_quot, lit_apos, lit_amp, refBody, Option.map_some']
  by_cases h32 : 32 ∈ mid
  · simp only [h32, if_true]
  · simp only [h32, if_false]
    match mid, h with
    | [], _ => simp [indexChk]
    | [c], _ =>
      by_cases hc : c = 35
      · subst hc
        simp only [indexChk, sliceChk, slice]
        simp
        rcases ParseUint [] 10 32 with ⟨i, _ | e⟩ <;> rfl
      · simp [hc, indexChk]
    | c :: c2 :: body, h =>
      by_cases hc : c = 35
      · subst hc
        by_cases hc2 : c2 = 120
        · subst hc2
          simp only [indexChk, sliceChk, slice]
          simp
          rcases ParseUint body 16 32 with ⟨i, _ | e⟩ <;> rfl
        · simp only [indexChk, sliceChk, slice]
          simp [hc2]
          rcases ParseUint (c2 :: body) 10 32 with ⟨i, _ | e⟩ <;> rfl
      · simp [hc, indexChk]

/-- No index or slice expression in the body of the loop of `DecodeEntities`
is out of range: the checked body gives what the body gives. -/
theorem decodeBodyChk_eq (data buf : Bytes) :
    decodeBodyChk data buf = some (decodeBody data buf) := by
  rcases amp_cases data with h1 | ⟨pre, rest, rfl, h1, h2⟩ | ⟨pre, mid, suf, rfl, h1, h2⟩
  · rw [decodeBody_no_amp data buf h1]
    simp [decodeBodyChk, IndexByte_eq_none h1]
  · rw [decodeBodyChk_skip pre rest buf h1, decodeBody_skip pre rest buf h1,
      decodeBody_no_semicolon rest _ h2]
    have h59 : IndexByte (38 :: rest) 59 = none := by
      apply IndexByte_eq_none
      simp only [List.mem_cons, not_or]
      exact ⟨by decide, h2⟩
    simp only [decodeBodyChk, IndexByte_amp, h59, sliceToChk, sliceFromChk, Nat.zero_le,
      if_true, Option.some_bind, List.take_zero, List.drop_zero, List.append_nil]
    split <;> rfl
  · rw [decodeBodyChk_skip pre _ buf h1, decodeBody_skip pre _ buf h1,
      decodeBody_ref mid suf _ h2, decodeBodyChk_ref mid suf _ h2]

/-- The checked loop of `DecodeEntities` never fails when it may make
`len(data)` passes, and gives what the loop gives. -/
theorem decodeLoopChk_eq (n : Nat) (data buf : Bytes) (hn : data.length ≤ n) :
    decodeLoopChk n data buf = some (decodeLoop n data buf) := by
  induction n generalizing data buf with
  | zero =>
    have : data = [] := List.length_eq_zero.mp (Nat.le_zero.mp hn)
    subst this
    rfl
  | succ n ih =>
    simp only [decodeLoopChk, decodeLoop, decodeBodyChk_eq]
    split
    · cases hb : decodeBody data buf with
      | ret r => rfl
      | next d b =>
        have := decodeBody_next hb
        exact ih d b (by omega)
    · rfl

/-- Where `substr` is found, it lies inside `s`. -/
theorem Index_some (s substr : Bytes) (i : Nat) (h : Index s substr = some i) :
    HasPrefix (s.drop i) substr = true ∧ i + substr.length ≤ s.length := by
  induction s generalizing i with
  | nil =>
    simp only [Index] at h
    split at h
    · next hs => cases h; subst hs; simp [HasPrefix]
    · cases h
  | cons b bs ih =>
    rw [Index] at h
    split at h
    · next hp =>
      cases h
      refine ⟨hp, ?_⟩
      have := ((HasPrefix_iff _ _).mp hp).length_le
      simpa using this
    · simp only [Option.map_eq_some'] at h
      obtain ⟨j, hj, rfl⟩ := h
      obtain ⟨g1, g2⟩ := ih j hj
      exact ⟨by simpa using g1, by simp at g2 ⊢; omega⟩

/-- Where `indexAt` finds both markers, the end marker lies at least nine
bytes after the start marker and inside `str`. -/
theorem indexAt_markers (str : Bytes) (curr start end_ : Nat)
    (hs : indexAt str CDATA_START curr = some start)
    (he : indexAt str CDATA_END start = some end_) :
    curr ≤ start ∧ start + 9 ≤ end_ ∧ end_ + 3 ≤ str.length := by
  simp only [indexAt, Option.map_eq_some'] at hs he
  obtain ⟨i, hi, rfl⟩ := hs
  obtain ⟨j, hj, rfl⟩ := he
  obtain ⟨hp, _⟩ := Index_some _ _ _ hi
  rw [List.drop_drop] at hp
  obtain ⟨t, ht⟩ := (HasPrefix_iff _ _).mp hp
  have e : i + curr = curr + i := Nat.add_comm _ _
  rw [e] at hj ⊢
  rw [← ht, Index_skip CDATA_START t CDATA_END (START_no_END t)] at hj
  simp only [Option.map_eq_some'] at hj
  obtain ⟨j2, hj2, rfl⟩ := hj
  obtain ⟨_, hb2⟩ := Index_some _ _ _ hj2
  have hl : (List.drop (curr + i) str).length = 9 + t.length := by
    rw [← ht, List.length_append, CDATA_START_length]
  rw [List.length_drop] at hl
  rw [CDATA_START_length]
  rw [CDATA_END_length] at hb2
  omega

/-- The checked loop of `StripCDATA` never fails when it may make
`len(str) - curr` passes, and gives what the loop gives. -/
theorem stripLoopChk_eq (str : Bytes) (n curr : Nat) (buf : Bytes)
    (hn : str.length ≤ n + curr) :
    stripLoopChk str n curr buf = some (stripLoop str n curr buf) := by
  induction n generalizing curr buf with
  | zero =>
    simp only [stripLoopChk, stripLoop]
    rw [if_neg (by omega)]
  | succ n ih =>
    simp only [stripLoopChk, stripLoop]
    split
    · next hc =>
      have hfrom : sliceFromChk str curr = some (str.drop curr) := by
        rw [sliceFromChk, if_pos (by omega)]
      have hdec : DecodeEntitiesChk (str.drop curr) = some (DecodeEntities (str.drop curr)) :=
        decodeLoopChk_eq _ _ _ (le_refl _)
      have hi1 : indexAtChk str CDATA_START curr = some (indexAt str CDATA_START curr) := by
        rw [indexAtChk, hfrom]; rfl
      rw [hi1, Option.some_bind]
      cases hs : indexAt str CDATA_START curr with
      | none => simp only [hfrom, hdec, Option.some_bind, Option.map_some']
      | some start =>
        have hsl : start ≤ str.length := by
          simp only [indexAt, Option.map_eq_some'] at hs
          obtain ⟨i, hi, rfl⟩ := hs
          have := (Index_some _ _ _ hi).2
          rw [List.length_drop] at this
          omega
        have hi2 : indexAtChk str CDATA_END start = some (indexAt str CDATA_END start) := by
          rw [indexAtChk, sliceFromChk, if_pos hsl]; rfl
        simp only [hi2, Option.some_bind]
        cases he : indexAt str CDATA_END start with
        | none => simp only [hfrom, hdec, Option.some_bind, Option.map_some']
        | some end_ =>
          obtain ⟨g1, g2, g3⟩ := indexAt_markers str curr start end_ hs he
          simp only [sliceChk, CDATA_START_length, CDATA_END_length]
          rw [if_pos ⟨g2, by omega⟩, Option.some_bind]
          exact ih _ _ (by omega)
    · rfl

/-- C19: `DecodeEntities` and `StripCDATA` end on every input and take no
index or slice out of range: with every index and slice expression checked
and with at most `len(str)` passes of the loop they give the same result.
In `DecodeEntities`, when `data` starts with `&#x` the index of the first `;`
is at least 3.  In `StripCDATA`, when both markers are found, the end marker
is at least at `start + 9` and inside `str`, the start marker is not before
the cursor, and the new cursor is larger than the old one. -/
theorem C19_no_panic_and_termination :
    (∀ str, DecodeEntitiesChk str = some (DecodeEntities str)) ∧
    (∀ str, StripCDATAChk str = some (StripCDATA str)) ∧
    (∀ data end_, data[0]? = some 38 → data[1]? = some 35 → data[2]? = some 120 →
      IndexByte data 59 = some end_ → 3 ≤ end_ ∧ end_ < data.length) ∧
    (∀ str curr start end_, curr < str.length →
      indexAt str CDATA_START curr = some start → indexAt str CDATA_END start = some end_ →
      curr ≤ start ∧ start + CDATA_START.length ≤ end_ ∧ end_ + CDATA_END.length ≤ str.length ∧
        curr < curr + end_ + CDATA_END.length) := by
  refine ⟨fun str => decodeLoopChk_eq _ _ _ (le_refl _),
    fun str => stripLoopChk_eq str _ 0 [] (by omega), ?_, ?_⟩
  · intro data end_ h0 h1 h2 h59
    obtain ⟨g1, _, g3⟩ := IndexByte_some h59
    refine ⟨?_, g3⟩
    match data, h0, h1, h2 with
    | a :: b :: c :: rest, h0, h1, h2 =>
      simp only [List.getElem?_cons_zero, List.getElem?_cons_succ, Option.some.injEq] at h0 h1 h2
      subst h0 h1 h2
      by_contra hlt
      have hlt : end_ < 3 := by omega
      interval_cases end_
      · simp [IndexByte] at h59
      · simp [IndexByte] at h59
      · simp [IndexByte] at h59
  · intro str curr start end_ _ hs he
    obtain ⟨g1, g2, g3⟩ := indexAt_markers str curr start end_ hs he
    rw [CDATA_START_length, CDATA_END_length]
    exact ⟨g1, g2, g3, by omega⟩

end Gofeed
